import Mathlib

/-!
Verification development for the FedDES discrete-event federated-learning
simulator (sources: `src/simulation/algorithm/FedCompass.cpp` and
`src/simulation/algorithm/FedAvg.cpp`).

The C++ code is shallowly embedded here:
* `double` values that carry virtual time, speeds and costs are modelled as
  exact rationals (ℚ); `static_cast<int>` on a `double` is modelled by
  `truncInt` (truncation toward zero, the C++ semantics);
* the `SchedulerCompass` class becomes the state record `Sched`, and its
  member functions become pure state transformers; virtual time is threaded
  through the state (`Sched.now`);
* the per-group delayed aggregation actor becomes a pending-deadline entry
  `(group id, latest_arrival_time)` in `Sched.pend`; firing it runs
  `_group_aggregation` on that group at the scheduled instant, which is the
  scheduling the code sets up in `_create_group` / `_assign_group`
  (the C++ lambda re-reads `group_counter` when the spawned actor is first
  scheduled; the embedding uses the group id current at actor creation);
* each scheduler reaction to a message (a client arrival, a deadline firing)
  is modelled as one atomic transition, `runEvent`; events carry the virtual
  time at which they occur, times are monotone, and a deadline that is due
  fires before any arrival at or past its scheduled instant;
* the straggler configuration parser `parse_client_effects` becomes a total
  function into `Option` (aborting `xbt_assert` = `none`), over a typed
  representation of the JSON rules.
-/

namespace FedDES

/-! ## Basic numeric helpers -/

/-- C++ `static_cast<int>` on a floating value: truncation toward zero. -/
def truncInt (x : ℚ) : Int := if 0 ≤ x then Int.floor x else - Int.floor (-x)

/-- `SPEED_MOMENTUM` constant of `SchedulerCompass` (0.9). -/
def SPEED_MOMENTUM : ℚ := 9/10

/-- The exponential smoothing step of `SchedulerCompass::_record_info`:
`speed = (1.0 - SPEED_MOMENTUM) * speed + SPEED_MOMENTUM * local_speed`. -/
def smoothSpeed (old sample : ℚ) : ℚ :=
  (1 - SPEED_MOMENTUM) * old + SPEED_MOMENTUM * sample

/-- The speed estimate held for one client after observing a first per-step
sample `s1` (which initialises the estimate, first branch of `_record_info`)
followed by the later samples `rest` (each folded in by `smoothSpeed`). -/
def speedAfterSamples (s1 : ℚ) (rest : List ℚ) : ℚ :=
  rest.foldl smoothSpeed s1

/-- The whole speed trajectory: the estimate after each observation. -/
def speedTrajectory (s1 : ℚ) (rest : List ℚ) : List ℚ :=
  s1 :: (rest.scanl smoothSpeed s1).tail

/-! ## Association-list helpers

`std::map` and `std::unordered_map` contents are modelled as association
lists.  `mlookup` is `find`, `mmodify` mutates the mapped value in place,
`minsert` is `operator[]` assignment (insert or replace, keeping `std::map`
key order), `merase` is `erase`. -/

def mlookup {κ α : Type} [DecidableEq κ] : List (κ × α) → κ → Option α
  | [], _ => none
  | (k, v) :: rest, i => if k = i then some v else mlookup rest i

def mmodify {κ α : Type} [DecidableEq κ] : List (κ × α) → κ → (α → α) → List (κ × α)
  | [], _, _ => []
  | (k, v) :: rest, i, f =>
    if k = i then (k, f v) :: rest else (k, v) :: mmodify rest i f

def minsert {α : Type} : List (Nat × α) → Nat → α → List (Nat × α)
  | [], i, v => [(i, v)]
  | (k, w) :: rest, i, v =>
    if i < k then (i, v) :: (k, w) :: rest
    else if i = k then (i, v) :: rest
    else (k, w) :: minsert rest i v

def merase {κ α : Type} [DecidableEq κ] : List (κ × α) → κ → List (κ × α)
  | [], _ => []
  | (k, v) :: rest, i =>
    if k = i then merase rest i else (k, v) :: merase rest i

/-! ## Straggler configuration parsing (`parse_client_effects`)

A typed representation of one JSON straggler rule.  `effect` is the
(mandatory) `"effect"` field; the three selector fields are present or
absent exactly as in the JSON object.  The `"range"` selector comes either
as a two-element array or as a `{start, end}` object. -/

inductive RangeSpec : Type
  | pair (lo hi : Int)
  | obj (lo hi : Int)
deriving Repr, DecidableEq

structure Rule where
  effect : ℚ
  client : Option Int
  clients : Option (List Int)
  range : Option RangeSpec
deriving Repr, DecidableEq

/-- All integers from `lo` to `hi` inclusive (the loop
`for (int client = start_client; client <= end_client; ++client)`). -/
def rangeIds (lo hi : Int) : List Int :=
  (List.range (hi + 1 - lo).toNat).map (fun k => lo + (k : Int))

/-- The clients a rule is applied to, in the order the code applies them:
first `client`, then every entry of `clients`, then the `range` ids. -/
def ruleTargets (r : Rule) : List Int :=
  r.client.toList ++ (r.clients.getD []) ++
    (match r.range with
     | none => []
     | some (RangeSpec.pair lo hi) => rangeIds lo hi
     | some (RangeSpec.obj lo hi) => rangeIds lo hi)

/-- Whether the `range` selector (if present) is well-formed
(`start_client <= end_client`). -/
def ruleRangeOk (r : Rule) : Prop :=
  match r.range with
  | none => True
  | some (RangeSpec.pair lo hi) => lo ≤ hi
  | some (RangeSpec.obj lo hi) => lo ≤ hi

instance (r : Rule) : Decidable (ruleRangeOk r) := by
  unfold ruleRangeOk; cases h : r.range with
  | none => exact inferInstance
  | some v => cases v <;> exact inferInstance

/-- The lambda `apply_to_client` of `parse_client_effects`: insert the
effect, or multiply it onto an existing entry. -/
def applyEffect (effects : List (Int × ℚ)) (id : Int) (e : ℚ) : List (Int × ℚ) :=
  match mlookup effects id with
  | none => effects ++ [(id, e)]
  | some v => mmodify effects id (fun _ => v * e)

/-- A rule passes every `xbt_assert` of the parsing loop: positive
`effect`, a well-formed `range` (`start <= end`), every targeted id inside
`[0, total_clients)`, and at least one targeted client (`applied`). -/
def ruleOk (totalClients : Nat) (r : Rule) : Prop :=
  0 < r.effect ∧ ruleRangeOk r ∧
    (∀ id ∈ ruleTargets r, 0 ≤ id ∧ id < (totalClients : Int)) ∧
    ruleTargets r ≠ []

instance (totalClients : Nat) (r : Rule) : Decidable (ruleOk totalClients r) := by
  unfold ruleOk
  exact inferInstance

/-- One iteration of the rule loop of `parse_client_effects`: when every
`xbt_assert` of the iteration passes, apply the effect to each targeted
client in order; otherwise the program aborts (`none`). -/
def parseRule (totalClients : Nat) (effects : List (Int × ℚ)) (r : Rule) :
    Option (List (Int × ℚ)) :=
  if ruleOk totalClients r then
    some ((ruleTargets r).foldl (fun ef id => applyEffect ef id r.effect) effects)
  else none

/-- The rule loop of `parse_client_effects`, aborting on the first invalid
rule. -/
def parseRules (totalClients : Nat) : List (Int × ℚ) → List Rule →
    Option (List (Int × ℚ))
  | ef, [] => some ef
  | ef, r :: rs =>
    match parseRule totalClients ef r with
    | none => none
    | some ef2 => parseRules totalClients ef2 rs

/-- `parse_client_effects`: run the rule loop from the empty effect map. -/
def parse_client_effects (rules : List Rule) (totalClients : Nat) :
    Option (List (Int × ℚ)) :=
  parseRules totalClients [] rules

/-- The `client_multiplier` lambda of `main`: the parsed effect of a client,
defaulting to `1.0` when the client is in no rule. -/
def clientMultiplier (effects : List (Int × ℚ)) (i : Int) : ℚ :=
  (mlookup effects i).getD 1

/-! ## Client actor host speed (`client`, FedCompass lines 675-679 and
FedAvg lines 95-98)

```
double speed = host->get_speed();
if (control == 2)
    speed *= dist(gen);
```
`draw` is the single sample of `dist` (a `Normal(0, 0.12)` draw) consumed
by `dist(gen)` at client start. -/

def clientHostSpeed (control : Int) (hostSpeed draw : ℚ) : ℚ :=
  if control = 2 then hostSpeed * draw else hostSpeed

/-! ## Training-cost arguments handed to client actors by `main`

In `FedAvg.cpp` the Node-1 spawn loop passes
`training_cost * 0.8 * multiplier` and the other-node loop passes
`training_cost * multiplier`.  In `FedCompass.cpp` both spawn loops pass
`per_step_training_cost * multiplier`. -/

def fedAvgTrainingCostNode1 (trainingCost mult : ℚ) : ℚ :=
  trainingCost * (4/5) * mult

def fedAvgTrainingCostOther (trainingCost mult : ℚ) : ℚ :=
  trainingCost * mult

def fedCompassTrainingCostNode1 (perStepTrainingCost mult : ℚ) : ℚ :=
  perStepTrainingCost * mult

def fedCompassTrainingCostOther (perStepTrainingCost mult : ℚ) : ℚ :=
  perStepTrainingCost * mult

/-! ## FedAvg round structure (`server` and `client` of FedAvg.cpp)

The server sends, to each client, one model message per round of the loop
`for (int round = 0; round < epoch_count; round++)`, and nothing after the
loop ends.  The client, after its bootstrap receive of `comm_cost`, runs
`for (int i = 0; i < num_epochs + 1; i++)`, each iteration starting with a
blocking receive. -/

/-- The list of model messages the FedAvg server sends to one fixed client,
one per round (payload is the constant `1`). -/
def fedAvgServerSendsToClient : Nat → List ℚ
  | 0 => []
  | e + 1 => fedAvgServerSendsToClient e ++ [1]

/-- Messages the FedAvg server sends to a client after its round loop:
none (the server function simply returns). -/
def fedAvgServerSentinels : List ℚ := []

/-- The receive slots of the FedAvg client loop after the bootstrap receive:
one per iteration of `for (i = 0; i < num_epochs + 1; i++)`. -/
def fedAvgClientReceives : Nat → List Unit
  | 0 => [()]
  | e + 1 => fedAvgClientReceives e ++ [()]

/-! ## FedCompass server termination (`server` and `client` of
FedCompass.cpp, lines 621-651 and 689-708) -/

/-- The server scheduler loop: each iteration runs one scheduler update and
increments the local `global_step`; the loop breaks exactly when
`global_step == num_epochs`.  Fuel bounds the number of iterations the model
unfolds; `none` means the loop did not exit within the fuel.  Returns the
final `global_step`. -/
def fedCompassServerLoop : Nat → Int → Int → Option Int
  | 0, _, _ => none
  | fuel + 1, gs, e =>
    let gs2 := gs + 1
    if gs2 = e then some gs2 else fedCompassServerLoop fuel gs2 e

/-- The drain loop `while(!pending_clients.empty())`: consume replies in
order, erasing each reported client from the pending set, stopping when the
set is empty.  Returns the final pending set after the available replies. -/
def drainPending : List Nat → List Nat → List Nat
  | p, [] => p
  | p, r :: rs => if p = [] then [] else drainPending (p.erase r) rs

/-- The sentinel loop `for(int i = 0; i < num_clients; i++)
mailboxes[i]->put(new int(-1), 0)`: one `-1` message per client mailbox. -/
def sentinelSends (numClients : Nat) : List (Nat × Int) :=
  (List.range numClients).map (fun i => (i, -1))

/-- The FedCompass client loop test `if (*num_local_steps < 0) break`:
`true` iff the received message makes the client actor exit its loop. -/
def clientTerminatesOn (msg : Int) : Bool := decide (msg < 0)

/-! ## The FedCompass scheduler (`SchedulerCompass`)

The scheduler state.  `client_info` is the `std::vector<ClientInfo*>` (a
null pointer is `none`); `group_of_arrival` is the `std::map<int, GOA*>`;
`group_pseudo_grad`, `global_step` and `general_buffer_size` are the
embedded `ServerFedCompass` fields the scheduler drives; `pend` holds the
not-yet-fired delayed aggregation actors as `(group id, fire time)`;
`sent` logs every `_send_global_model_to_client` dispatch as
`(client, local_steps)`; `now` is the current virtual time
(`Engine::get_clock() - start_time`). -/

structure ClientInfo where
  step : Int
  local_steps : Int
  goa : Int
  total_steps : Int
  speed : ℚ
  start_time : ℚ
deriving Repr, DecidableEq

/-- The `ClientInfo()` default constructor. -/
def ciDefault : ClientInfo :=
  { step := -1, local_steps := -1, goa := -1, total_steps := -1,
    speed := -1, start_time := 0 }

structure GOA where
  clients : List Nat
  arrived_clients : List Nat
  expected_arrival_time : ℚ
  latest_arrival_time : ℚ
deriving Repr, DecidableEq

structure Sched where
  iter : Int
  num_clients : Nat
  num_global_epochs : Int
  group_counter : Nat
  max_local_steps : Int
  min_local_steps : Int
  max_local_steps_bound : Int
  LATEST_TIME_FACTOR : ℚ
  client_info : Nat → Option ClientInfo
  group_of_arrival : List (Nat × GOA)
  global_step : Int
  general_buffer_size : Int
  group_pseudo_grad : List (Nat × Int)
  pend : List (Nat × ℚ)
  sent : List (Nat × Int)
  now : ℚ

/-- The `SchedulerCompass` constructor (with the embedded
`ServerFedCompass`): `min_local_steps = max((int)(q_ratio*M), 1)`,
`max_local_steps_bound = (int)(1.2*M)`, everything else empty/zero. -/
def initSched (M : Int) (N : Nat) (E : Int) (qv lam : ℚ) : Sched :=
  { iter := 0, num_clients := N, num_global_epochs := E, group_counter := 0,
    max_local_steps := M,
    min_local_steps := max (truncInt (qv * (M : ℚ))) 1,
    max_local_steps_bound := truncInt ((6/5 : ℚ) * (M : ℚ)),
    LATEST_TIME_FACTOR := lam,
    client_info := fun _ => none,
    group_of_arrival := [], global_step := 0, general_buffer_size := 0,
    group_pseudo_grad := [], pend := [], sent := [], now := 0 }

/-- `client_info[c]` with the null pointer read as a default-constructed
`ClientInfo` (the code only dereferences non-null entries). -/
def ciGetD (s : Sched) (c : Nat) : ClientInfo :=
  (s.client_info c).getD ciDefault

def setCI (s : Sched) (c : Nat) (ci : ClientInfo) : Sched :=
  { s with client_info := fun j => if j = c then some ci else s.client_info j }

/-- `SchedulerCompass::_record_info`.  `curr_time` is `s.now`; on the first
return of a client the sample uses `start_time = 0` and
`local_steps = max_local_steps`, and the fresh `ClientInfo` gets
`speed = sample`, `step = 0`, `total_steps = min_local_steps`; afterwards
the speed is exponentially smoothed by `smoothSpeed`. -/
def recordInfo (s : Sched) (c : Nat) : Sched :=
  match s.client_info c with
  | none =>
    let localSpeed := (s.now - 0) / ((s.max_local_steps : ℚ))
    setCI s c { ciDefault with speed := localSpeed, step := 0,
                               total_steps := s.min_local_steps }
  | some ci =>
    let localSpeed := (s.now - ci.start_time) / ((ci.local_steps : ℚ))
    setCI s c { ci with speed := smoothSpeed ci.speed localSpeed }

/-- The group-selection loop of `SchedulerCompass::_join_group`: fold over
the live groups in `std::map` (key) order carrying
`(assigned_group, assigned_steps)`, skipping a group when its step count is
below `min_local_steps`, below the best so far, or above
`max_local_steps_bound`. -/
def joinScan (s : Sched) (c : Nat) : Int × Int :=
  s.group_of_arrival.foldl
    (fun acc kg =>
      let remaining := kg.2.expected_arrival_time - s.now
      let k := truncInt (remaining / (ciGetD s c).speed)
      if k < s.min_local_steps ∨ k < acc.2 ∨ s.max_local_steps_bound < k then acc
      else ((kg.1 : Int), k))
    (-1, -1)

/-- `SchedulerCompass::_join_group`: on success record the assignment in the
client's info and push the client onto the chosen group's `clients`. -/
def joinGroup (s : Sched) (c : Nat) : Sched × Bool :=
  let res := joinScan s c
  if res.1 = -1 then (s, false)
  else
    let gi := res.1.toNat
    let s1 := setCI s c { ciGetD s c with goa := res.1, local_steps := res.2,
                                          start_time := s.now }
    let m := mmodify s1.group_of_arrival gi
      (fun g => { g with clients := g.clients ++ [c] })
    ({ s1 with group_of_arrival := m }, true)

/-- The `fastest_speed` fold of `SchedulerCompass::_create_group` over
`clients ++ arrived_clients` of one group.  The C++ fold starts from
`+infinity`; `none` stands for that untouched initial value (only possible
for a memberless group, which the scheduler never keeps live). -/
def fastestSpeed (s : Sched) (g : GOA) : Option ℚ :=
  (g.clients ++ g.arrived_clients).foldl
    (fun acc c =>
      match acc with
      | none => some (ciGetD s c).speed
      | some f => some (min f (ciGetD s c).speed))
    none

/-- The step-budget loop of `SchedulerCompass::_create_group`: for every
group whose `latest_arrival_time` is still ahead, bound the steps by the
earliest plausible re-arrival of that group's members
(`est = latest + fastest * M`, `k = ((int)(est - now)) / speed`), and keep
the maximum `k` not exceeding `max_local_steps`. -/
def createScan (s : Sched) (c : Nat) : Int :=
  s.group_of_arrival.foldl
    (fun acc kg =>
      if s.now < kg.2.latest_arrival_time then
        match fastestSpeed s kg.2 with
        | none => acc
        | some f =>
          let est := kg.2.latest_arrival_time + f * ((s.max_local_steps : ℚ))
          let k := truncInt (((truncInt (est - s.now) : Int) : ℚ) / (ciGetD s c).speed)
          if k ≤ s.max_local_steps then max acc k else acc
      else acc)
    (-1)

/-- The clamping of the scanned budget in `SchedulerCompass::_create_group`:
`assigned ∈ [0, min_local_steps) ↦ min_local_steps`,
`assigned < 0 ↦ max_local_steps`. -/
def createAssignedSteps (s : Sched) (c : Nat) : Int :=
  let a0 := createScan s c
  let a1 := if 0 ≤ a0 ∧ a0 < s.min_local_steps then s.min_local_steps else a0
  if a1 < 0 then s.max_local_steps else a1

/-- `SchedulerCompass::_create_group`: clamp the scanned budget, create the
new group under the current `group_counter` with
`expected = now + a*speed` and `latest = now + a*speed*λ`, schedule its
delayed aggregation at `latest`, record the assignment, bump the counter. -/
def createGroup (s : Sched) (c : Nat) : Sched :=
  let a := createAssignedSteps s c
  let gid := s.group_counter
  let sp := (ciGetD s c).speed
  let expected := s.now + (a : ℚ) * sp
  let latest := s.now + (a : ℚ) * sp * s.LATEST_TIME_FACTOR
  let g : GOA := { clients := [c], arrived_clients := [],
                   expected_arrival_time := expected,
                   latest_arrival_time := latest }
  let s1 := { s with group_of_arrival := minsert s.group_of_arrival gid g,
                     pend := s.pend ++ [(gid, latest)] }
  let s2 := setCI s1 c { ciGetD s1 c with goa := (gid : Int), local_steps := a,
                                          start_time := s.now }
  { s2 with group_counter := gid + 1 }

/-- `SchedulerCompass::_assign_group`: with no live group, create the first
group directly (`expected = now + M*speed`, but
`latest = now + speed*λ` — the single-step horizon kept verbatim from the
code); otherwise try `_join_group` and fall back to `_create_group`. -/
def assignGroup (s : Sched) (c : Nat) : Sched :=
  if s.group_of_arrival = [] then
    let gid := s.group_counter
    let sp := (ciGetD s c).speed
    let expected := s.now + ((s.max_local_steps : ℚ)) * sp
    let latest := s.now + sp * s.LATEST_TIME_FACTOR
    let g : GOA := { clients := [c], arrived_clients := [],
                     expected_arrival_time := expected,
                     latest_arrival_time := latest }
    let s1 := { s with group_of_arrival := minsert s.group_of_arrival gid g,
                       pend := s.pend ++ [(gid, latest)] }
    let s2 := setCI s1 c { ciGetD s1 c with goa := (gid : Int),
                                            local_steps := s.max_local_steps,
                                            start_time := s.now }
    { s2 with group_counter := gid + 1 }
  else
    let jr := joinGroup s c
    if jr.2 then jr.1 else createGroup s c

/-- `SchedulerCompass::_send_global_model_to_client`: the dispatch of
`client_steps` to the client's mailbox, logged in `sent`. -/
def sendGlobalModelToClient (s : Sched) (c : Nat) (steps : Int) : Sched :=
  { s with sent := s.sent ++ [(c, steps)] }

/-- `SchedulerCompass::_send_model`: accumulate `total_steps` and dispatch
the client's current `local_steps` verbatim. -/
def sendModel (s : Sched) (c : Nat) : Sched :=
  let ci := ciGetD s c
  let s1 := setCI s c { ci with total_steps := ci.total_steps + ci.local_steps }
  sendGlobalModelToClient s1 c ci.local_steps

/-- `ServerFedCompass::update`. -/
def serverUpdate (s : Sched) : Sched :=
  { s with global_step := s.global_step + 1 }

/-- `ServerFedCompass::single_buffer`. -/
def serverSingleBuffer (s : Sched) : Sched :=
  { s with general_buffer_size := s.general_buffer_size + 1 }

/-- `ServerFedCompass::buffer`: reset the group's pseudo-grad count to 0 if
the key already exists, then increment it (`operator[]` creates the entry at
0 when absent). -/
def serverBuffer (s : Sched) (gid : Nat) : Sched :=
  let pg :=
    if (mlookup s.group_pseudo_grad gid).isSome then
      mmodify s.group_pseudo_grad gid (fun _ => 0)
    else s.group_pseudo_grad
  let pg2 :=
    match mlookup pg gid with
    | some v => mmodify pg gid (fun _ => v + 1)
    | none => minsert pg gid 1
  { s with group_pseudo_grad := pg2 }

/-- `ServerFedCompass::update_group`: only acts when the group is absent
from `group_pseudo_grad` (behaviour kept verbatim): bump `global_step`,
reset `general_buffer_size`, erase the (absent) key. -/
def serverUpdateGroup (s : Sched) (gid : Nat) : Sched :=
  if (mlookup s.group_pseudo_grad gid).isSome then s
  else { s with global_step := s.global_step + 1, general_buffer_size := 0,
                group_pseudo_grad := merase s.group_pseudo_grad gid }

/-- `ServerFedCompass::update_all`. -/
def serverUpdateAll (s : Sched) : Sched :=
  { s with global_step := s.global_step + 1 }

/-- Insertion into a speed-sorted list of `(client, speed)` pairs. -/
def insSorted (p : Nat × ℚ) : List (Nat × ℚ) → List (Nat × ℚ)
  | [] => [p]
  | q :: rest => if p.2 ≤ q.2 then p :: q :: rest else q :: insSorted p rest

/-- The `std::sort` by ascending speed in `_group_aggregation`. -/
def sortBySpeed : List (Nat × ℚ) → List (Nat × ℚ)
  | [] => []
  | p :: rest => insSorted p (sortBySpeed rest)

/-- `SchedulerCompass::_group_aggregation` on group `gid` (no-op when the
group no longer exists): run `update_group`, stamp every arrived client with
the (possibly bumped) `global_step`, sort the arrived clients by ascending
speed, zero the group's deadlines, reassign every arrived client with
`_assign_group`, delete the group if its `clients` list is empty, then
either `_send_model` to each arrived client (when `iter < E`) or
`update_all`. -/
def groupAggregation (s : Sched) (gid : Nat) : Sched :=
  match mlookup s.group_of_arrival gid with
  | none => s
  | some g =>
    let s1 := serverUpdateGroup s gid
    let s2 := g.arrived_clients.foldl
      (fun t c => setCI t c { ciGetD t c with step := t.global_step }) s1
    let pairs := g.arrived_clients.map (fun c => (c, (ciGetD s2 c).speed))
    let sorted := sortBySpeed pairs
    let m3 := mmodify s2.group_of_arrival gid
      (fun h => { h with expected_arrival_time := 0, latest_arrival_time := 0 })
    let s3 := { s2 with group_of_arrival := m3 }
    let s4 := sorted.foldl (fun t p => assignGroup t p.1) s3
    let s5 : Sched :=
      match mlookup s4.group_of_arrival gid with
      | some h =>
        if h.clients = [] then
          { s4 with group_of_arrival := merase s4.group_of_arrival gid }
        else s4
      | none => s4
    if s5.iter < s5.num_global_epochs then
      sorted.foldl (fun t p => sendModel t p.1) s5
    else serverUpdateAll s5

/-- `SchedulerCompass::_single_update`: fast server update (or single
buffering), stamp the client with the new `global_step`, reassign it, and
send it a fresh model while `iter < E`. -/
def singleUpdate (s : Sched) (c : Nat) (buffer : Bool) : Sched :=
  let s1 := if buffer then serverSingleBuffer s else serverUpdate s
  let s2 := setCI s1 c { ciGetD s1 c with step := s1.global_step }
  let s3 := assignGroup s2 c
  if s3.iter < s3.num_global_epochs then sendModel s3 c
  else serverUpdateAll s3

/-- `SchedulerCompass::_group_update`: a late client (`now ≥ latest`) is
removed from the group (deleting it when emptied) and handled by
`_single_update(buffer=true)`; a timely client moves from `clients` to
`arrived_clients`, is buffered, and triggers the aggregation when it was the
last expected one.  (The `erase(remove(...))` idiom removes the client's
occurrence from `clients`.) -/
def groupUpdate (s : Sched) (c : Nat) (gid : Nat) : Sched :=
  match mlookup s.group_of_arrival gid with
  | none => s
  | some g =>
    if g.latest_arrival_time ≤ s.now then
      let g1 := { g with clients := g.clients.filter (fun x => x ≠ c) }
      let s1 :=
        if g1.clients = [] then
          { s with group_of_arrival := merase s.group_of_arrival gid }
        else
          { s with group_of_arrival := mmodify s.group_of_arrival gid (fun _ => g1) }
      singleUpdate s1 c true
    else
      let m1 := mmodify s.group_of_arrival gid
        (fun h => { h with clients := h.clients.filter (fun x => x ≠ c),
                           arrived_clients := h.arrived_clients ++ [c] })
      let s1 := { s with group_of_arrival := m1 }
      let s2 := serverBuffer s1 gid
      match mlookup s2.group_of_arrival gid with
      | some h => if h.clients = [] then groupAggregation s2 gid else s2
      | none => s2

/-- `SchedulerCompass::_update`: count the processed return, then dispatch
on the client's current group. -/
def schedUpdateClient (s : Sched) (c : Nat) : Sched :=
  let s1 := { s with iter := s.iter + 1 }
  let gi := (ciGetD s1 c).goa
  if gi = -1 then singleUpdate s1 c false
  else groupUpdate s1 c gi.toNat

/-! ### Scheduler events

One atomic scheduler reaction: either a client's local model arrives at
virtual time `t` (`SchedulerCompass::update`), or a group's delayed
aggregation actor fires at its scheduled time. -/

inductive Ev : Type
  | arrive (c : Nat) (t : ℚ)
  | fire (gid : Nat) (t : ℚ)
deriving Repr, DecidableEq

/-- A due deadline fires before any arrival at or past its scheduled time:
an arrival at `t` is admissible only when every still-pending deadline of a
live group is scheduled strictly later. -/
def deadlineGateB (s : Sched) (t : ℚ) : Bool :=
  s.pend.all
    (fun p => !(mlookup s.group_of_arrival p.1).isSome || decide (t < p.2))

/-- A client can report a local model only when it is actually training:
never seen yet (bootstrap reply to the initial broadcast), or listed in the
`clients` of its current group. -/
def clientReadyB (s : Sched) (c : Nat) : Bool :=
  match s.client_info c with
  | none => true
  | some ci =>
    decide (0 ≤ ci.goa) &&
      (match mlookup s.group_of_arrival ci.goa.toNat with
       | some g => decide (c ∈ g.clients)
       | none => false)

/-- One scheduler event.  `none` when the event is not admissible in the
current state (wrong client, time regression, a due deadline not yet fired,
or a deadline that was never scheduled). -/
def runEvent (s : Sched) (e : Ev) : Option Sched :=
  match e with
  | Ev.arrive c t =>
    if decide (c < s.num_clients) && decide (s.now ≤ t) && deadlineGateB s t
        && clientReadyB s c then
      let s1 := recordInfo { s with now := t } c
      some (schedUpdateClient s1 c)
    else none
  | Ev.fire gid t =>
    if decide ((gid, t) ∈ s.pend) && decide (s.now ≤ t) then
      let s1 := { s with now := t,
                         pend := s.pend.filter (fun p => p ≠ (gid, t)) }
      some (groupAggregation s1 gid)
    else none

/-- Run a sequence of scheduler events. -/
def runTrace (s : Sched) : List Ev → Option Sched
  | [] => some s
  | e :: evs =>
    match runEvent s e with
    | none => none
    | some s2 => runTrace s2 evs

/-! ### State accessors used in the theorem statements -/

def goaDefault : GOA :=
  { clients := [], arrived_clients := [], expected_arrival_time := 0,
    latest_arrival_time := 0 }

/-- Whether group `i` is live (present in `group_of_arrival`). -/
def grpLive (s : Sched) (i : Nat) : Bool :=
  (mlookup s.group_of_arrival i).isSome

def grpClients (s : Sched) (i : Nat) : List Nat :=
  ((mlookup s.group_of_arrival i).getD goaDefault).clients

def grpArrived (s : Sched) (i : Nat) : List Nat :=
  ((mlookup s.group_of_arrival i).getD goaDefault).arrived_clients

def grpExpected (s : Sched) (i : Nat) : ℚ :=
  ((mlookup s.group_of_arrival i).getD goaDefault).expected_arrival_time

def grpLatest (s : Sched) (i : Nat) : ℚ :=
  ((mlookup s.group_of_arrival i).getD goaDefault).latest_arrival_time

/-! ### Concrete runs used as counterexamples and witnesses

Constructor parameters: `max_local_steps = 10`, two clients, `epochs = 100`,
`q_ratio = 1/5`, `lambda = 3/2` (so `min_local_steps = 2`,
`max_local_steps_bound = 12`).  The events: client 0 bootstraps at `t = 1`
and founds group 0; client 1 bootstraps at `t = 11/10` and joins group 0;
client 0 returns at `t = 28/25` (before the deadline `23/20`) and becomes an
arrived client of group 0; the delayed aggregation of group 0 fires at its
scheduled time `23/20` while client 1 is still training, and reassigns
client 0 into the fresh group 1. -/

def cexSched : Sched := initSched 10 2 100 (1/5) (3/2)

def cexTraceOne : List Ev := [Ev.arrive 0 1]

def cexTraceFull : List Ev :=
  [Ev.arrive 0 1, Ev.arrive 1 (11/10), Ev.arrive 0 (28/25), Ev.fire 0 (23/20)]

def cexStateOne : Sched := (runTrace cexSched cexTraceOne).getD cexSched

def cexStateFull : Sched := (runTrace cexSched cexTraceFull).getD cexSched

/-! ### The multiplier laws compared in claim C8 -/

/-- The multiplier stated by spec property P6: a client matched by `k` rules
with effects `e₁ … eₖ` gets `∏ eⱼ` — each **rule** contributes its effect
once.  (This is the spec-side definition to compare against
`parse_client_effects`.) -/
def specRuleProductMultiplier (rules : List Rule) (c : Int) : ℚ :=
  ((rules.filter (fun r => c ∈ ruleTargets r)).map Rule.effect).prod

/-- The multiplier the code actually computes: each **targeting occurrence**
contributes the rule's effect once (a rule listing a client twice applies
its effect twice). -/
def occurrenceProductMultiplier (rules : List Rule) (c : Int) : ℚ :=
  (rules.map (fun r => r.effect ^ ((ruleTargets r).count c))).prod

/-! ### The scheduler invariant

`zeroG` marks a group whose deadline fields are zero — after an aggregation
pass zeroes them (or, degenerately, a group created with a zero horizon at
time 0).  `pendIds` are the groups whose delayed aggregation actor has not
fired yet. -/

def zeroG (g : GOA) : Prop :=
  g.expected_arrival_time = 0 ∧ g.latest_arrival_time = 0

instance (g : GOA) : Decidable (zeroG g) := by unfold zeroG; exact inferInstance

def pendIds (s : Sched) : List Nat := s.pend.map Prod.fst

/-- Well-formedness of one client record: nonnegative speed estimate, a
positive assigned step count, a start time in the past, and membership in
the `clients` or `arrived_clients` of its current group. -/
def ciWF (s : Sched) (c : Nat) : Prop :=
  ∀ ci, s.client_info c = some ci →
    0 ≤ ci.speed ∧ 1 ≤ ci.local_steps ∧ ci.start_time ≤ s.now ∧ 0 ≤ ci.goa ∧
    ∃ g, mlookup s.group_of_arrival ci.goa.toNat = some g ∧
      (c ∈ g.clients ∨ c ∈ g.arrived_clients)

/-- The scheduler invariant, weakened at one group `gid` (the group whose
aggregation pass is in progress) and at the clients of `exc` (whose records
are being rebuilt within the current atomic event).  `R` lists the arrived
clients of `gid` not yet reassigned by the pass.  `Inv` below is the
un-weakened instance. -/
structure InvW (s : Sched) (gid : Nat) (R : List Nat) (exc : List Nat) : Prop where
  nowNN : 0 ≤ s.now
  oneM : 1 ≤ s.max_local_steps
  oneMin : 1 ≤ s.min_local_steps
  keysLt : ∀ p ∈ s.group_of_arrival, p.1 < s.group_counter
  keysND : (s.group_of_arrival.map Prod.fst).Nodup
  pendLt : ∀ p ∈ s.pend, p.1 < s.group_counter
  pendND : (pendIds s).Nodup
  pendSched : ∀ p ∈ s.pend, p.1 ≠ gid →
    ∀ g, mlookup s.group_of_arrival p.1 = some g → p.2 = g.latest_arrival_time
  liveZero : ∀ i g, mlookup s.group_of_arrival i = some g → i ≠ gid →
    i ∉ pendIds s → zeroG g
  clND : ∀ i g, mlookup s.group_of_arrival i = some g → g.clients.Nodup
  arND : ∀ i g, mlookup s.group_of_arrival i = some g → g.arrived_clients.Nodup
  clArDisj : ∀ i g, mlookup s.group_of_arrival i = some g →
    ∀ c ∈ g.clients, c ∉ g.arrived_clients
  clPair : ∀ i j gi gj, mlookup s.group_of_arrival i = some gi →
    mlookup s.group_of_arrival j = some gj → i ≠ j →
    ∀ c ∈ gi.clients, c ∉ gj.clients
  clOwn : ∀ i g, mlookup s.group_of_arrival i = some g → ∀ c ∈ g.clients,
    c < s.num_clients ∧ ∃ ci, s.client_info c = some ci ∧ ci.goa = (i : Int)
  arMem : ∀ i g, mlookup s.group_of_arrival i = some g →
    ∀ c ∈ g.arrived_clients, c < s.num_clients ∧ (s.client_info c).isSome
  arOwn : ∀ i g, mlookup s.group_of_arrival i = some g → i ≠ gid →
    (¬ zeroG g ∨ i ∈ pendIds s) → ∀ c ∈ g.arrived_clients,
    ∀ ci, s.client_info c = some ci → ci.goa = (i : Int)
  arStale : ∀ i g, mlookup s.group_of_arrival i = some g → i ≠ gid →
    zeroG g → i ∉ pendIds s → ∀ c ∈ g.arrived_clients,
    ∀ ci, s.client_info c = some ci → ci.goa ≠ (i : Int)
  arG : ∀ g, mlookup s.group_of_arrival gid = some g → ∀ c ∈ g.arrived_clients,
    ∀ ci, s.client_info c = some ci → ci.goa = (gid : Int) → c ∈ R
  ciOk : ∀ c, c ∉ exc → ciWF s c

/-- The scheduler invariant proper: `InvW` at the never-live group id
`group_counter` with no exceptions. -/
def Inv (s : Sched) : Prop := InvW s s.group_counter [] []

/-- What `_assign_group` (and nothing else in an event) does to the state,
as seen from the outside: constants and `now` untouched, only client `c`'s
record rewritten (with a fresh nonnegative group, `start_time = now` and a
positive step count), existing groups keep their arrived lists and deadline
fields (their `clients` grow at most by `c`), any new group starts with no
arrived clients and a pending deadline at its `latest_arrival_time`, and
pending deadlines only grow by fresh group ids. -/
def AssignPost (s s2 : Sched) (c : Nat) : Prop :=
  s2.now = s.now ∧ s2.num_clients = s.num_clients ∧
  s2.min_local_steps = s.min_local_steps ∧
  s2.max_local_steps = s.max_local_steps ∧
  s2.max_local_steps_bound = s.max_local_steps_bound ∧
  s2.num_global_epochs = s.num_global_epochs ∧ s2.iter = s.iter ∧
  s.group_counter ≤ s2.group_counter ∧
  (∀ j, j ≠ c → s2.client_info j = s.client_info j) ∧
  (∃ ci2, s2.client_info c = some ci2 ∧ 0 ≤ ci2.goa ∧
    ci2.start_time = s.now ∧ 1 ≤ ci2.local_steps) ∧
  (∀ i g, mlookup s.group_of_arrival i = some g → ∃ g2,
    mlookup s2.group_of_arrival i = some g2 ∧
    g2.arrived_clients = g.arrived_clients ∧
    g2.expected_arrival_time = g.expected_arrival_time ∧
    g2.latest_arrival_time = g.latest_arrival_time ∧
    (∀ x ∈ g2.clients, x ∈ g.clients ∨ (x = c ∧ ¬ zeroG g))) ∧
  (∀ i g2, mlookup s2.group_of_arrival i = some g2 →
    mlookup s.group_of_arrival i = none →
    g2.arrived_clients = [] ∧ i ∈ pendIds s2 ∧
    (∀ p ∈ s2.pend, p.1 = i → p.2 = g2.latest_arrival_time) ∧
    s.group_counter ≤ i) ∧
  (∀ p ∈ s.pend, p ∈ s2.pend) ∧
  (∀ p ∈ s2.pend, p ∈ s.pend ∨ s.group_counter ≤ p.1)

/-- The straggler rule used in the study of claim C8: one rule whose
`clients` array lists client 2 twice. -/
def c8rule : Rule :=
  { effect := 2, client := none, clients := some [2, 2], range := none }

/-- The straggler rule used in the study of claim C9: one rule carrying two
selectors (`client` and `clients`) at once. -/
def c9rule : Rule :=
  { effect := 2, client := some 0, clients := some [1], range := none }

/-- Characterisation of the accumulator of the `_join_group` fold: either
still the initial `(-1, -1)`, or a live group together with its step count,
which passed the `[min_local_steps, max_local_steps_bound]` check. -/
def JoinAcc (s : Sched) (c : Nat) (acc : Int × Int) : Prop :=
  acc = (-1, -1) ∨
    (∃ (gid : Nat) (g : GOA), acc.1 = (gid : Int) ∧ (gid, g) ∈ s.group_of_arrival ∧
      acc.2 = truncInt ((g.expected_arrival_time - s.now) / (ciGetD s c).speed) ∧
      s.min_local_steps ≤ acc.2 ∧ acc.2 ≤ s.max_local_steps_bound)

/-! # Theorems -/

/-! ## Arithmetic helpers for `truncInt` -/

/-- The group-creation step shared by `_create_group` and the first-group
branch of `_assign_group`: make a fresh group under `group_counter` holding
only `c`, schedule its deadline, record the assignment, bump the counter. -/
def mkNewGroupState (s : Sched) (c : Nat) (a : Int) (expected latest : ℚ) : Sched :=
  let gid := s.group_counter
  let g : GOA := { clients := [c], arrived_clients := [],
                   expected_arrival_time := expected,
                   latest_arrival_time := latest }
  let s1 := { s with group_of_arrival := minsert s.group_of_arrival gid g,
                     pend := s.pend ++ [(gid, latest)] }
  let s2 := setCI s1 c { ciGetD s1 c with goa := (gid : Int), local_steps := a,
                                          start_time := s.now }
  { s2 with group_counter := gid + 1 }


/-! ### The stages of `_group_aggregation`, named for the proofs -/

/-- The `step`-stamping fold of `_group_aggregation`. -/
def stampFold (A : List Nat) (s : Sched) : Sched :=
  A.foldl (fun t c => setCI t c { ciGetD t c with step := t.global_step }) s

/-- The reassignment fold of `_group_aggregation`. -/
def assignFold (L : List (Nat × ℚ)) (s : Sched) : Sched :=
  L.foldl (fun t p => assignGroup t p.1) s

/-- The empty-group deletion step of `_group_aggregation`. -/
def eraseStep (s : Sched) (gid : Nat) : Sched :=
  match mlookup s.group_of_arrival gid with
  | some h =>
    if h.clients = [] then
      { s with group_of_arrival := merase s.group_of_arrival gid }
    else s
  | none => s

/-- The final `_send_model` fold of `_group_aggregation`. -/
def sendFold (L : List (Nat × ℚ)) (s : Sched) : Sched :=
  L.foldl (fun t p => sendModel t p.1) s


/-- What the reassignment fold of `_group_aggregation` guarantees about the
state, beyond the invariant: clocks and counters behave, existing groups
keep their arrived lists and deadlines, zeroed groups gain no clients, and
new pending deadlines belong to fresh groups. -/
def FoldPost (s s2 : Sched) : Prop :=
  s2.now = s.now ∧ s2.iter = s.iter ∧
  s2.num_global_epochs = s.num_global_epochs ∧
  s2.num_clients = s.num_clients ∧
  s.group_counter ≤ s2.group_counter ∧
  (∀ j, (s.client_info j).isSome → (s2.client_info j).isSome) ∧
  (∀ i g, mlookup s.group_of_arrival i = some g → ∃ g2,
    mlookup s2.group_of_arrival i = some g2 ∧
    g2.arrived_clients = g.arrived_clients ∧
    g2.expected_arrival_time = g.expected_arrival_time ∧
    g2.latest_arrival_time = g.latest_arrival_time ∧
    (zeroG g → ∀ x ∈ g2.clients, x ∈ g.clients)) ∧
  (∀ p ∈ s2.pend, p ∈ s.pend ∨ s.group_counter ≤ p.1)


theorem truncInt_of_nonneg {x : ℚ} (h : 0 ≤ x) : truncInt x = Int.floor x := by
  simp [truncInt, h]

theorem truncInt_nonneg {x : ℚ} (h : 0 ≤ x) : 0 ≤ truncInt x := by
  rw [truncInt_of_nonneg h]
  exact Int.floor_nonneg.mpr h

theorem truncInt_nonpos {x : ℚ} (h : x ≤ 0) : truncInt x ≤ 0 := by
  unfold truncInt
  split
  · have hx : x = 0 := le_antisymm h (by assumption)
    simp [hx]
  · have : (0 : ℚ) ≤ -x := by linarith
    have := Int.floor_nonneg.mpr this
    omega

theorem le_of_one_le_truncInt {x : ℚ} (h : 1 ≤ truncInt x) : 1 ≤ x := by
  unfold truncInt at h
  split at h
  · have := Int.le_floor.mp h
    simpa using this
  · have hx : ¬ (0 ≤ x) := by assumption
    have : (0 : ℚ) ≤ -x := by linarith
    have h0 := Int.floor_nonneg.mpr this
    omega

theorem truncInt_le_of_le {x : ℚ} {m : Int} (hm : 0 ≤ m) (h : x ≤ (m : ℚ)) :
    truncInt x ≤ m := by
  unfold truncInt
  split
  · have h2 : Int.floor x ≤ Int.floor ((m : ℚ)) := Int.floor_le_floor h
    simpa using h2
  · have hx : ¬ (0 ≤ x) := by assumption
    have : (0 : ℚ) ≤ -x := by linarith
    have h0 := Int.floor_nonneg.mpr this
    omega

theorem le_truncInt_of_le {x : ℚ} {m : Int} (hm : 0 ≤ m) (h : (m : ℚ) ≤ x) :
    m ≤ truncInt x := by
  have hx : (0 : ℚ) ≤ x := le_trans (by exact_mod_cast hm) h
  rw [truncInt_of_nonneg hx]
  exact Int.le_floor.mpr h

/-! ## Association-list lemmas -/

theorem mem_of_mlookup {κ α : Type} [DecidableEq κ] {l : List (κ × α)} {i : κ}
    {v : α} (h : mlookup l i = some v) : (i, v) ∈ l := by
  induction l with
  | nil => simp [mlookup] at h
  | cons p rest ih =>
    obtain ⟨k, w⟩ := p
    rw [mlookup] at h
    by_cases hk : k = i
    · rw [if_pos hk] at h
      subst hk
      obtain rfl : w = v := by simpa using h
      exact List.mem_cons_self _ _
    · rw [if_neg hk] at h
      exact List.mem_cons_of_mem _ (ih h)

theorem mlookup_of_mem {κ α : Type} [DecidableEq κ] {l : List (κ × α)} {i : κ}
    {v : α} (hnd : (l.map Prod.fst).Nodup) (h : (i, v) ∈ l) :
    mlookup l i = some v := by
  induction l with
  | nil => simp at h
  | cons p rest ih =>
    rw [List.map_cons, List.nodup_cons] at hnd
    rcases List.mem_cons.mp h with h1 | h1
    · subst h1
      simp [mlookup]
    · have hne : p.1 ≠ i := by
        intro he
        exact hnd.1 (he ▸ (List.mem_map_of_mem Prod.fst h1))
      rw [mlookup, if_neg hne]
      exact ih hnd.2 h1

theorem mlookup_mmodify {κ α : Type} [DecidableEq κ] (l : List (κ × α)) (i : κ)
    (f : α → α) (j : κ) :
    mlookup (mmodify l i f) j =
      if j = i then (mlookup l i).map f else mlookup l j := by
  induction l with
  | nil => by_cases h : j = i <;> simp [mmodify, mlookup, h]
  | cons p rest ih =>
    obtain ⟨k, w⟩ := p
    by_cases hk : k = i
    · subst hk
      by_cases hj : j = k
      · subst hj
        simp [mmodify, mlookup]
      · have hkj : ¬ (k = j) := fun h => hj h.symm
        simp [mmodify, mlookup, hj, hkj]
    · by_cases hj : j = i
      · subst hj
        have hkj : ¬ (k = j) := hk
        simp [mmodify, mlookup, hk, hkj, ih]
      · by_cases hkj : k = j
        · subst hkj
          simp [mmodify, mlookup, hk, hj, ih]
        · simp [mmodify, mlookup, hk, hj, hkj, ih]

theorem mlookup_merase {κ α : Type} [DecidableEq κ] (l : List (κ × α)) (i j : κ) :
    mlookup (merase l i) j = if j = i then none else mlookup l j := by
  induction l with
  | nil => by_cases h : j = i <;> simp [merase, mlookup, h]
  | cons p rest ih =>
    obtain ⟨k, w⟩ := p
    by_cases hk : k = i
    · subst hk
      by_cases hj : j = k
      · subst hj
        simp [merase, mlookup, ih]
      · have hkj : ¬ (k = j) := fun h => hj h.symm
        simp [merase, mlookup, hj, hkj, ih]
    · by_cases hkj : k = j
      · subst hkj
        simp [merase, mlookup, hk, ih]
      · by_cases hj : j = i
        · subst hj
          simp [merase, mlookup, hk, hkj, ih]
        · simp [merase, mlookup, hk, hkj, hj, ih]

theorem mmodify_keys {κ α : Type} [DecidableEq κ] (l : List (κ × α)) (i : κ)
    (f : α → α) : (mmodify l i f).map Prod.fst = l.map Prod.fst := by
  induction l with
  | nil => rfl
  | cons p rest ih =>
    rw [mmodify]
    by_cases hk : p.1 = i
    · rw [if_pos hk]
      simp
    · rw [if_neg hk]
      simp [ih]

theorem minsert_of_lt {α : Type} (l : List (Nat × α)) (i : Nat) (v : α)
    (h : ∀ p ∈ l, p.1 < i) : minsert l i v = l ++ [(i, v)] := by
  induction l with
  | nil => rfl
  | cons p rest ih =>
    obtain ⟨k, w⟩ := p
    have hp := h (k, w) (List.mem_cons_self _ _)
    rw [minsert, if_neg (by simp at hp ⊢; omega), if_neg (by simp at hp ⊢; omega)]
    rw [ih (fun q hq => h q (List.mem_cons_of_mem _ hq))]
    simp

theorem mlookup_minsert {α : Type} (l : List (Nat × α)) (i : Nat) (v : α)
    (j : Nat) :
    mlookup (minsert l i v) j = if j = i then some v else mlookup l j := by
  induction l with
  | nil =>
    by_cases h : j = i
    · subst h
      simp [minsert, mlookup]
    · have h2 : ¬ (i = j) := fun hh => h hh.symm
      simp [minsert, mlookup, h, h2]
  | cons p rest ih =>
    obtain ⟨k, w⟩ := p
    rw [minsert]
    by_cases h1 : i < k
    · rw [if_pos h1]
      by_cases h : j = i
      · subst h
        simp [mlookup]
      · have h2 : ¬ (i = j) := fun hh => h hh.symm
        simp [mlookup, h, h2]
    · rw [if_neg h1]
      by_cases h2 : i = k
      · subst h2
        rw [if_pos rfl]
        by_cases h : j = i
        · subst h
          simp [mlookup]
        · have h3 : ¬ (i = j) := fun hh => h hh.symm
          simp [mlookup, h, h3]
      · rw [if_neg h2]
        by_cases h : k = j
        · subst h
          have h4 : ¬ (k = i) := fun hh => h2 hh.symm
          simp [mlookup, h4]
        · rw [mlookup, if_neg h, ih, mlookup, if_neg h]

theorem mlookup_append_single {κ α : Type} [DecidableEq κ] (l : List (κ × α))
    (i j : κ) (v : α) :
    mlookup (l ++ [(i, v)]) j =
      match mlookup l j with
      | some w => some w
      | none => if i = j then some v else none := by
  induction l with
  | nil => simp [mlookup]
  | cons p rest ih =>
    by_cases hj : p.1 = j
    · rw [List.cons_append, mlookup, if_pos hj, mlookup, if_pos hj]
    · rw [List.cons_append, mlookup, if_neg hj, mlookup, if_neg hj, ih]

/-! ## Claim C4: the speed smoothing law -/

/-- C4.  The speed estimate of `_record_info` satisfies `speed₁ = s₁` and
`speedₙ = 0.1·speedₙ₋₁ + 0.9·sₙ` for `n ≥ 2`; the samples `{2, 4, 4}` yield
the trajectory `2 → 3.8 → 3.98`.  The first conjunct ties the law to
`_record_info` itself: a non-bootstrap observation rewrites the stored speed
to `smoothSpeed old sample` with `sample = (now - start_time)/local_steps`. -/
theorem C4_speed_smoothing_law :
    (∀ (s : Sched) (c : Nat) (ci : ClientInfo), s.client_info c = some ci →
      ((recordInfo s c).client_info c).map ClientInfo.speed =
        some (smoothSpeed ci.speed ((s.now - ci.start_time) / ((ci.local_steps : Int) : ℚ)))) ∧
    (∀ old sample : ℚ, smoothSpeed old sample = 1/10 * old + 9/10 * sample) ∧
    (∀ s1 : ℚ, speedAfterSamples s1 [] = s1) ∧
    (∀ (s1 : ℚ) (rest : List ℚ) (n : Nat), n < rest.length →
      speedAfterSamples s1 (rest.take (n + 1)) =
        1/10 * speedAfterSamples s1 (rest.take n) + 9/10 * rest.getD n 0) ∧
    speedTrajectory 2 [4, 4] = [2, 38/10, 398/100] := by
  refine ⟨?_, ?_, ?_, ?_, ?_⟩
  · intro s c ci h
    simp [recordInfo, h, setCI]
  · intro old sample
    unfold smoothSpeed SPEED_MOMENTUM
    ring
  · intro s1
    rfl
  · intro s1 rest n hn
    have ht : rest.take (n + 1) = rest.take n ++ [rest[n]] := by
      rw [List.take_succ, List.getElem?_eq_getElem hn]
      rfl
    have hg : rest.getD n 0 = rest[n] := by
      rw [List.getD_eq_getElem?_getD, List.getElem?_eq_getElem hn]
      rfl
    rw [ht, hg]
    unfold speedAfterSamples
    rw [List.foldl_append]
    simp only [List.foldl_cons, List.foldl_nil]
    unfold smoothSpeed SPEED_MOMENTUM
    ring
  · norm_num [speedTrajectory, smoothSpeed, SPEED_MOMENTUM]

/-- Witness for C4: the recurrence at the second sample of `{2, 4, 4}`. -/
theorem C4_witness :
    speedAfterSamples 2 (([4, 4] : List ℚ).take (0 + 1)) =
      1/10 * speedAfterSamples 2 (([4, 4] : List ℚ).take 0) +
        9/10 * ([4, 4] : List ℚ).getD 0 0 :=
  C4_speed_smoothing_law.2.2.2.1 2 [4, 4] 0 (by decide)

/-! ## Claim C5: host-speed perturbation under control 2 -/

/-- C5 counterexample.  The claim predicts an effective speed of
`host_speed * (1 + X)`; the code computes `speed *= dist(gen)`, i.e.
`host_speed * X`.  At `host_speed = 1`, `X = 0` the two differ. -/
theorem C5_counterexample : clientHostSpeed 2 1 0 ≠ 1 * (1 + 0) := by
  norm_num [clientHostSpeed]

/-- C5 as amended: with `control = 2` the effective host speed is
`host_speed * X` (the raw normal draw), used verbatim. -/
theorem C5_host_speed_scaling (control : Int) (hostSpeed draw : ℚ)
    (h : control = 2) : clientHostSpeed control hostSpeed draw = hostSpeed * draw := by
  subst h
  simp [clientHostSpeed]

theorem C5_witness : clientHostSpeed 2 (3/2) (1/10) = (3/2) * (1/10) :=
  C5_host_speed_scaling 2 (3/2) (1/10) rfl

/-! ## Claim C6: the Node-1 training-cost factor -/

/-- C6 counterexample.  In FedCompass the Node-1 spawn loop passes
`per_step_training_cost * multiplier` with no 0.8 factor: at
`training_cost = 1`, `multiplier = 1` the claim predicts `1 * 0.8 * 1`. -/
theorem C6_counterexample :
    fedCompassTrainingCostNode1 1 1 ≠ 1 * (4/5) * 1 := by
  norm_num [fedCompassTrainingCostNode1]

/-- C6 as amended: only FedAvg multiplies the Node-1 clients' training cost
by 0.8; FedCompass passes `training_cost * multiplier` on every node. -/
theorem C6_training_cost_factors (tc m : ℚ) :
    fedAvgTrainingCostNode1 tc m = tc * (4/5) * m ∧
    fedAvgTrainingCostOther tc m = tc * m ∧
    fedCompassTrainingCostNode1 tc m = tc * m ∧
    fedCompassTrainingCostOther tc m = tc * m :=
  ⟨rfl, rfl, rfl, rfl⟩

/-! ## Claim C10: FedAvg client/server message mismatch -/

theorem fedAvgServerSendsToClient_length (e : Nat) :
    (fedAvgServerSendsToClient e).length = e := by
  induction e with
  | zero => rfl
  | succ n ih => rw [fedAvgServerSendsToClient]; simp [ih]

theorem fedAvgClientReceives_length (e : Nat) :
    (fedAvgClientReceives e).length = e + 1 := by
  induction e with
  | zero => rfl
  | succ n ih => rw [fedAvgClientReceives]; simp [ih]

/-- C10.  For every epoch count E the FedAvg client loop performs `E + 1`
receive/train/send iterations after its bootstrap receive, the server sends
only `E` model messages per client and no termination message, so the final
receive has no matching send. -/
theorem C10_fedavg_final_receive_unmatched (e : Nat) :
    (fedAvgClientReceives e).length = e + 1 ∧
    (fedAvgServerSendsToClient e).length = e ∧
    fedAvgServerSentinels = [] ∧
    (fedAvgClientReceives e).length = (fedAvgServerSendsToClient e).length + 1 := by
  refine ⟨fedAvgClientReceives_length e, fedAvgServerSendsToClient_length e, rfl, ?_⟩
  rw [fedAvgClientReceives_length e, fedAvgServerSendsToClient_length e]

/-! ## Claims C8/C9: the straggler rule parser -/

theorem parseRule_isSome_iff (n : Nat) (ef : List (Int × ℚ)) (r : Rule) :
    (parseRule n ef r).isSome = true ↔ ruleOk n r := by
  unfold parseRule
  split_ifs with h <;> simp [h]

theorem parseRules_isSome_iff (n : Nat) (rules : List Rule) : ∀ ef,
    (parseRules n ef rules).isSome = true ↔ ∀ r ∈ rules, ruleOk n r := by
  induction rules with
  | nil =>
    intro ef
    simp [parseRules]
  | cons r rs ih =>
    intro ef
    rw [parseRules]
    cases hp : parseRule n ef r with
    | none =>
      have hr : ¬ ruleOk n r := by
        rw [← parseRule_isSome_iff n ef r, hp]
        simp
      simp [hr]
    | some ef1 =>
      have hr : ruleOk n r := by
        rw [← parseRule_isSome_iff n ef r, hp]
        rfl
      simp only []
      rw [ih ef1]
      constructor
      · intro h r2 hr2
        rcases List.mem_cons.mp hr2 with h1 | h1
        · exact h1 ▸ hr
        · exact h r2 h1
      · intro h r2 hr2
        exact h r2 (List.mem_cons_of_mem _ hr2)

theorem clientMultiplier_applyEffect (ef : List (Int × ℚ)) (id : Int) (e : ℚ)
    (c : Int) :
    clientMultiplier (applyEffect ef id e) c =
      clientMultiplier ef c * (if c = id then e else 1) := by
  unfold applyEffect clientMultiplier
  cases h : mlookup ef id with
  | none =>
    rw [mlookup_append_single]
    cases hc : mlookup ef c with
    | none =>
      by_cases hci : c = id
      · subst hci
        simp [h, hc]
      · have : ¬ (id = c) := fun h2 => hci h2.symm
        simp [hc, this, hci]
    | some w =>
      have hci : ¬ (c = id) := by
        intro h2
        subst h2
        rw [h] at hc
        cases hc
      simp [hc, hci]
  | some v =>
    rw [mlookup_mmodify]
    by_cases hci : c = id
    · subst hci
      simp [h]
    · simp [hci]

theorem clientMultiplier_foldTargets (e : ℚ) (c : Int) : ∀ (targets : List Int)
    (ef : List (Int × ℚ)),
    clientMultiplier (targets.foldl (fun ef2 id => applyEffect ef2 id e) ef) c =
      clientMultiplier ef c * e ^ (targets.count c) := by
  intro targets
  induction targets with
  | nil => intro ef; simp
  | cons t ts ih =>
    intro ef
    rw [List.foldl_cons, ih, clientMultiplier_applyEffect]
    by_cases h : c = t
    · subst h
      rw [List.count_cons_self, if_pos rfl, pow_succ]
      ring
    · rw [List.count_cons_of_ne h, if_neg h]
      ring

theorem parseRule_some_mult {n : Nat} {ef : List (Int × ℚ)} {r : Rule}
    {ef2 : List (Int × ℚ)} (h : parseRule n ef r = some ef2) (c : Int) :
    clientMultiplier ef2 c =
      clientMultiplier ef c * r.effect ^ ((ruleTargets r).count c) := by
  unfold parseRule at h
  split_ifs at h
  injection h with h
  subst h
  exact clientMultiplier_foldTargets r.effect c (ruleTargets r) ef

theorem parseRules_mult (n : Nat) (rules : List Rule) : ∀ ef ef2,
    parseRules n ef rules = some ef2 →
    ∀ c, clientMultiplier ef2 c =
      clientMultiplier ef c * occurrenceProductMultiplier rules c := by
  induction rules with
  | nil =>
    intro ef ef2 h c
    rw [parseRules] at h
    injection h with h
    subst h
    simp [occurrenceProductMultiplier]
  | cons r rs ih =>
    intro ef ef2 h c
    rw [parseRules] at h
    cases hp : parseRule n ef r with
    | none =>
      rw [hp] at h
      cases h
    | some ef1 =>
      rw [hp] at h
      have h2 := ih ef1 ef2 h c
      rw [h2, parseRule_some_mult hp c]
      rw [occurrenceProductMultiplier, occurrenceProductMultiplier,
        List.map_cons, List.prod_cons]
      ring

/-- C9 counterexample.  The claim states that a rule carrying more than one
selector is rejected at load time.  `c9rule` carries both `client` and
`clients`, has a positive effect, and `parse_client_effects` accepts it. -/
theorem C9_counterexample :
    ((parse_client_effects [c9rule] 2).isSome = true) ∧
    c9rule.client.isSome = true ∧ c9rule.clients.isSome = true ∧
    0 < c9rule.effect := by
  refine ⟨?_, rfl, rfl, by norm_num [c9rule]⟩
  rw [parse_client_effects, parseRules_isSome_iff]
  intro r hr
  obtain rfl : r = c9rule := by simpa using hr
  refine ⟨by norm_num [c9rule], by trivial, ?_, by simp [c9rule, ruleTargets]⟩
  intro id hid
  simp only [c9rule, ruleTargets, Option.toList] at hid
  simp at hid
  rcases hid with h | h <;> subst h <;> norm_num

/-- C9 as amended: a straggler rule is accepted iff its `effect` is
positive, its `range` (when present) is well-formed, every targeted client
id lies in `[0, total_clients)`, and it targets at least one client — a rule
may carry several selectors, and then all of them apply; a configuration is
accepted iff each of its rules is. -/
theorem C9_rule_acceptance (n : Nat) (ef : List (Int × ℚ)) (r : Rule)
    (rules : List Rule) :
    ((parseRule n ef r).isSome = true ↔ ruleOk n r) ∧
    ((parse_client_effects rules n).isSome = true ↔ ∀ r2 ∈ rules, ruleOk n r2) := by
  exact ⟨parseRule_isSome_iff n ef r, parseRules_isSome_iff n rules []⟩

/-- C8 counterexample.  `c8rule` lists client 2 twice in one rule with
effect 2; the parser multiplies the effect in per occurrence, producing 4,
while the claim (product over the matching rules) predicts 2. -/
theorem C8_counterexample :
    parse_client_effects [c8rule] 3 = some [((2 : Int), (4 : ℚ))] ∧
    specRuleProductMultiplier [c8rule] 2 = 2 ∧
    clientMultiplier [((2 : Int), (4 : ℚ))] 2 ≠ specRuleProductMultiplier [c8rule] 2 := by
  have hok : ruleOk 3 c8rule := by
    refine ⟨by norm_num [c8rule], by simp [c8rule, ruleRangeOk], by decide, by decide⟩
  refine ⟨?_, ?_, ?_⟩
  · rw [parse_client_effects, parseRules, parseRule, if_pos hok]
    norm_num [parseRules, ruleTargets, c8rule, applyEffect, mlookup, mmodify]
  · norm_num [specRuleProductMultiplier, c8rule, ruleTargets, List.filter]
  · norm_num [specRuleProductMultiplier, c8rule, ruleTargets, List.filter,
      clientMultiplier, mlookup]

/-- C8 as amended: for an accepted configuration the multiplier of a client
is the product, over all rules, of the rule's effect raised to the number of
times the rule targets the client (so one rule naming a client twice
contributes its effect twice); this is independent of rule order, and a
client targeted by no rule gets multiplier 1. -/
theorem C8_occurrence_product (rules rules2 : List Rule) (n : Nat)
    (ef : List (Int × ℚ)) (c : Int)
    (h : parse_client_effects rules n = some ef) (hp : rules2.Perm rules) :
    clientMultiplier ef c = occurrenceProductMultiplier rules c ∧
    ((∀ r ∈ rules, c ∉ ruleTargets r) → clientMultiplier ef c = 1) ∧
    ∃ ef2, parse_client_effects rules2 n = some ef2 ∧
      clientMultiplier ef2 c = clientMultiplier ef c := by
  have h1 : clientMultiplier ef c = occurrenceProductMultiplier rules c := by
    have h2 := parseRules_mult n rules [] ef h c
    simpa [clientMultiplier, mlookup] using h2
  refine ⟨h1, ?_, ?_⟩
  · intro hno
    rw [h1, occurrenceProductMultiplier]
    apply List.prod_eq_one
    intro x hx
    rw [List.mem_map] at hx
    obtain ⟨r, hr, rfl⟩ := hx
    rw [List.count_eq_zero.mpr (hno r hr), pow_zero]
  · have hacc : ∀ r ∈ rules, ruleOk n r := by
      rw [← parseRules_isSome_iff n rules []]
      rw [parse_client_effects] at h
      rw [h]
      rfl
    have hacc2 : ∀ r ∈ rules2, ruleOk n r := fun r hr => hacc r (hp.mem_iff.mp hr)
    have hs : (parse_client_effects rules2 n).isSome = true :=
      (parseRules_isSome_iff n rules2 []).mpr hacc2
    obtain ⟨ef2, hef2⟩ := Option.isSome_iff_exists.mp hs
    refine ⟨ef2, hef2, ?_⟩
    have h2 := parseRules_mult n rules2 [] ef2 (by rw [parse_client_effects] at hef2; exact hef2) c
    have h3 : clientMultiplier ef2 c = occurrenceProductMultiplier rules2 c := by
      simpa [clientMultiplier, mlookup] using h2
    have h4 : occurrenceProductMultiplier rules2 c =
        occurrenceProductMultiplier rules c := by
      unfold occurrenceProductMultiplier
      exact (hp.map _).prod_eq
    rw [h3, h4, h1]

/-! ## Claim C7: FedCompass termination -/

theorem fedCompassServerLoop_exits : ∀ (fuel : Nat) (gs e : Int), gs < e →
    e ≤ gs + (fuel : Int) → fedCompassServerLoop fuel gs e = some e := by
  intro fuel
  induction fuel with
  | zero =>
    intro gs e h1 h2
    simp at h2
    omega
  | succ n ih =>
    intro gs e h1 h2
    rw [fedCompassServerLoop]
    by_cases he : gs + 1 = e
    · simp [he]
    · rw [if_neg he]
      apply ih
      · omega
      · push_cast at h2 ⊢
        omega

theorem drainPending_nil_of_covered : ∀ (rs p : List Nat), p.Nodup →
    (∀ x ∈ p, x ∈ rs) → drainPending p rs = [] := by
  intro rs
  induction rs with
  | nil =>
    intro p hnd hcov
    cases p with
    | nil => rfl
    | cons x xs => exact absurd (hcov x (List.mem_cons_self _ _)) (by simp)
  | cons r rs2 ih =>
    intro p hnd hcov
    rw [drainPending]
    by_cases hp : p = []
    · simp [hp]
    · rw [if_neg hp]
      apply ih _ (hnd.erase r)
      intro x hx
      rw [List.Nodup.mem_erase_iff hnd] at hx
      rcases List.mem_cons.mp (hcov x hx.2) with h1 | h1
      · exact absurd h1 hx.1
      · exact h1

/-- C7.  With epochs `E ≥ 1` and enough fuel, the server loop breaks exactly
when its local `global_step` reaches `E`; the drain loop empties
`pending_clients` once every pending client has replied; the sentinel loop
posts exactly one `-1` to each of the `N` client mailboxes, and the client
loop terminates on that sentinel. -/
theorem C7_termination (e : Int) (fuel : Nat) (p rs : List Nat) (n : Nat)
    (hE : 1 ≤ e) (hfuel : e ≤ (fuel : Int)) (hnd : p.Nodup)
    (hcov : ∀ x ∈ p, x ∈ rs) :
    fedCompassServerLoop fuel 0 e = some e ∧
    drainPending p rs = [] ∧
    (sentinelSends n).length = n ∧
    (sentinelSends n).Nodup ∧
    (∀ i, i < n → (i, (-1 : Int)) ∈ sentinelSends n) ∧
    (∀ q ∈ sentinelSends n, clientTerminatesOn q.2 = true) := by
  refine ⟨?_, drainPending_nil_of_covered rs p hnd hcov, ?_, ?_, ?_, ?_⟩
  · apply fedCompassServerLoop_exits fuel 0 e hE
    omega
  · simp [sentinelSends]
  · unfold sentinelSends
    have hinj : Function.Injective (fun j : Nat => (j, (-1 : Int))) := by
      intro a b hab
      simpa using hab
    exact (List.nodup_range n).map hinj
  · intro i hi
    unfold sentinelSends
    exact List.mem_map_of_mem _ (List.mem_range.mpr hi)
  · intro q hq
    unfold sentinelSends at hq
    rw [List.mem_map] at hq
    obtain ⟨j, _, rfl⟩ := hq
    rfl

/-- Witness for C7: two epochs, fuel 5, pending set `{0, 1}` drained by the
replies `[1, 0]`. -/
theorem C7_witness :
    fedCompassServerLoop 5 0 2 = some 2 ∧ drainPending [0, 1] [1, 0] = [] :=
  ⟨(C7_termination 2 5 [0, 1] [1, 0] 2 (by norm_num) (by norm_num)
      (by norm_num) (by decide)).1,
   (C7_termination 2 5 [0, 1] [1, 0] 2 (by norm_num) (by norm_num)
      (by norm_num) (by decide)).2.1⟩

/-! ## Claim C2: dispatched step counts stay inside the bounds -/

theorem joinScan_fold_aux (s : Sched) (c : Nat) (l : List (Nat × GOA))
    (hsub : ∀ p ∈ l, p ∈ s.group_of_arrival) :
    ∀ acc, JoinAcc s c acc →
      JoinAcc s c (l.foldl (fun acc2 kg =>
        let remaining := kg.2.expected_arrival_time - s.now
        let k := truncInt (remaining / (ciGetD s c).speed)
        if k < s.min_local_steps ∨ k < acc2.2 ∨ s.max_local_steps_bound < k
        then acc2 else ((kg.1 : Int), k)) acc) := by
  induction l with
  | nil => intro acc h; exact h
  | cons kg rest ih =>
    intro acc h
    rw [List.foldl_cons]
    apply ih (fun p hp => hsub p (List.mem_cons_of_mem _ hp))
    by_cases hc : truncInt ((kg.2.expected_arrival_time - s.now) / (ciGetD s c).speed)
        < s.min_local_steps ∨
        truncInt ((kg.2.expected_arrival_time - s.now) / (ciGetD s c).speed) < acc.2 ∨
        s.max_local_steps_bound <
          truncInt ((kg.2.expected_arrival_time - s.now) / (ciGetD s c).speed)
    · simpa [hc] using h
    · rw [if_neg hc]
      push_neg at hc
      right
      exact ⟨kg.1, kg.2, rfl, hsub kg (List.mem_cons_self _ _), rfl, hc.1, hc.2.2⟩

theorem joinScan_spec (s : Sched) (c : Nat) : JoinAcc s c (joinScan s c) := by
  unfold joinScan
  exact joinScan_fold_aux s c s.group_of_arrival (fun p hp => hp) (-1, -1)
    (Or.inl rfl)

theorem createScan_fold_aux (s : Sched) (c : Nat)
    (hM : -1 ≤ s.max_local_steps) (l : List (Nat × GOA)) :
    ∀ acc : Int, -1 ≤ acc → acc ≤ s.max_local_steps →
      (-1 ≤ l.foldl (fun acc2 kg =>
        if s.now < kg.2.latest_arrival_time then
          match fastestSpeed s kg.2 with
          | none => acc2
          | some f =>
            let est := kg.2.latest_arrival_time + f * ((s.max_local_steps : ℚ))
            let k := truncInt (((truncInt (est - s.now) : Int) : ℚ) / (ciGetD s c).speed)
            if k ≤ s.max_local_steps then max acc2 k else acc2
        else acc2) acc ∧
      l.foldl (fun acc2 kg =>
        if s.now < kg.2.latest_arrival_time then
          match fastestSpeed s kg.2 with
          | none => acc2
          | some f =>
            let est := kg.2.latest_arrival_time + f * ((s.max_local_steps : ℚ))
            let k := truncInt (((truncInt (est - s.now) : Int) : ℚ) / (ciGetD s c).speed)
            if k ≤ s.max_local_steps then max acc2 k else acc2
        else acc2) acc ≤ s.max_local_steps) := by
  induction l with
  | nil => intro acc h1 h2; exact ⟨h1, h2⟩
  | cons kg rest ih =>
    intro acc h1 h2
    rw [List.foldl_cons]
    by_cases hlat : s.now < kg.2.latest_arrival_time
    · simp only [if_pos hlat]
      cases hf : fastestSpeed s kg.2 with
      | none => exact ih acc h1 h2
      | some f =>
        simp only []
        by_cases hk : truncInt (((truncInt ((kg.2.latest_arrival_time +
            f * ((s.max_local_steps : ℚ))) - s.now) : Int) : ℚ) / (ciGetD s c).speed)
            ≤ s.max_local_steps
        · rw [if_pos hk]
          exact ih _ (by omega) (by omega)
        · rw [if_neg hk]
          exact ih acc h1 h2
    · simp only [if_neg hlat]
      exact ih acc h1 h2

theorem createScan_bounds (s : Sched) (c : Nat) (hM : -1 ≤ s.max_local_steps) :
    -1 ≤ createScan s c ∧ createScan s c ≤ s.max_local_steps := by
  unfold createScan
  exact createScan_fold_aux s c hM s.group_of_arrival (-1) le_rfl hM

theorem createAssignedSteps_bounds (s : Sched) (c : Nat)
    (hmin : 1 ≤ s.min_local_steps) (hminM : s.min_local_steps ≤ s.max_local_steps) :
    s.min_local_steps ≤ createAssignedSteps s c ∧
      createAssignedSteps s c ≤ s.max_local_steps := by
  obtain ⟨h1, h2⟩ := createScan_bounds s c (by omega)
  unfold createAssignedSteps
  simp only []
  split_ifs <;> omega

theorem createAssignedSteps_pos (s : Sched) (c : Nat)
    (hmin : 1 ≤ s.min_local_steps) (hM : 1 ≤ s.max_local_steps) :
    1 ≤ createAssignedSteps s c := by
  obtain ⟨h1, h2⟩ := createScan_bounds s c (by omega)
  unfold createAssignedSteps
  simp only []
  split_ifs <;> omega

theorem joinGroup_true_steps {s s2 : Sched} {c : Nat}
    (h : joinGroup s c = (s2, true)) :
    (ciGetD s2 c).local_steps = (joinScan s c).2 ∧ (joinScan s c).1 ≠ -1 := by
  unfold joinGroup at h
  by_cases hres : (joinScan s c).1 = -1
  · rw [if_pos hres] at h
    injection h with h1 h2
    cases h2
  · rw [if_neg hres] at h
    injection h with h1 h2
    subst h1
    constructor
    · simp [ciGetD, setCI]
    · exact hres

/-- Constructor-derived bounds: with `1 ≤ M` and `0 < q ≤ 1`,
`min_local_steps = max(⌊q·M⌋, 1)` lies in `[1, M]` and
`M ≤ max_local_steps_bound = ⌊1.2·M⌋`. -/
theorem constructor_bounds (M : Int) (qv : ℚ) (hM : 1 ≤ M) (hq0 : 0 < qv)
    (hq1 : qv ≤ 1) :
    1 ≤ max (truncInt (qv * (M : ℚ))) 1 ∧
    max (truncInt (qv * (M : ℚ))) 1 ≤ M ∧
    M ≤ truncInt ((6/5 : ℚ) * (M : ℚ)) := by
  have hM0 : (0 : ℚ) ≤ (M : ℚ) := by exact_mod_cast (by omega : (0 : Int) ≤ M)
  refine ⟨le_max_right _ _, ?_, ?_⟩
  · apply max_le _ hM
    apply truncInt_le_of_le (by omega)
    calc qv * (M : ℚ) ≤ 1 * (M : ℚ) := by
          apply mul_le_mul_of_nonneg_right hq1 hM0
      _ = (M : ℚ) := one_mul _
  · apply le_truncInt_of_le (by omega)
    have : (M : ℚ) ≤ (6/5 : ℚ) * (M : ℚ) := by linarith
    exact this

/-- C2.  With the constructor's `min_local_steps = max(⌊q·M⌋, 1)` and
`max_local_steps_bound = ⌊1.2·M⌋` (`1 ≤ M`, `0 < q ≤ 1`), every step count
assigned by `_join_group` or `_create_group` lies in
`[min_local_steps, max_local_steps_bound]`, and `_send_model` dispatches the
assigned `local_steps` value verbatim. -/
theorem C2_step_bound (s : Sched) (c c2 : Nat) (M : Int) (qv : ℚ)
    (hM : 1 ≤ M) (hq0 : 0 < qv) (hq1 : qv ≤ 1)
    (hsmax : s.max_local_steps = M)
    (hsmin : s.min_local_steps = max (truncInt (qv * (M : ℚ))) 1)
    (hsbound : s.max_local_steps_bound = truncInt ((6/5 : ℚ) * (M : ℚ))) :
    (∀ s2, joinGroup s c = (s2, true) →
      s.min_local_steps ≤ (ciGetD s2 c).local_steps ∧
      (ciGetD s2 c).local_steps ≤ s.max_local_steps_bound) ∧
    (s.min_local_steps ≤ (ciGetD (createGroup s c) c).local_steps ∧
      (ciGetD (createGroup s c) c).local_steps ≤ s.max_local_steps_bound) ∧
    (sendModel s c2).sent = s.sent ++ [(c2, (ciGetD s c2).local_steps)] := by
  obtain ⟨hb1, hb2, hb3⟩ := constructor_bounds M qv hM hq0 hq1
  have hmin1 : 1 ≤ s.min_local_steps := by rw [hsmin]; exact hb1
  have hminM : s.min_local_steps ≤ s.max_local_steps := by
    rw [hsmin, hsmax]; exact hb2
  have hMbound : s.max_local_steps ≤ s.max_local_steps_bound := by
    rw [hsmax, hsbound]; exact hb3
  refine ⟨?_, ?_, ?_⟩
  · intro s2 h
    obtain ⟨hsteps, hne⟩ := joinGroup_true_steps h
    rcases joinScan_spec s c with hacc | ⟨gid, g, hfst, hmem, hsnd, hlo, hhi⟩
    · rw [hacc] at hne
      exact absurd rfl hne
    · rw [hsteps]
      exact ⟨hlo, hhi⟩
  · obtain ⟨h1, h2⟩ := createAssignedSteps_bounds s c hmin1 hminM
    have hci : (ciGetD (createGroup s c) c).local_steps = createAssignedSteps s c := by
      simp [createGroup, ciGetD, setCI]
    rw [hci]
    exact ⟨h1, le_trans h2 hMbound⟩
  · simp [sendModel, sendGlobalModelToClient, setCI]

/-- Witness for C2 at a concrete state: `M = 10`, `q = 1/5`. -/
theorem C2_witness :
    (sendModel (setCI (initSched 10 2 100 (1/5) (3/2)) 0
        { ciDefault with speed := 1/10 }) 1).sent =
      (setCI (initSched 10 2 100 (1/5) (3/2)) 0
        { ciDefault with speed := 1/10 }).sent ++ [((1 : Nat),
        (ciGetD (setCI (initSched 10 2 100 (1/5) (3/2)) 0
          { ciDefault with speed := 1/10 }) 1).local_steps)] :=
  (C2_step_bound (setCI (initSched 10 2 100 (1/5) (3/2)) 0
      { ciDefault with speed := 1/10 }) 0 1 10 (1/5)
    (by norm_num) (by norm_num) (by norm_num) rfl rfl rfl).2.2

/-! ## Counterexamples for claims C1 and C3 (concrete scheduler runs) -/

/-- Witness for C8 (at the duplicate-target rule, with the identity
permutation). -/
theorem C8_witness :
    clientMultiplier [((2 : Int), (4 : ℚ))] 2 =
      occurrenceProductMultiplier [c8rule] 2 :=
  (C8_occurrence_product [c8rule] [c8rule] 3 [((2 : Int), (4 : ℚ))] 2
    (by
      have hok : ruleOk 3 c8rule := by
        refine ⟨by norm_num [c8rule], by simp [c8rule, ruleRangeOk], by decide, by decide⟩
      rw [parse_client_effects, parseRules, parseRule, if_pos hok]
      norm_num [parseRules, ruleTargets, c8rule, applyEffect, mlookup, mmodify])
    (List.Perm.refl _)).1


/-! ## Invariant machinery for claim C1 -/

theorem zeroG_not_of_pos {g : GOA} (h : 0 < g.latest_arrival_time) :
    ¬ zeroG g := by
  intro hz
  rw [hz.2] at h
  exact lt_irrefl 0 h

/-- A group that a client can join (its scanned step count is at least
`min_local_steps ≥ 1`) is not a zeroed group. -/
theorem join_target_not_zero {s : Sched} {c : Nat} {g : GOA}
    (hnow : 0 ≤ s.now) (hsp : 0 ≤ (ciGetD s c).speed)
    (hmin : 1 ≤ s.min_local_steps)
    (hk : s.min_local_steps ≤
      truncInt ((g.expected_arrival_time - s.now) / (ciGetD s c).speed)) :
    ¬ zeroG g := by
  intro hz
  have h1 : (1 : ℚ) ≤ (g.expected_arrival_time - s.now) / (ciGetD s c).speed :=
    le_of_one_le_truncInt (le_trans hmin hk)
  rw [hz.1] at h1
  rcases eq_or_lt_of_le hsp with heq | hlt
  · rw [← heq] at h1
    norm_num at h1
  · have h2 : (0 - s.now) / (ciGetD s c).speed ≤ 0 := by
      apply div_nonpos_of_nonpos_of_nonneg
      · linarith
      · linarith
    linarith

/-- `setCI` with a record compatible on the tracked fields preserves the
weakened invariant. -/
theorem InvW_setCI_compat (s : Sched) (gid : Nat) (R exc : List Nat) (c : Nat)
    (ci ci2 : ClientInfo) (hw : InvW s gid R exc)
    (hci : s.client_info c = some ci)
    (hgoa : ci2.goa = ci.goa) (hsteps : ci2.local_steps = ci.local_steps)
    (hstart : ci2.start_time = ci.start_time)
    (hsp : c ∉ exc → 0 ≤ ci2.speed) :
    InvW (setCI s c ci2) gid R exc := by
  have hinfo : ∀ j, (setCI s c ci2).client_info j =
      if j = c then some ci2 else s.client_info j := fun j => rfl
  refine ⟨hw.nowNN, hw.oneM, hw.oneMin, hw.keysLt, hw.keysND, hw.pendLt,
    hw.pendND, hw.pendSched, hw.liveZero, hw.clND, hw.arND, hw.clArDisj,
    hw.clPair, ?_, ?_, ?_, ?_, ?_, ?_⟩
  · intro i g hg x hx
    obtain ⟨hxN, ci3, hci3, hgoa3⟩ := hw.clOwn i g hg x hx
    refine ⟨hxN, ?_⟩
    rw [hinfo]
    by_cases hxc : x = c
    · subst hxc
      rw [hci] at hci3
      injection hci3 with hci3
      subst hci3
      exact ⟨ci2, if_pos rfl, by rw [hgoa, hgoa3]⟩
    · rw [if_neg hxc]
      exact ⟨ci3, hci3, hgoa3⟩
  · intro i g hg x hx
    obtain ⟨hxN, hsome⟩ := hw.arMem i g hg x hx
    refine ⟨hxN, ?_⟩
    rw [hinfo]
    by_cases hxc : x = c
    · simp [hxc]
    · rw [if_neg hxc]
      exact hsome
  · intro i g hg hne hpre x hx ci3 hci3
    rw [hinfo] at hci3
    by_cases hxc : x = c
    · rw [if_pos hxc] at hci3
      injection hci3 with hci3
      subst hci3
      rw [hgoa]
      exact hw.arOwn i g hg hne hpre x hx ci (hxc ▸ hci)
    · rw [if_neg hxc] at hci3
      exact hw.arOwn i g hg hne hpre x hx ci3 hci3
  · intro i g hg hne hz hnp x hx ci3 hci3
    rw [hinfo] at hci3
    by_cases hxc : x = c
    · rw [if_pos hxc] at hci3
      injection hci3 with hci3
      subst hci3
      rw [hgoa]
      exact hw.arStale i g hg hne hz hnp x hx ci (hxc ▸ hci)
    · rw [if_neg hxc] at hci3
      exact hw.arStale i g hg hne hz hnp x hx ci3 hci3
  · intro g hg x hx ci3 hci3 hgx
    rw [hinfo] at hci3
    by_cases hxc : x = c
    · rw [if_pos hxc] at hci3
      injection hci3 with hci3
      subst hci3
      rw [hgoa] at hgx
      exact hw.arG g hg x hx ci (hxc ▸ hci) hgx
    · rw [if_neg hxc] at hci3
      exact hw.arG g hg x hx ci3 hci3 hgx
  · intro j hj ci3 hci3
    rw [hinfo] at hci3
    by_cases hjc : j = c
    · rw [if_pos hjc] at hci3
      injection hci3 with hci3
      subst hci3
      obtain ⟨hs0, hs1, hs2, hs3, g, hg, hmem⟩ :=
        hw.ciOk j hj ci (hjc ▸ hci)
      subst hjc
      exact ⟨hsp hj, by rw [hsteps]; exact hs1, by rw [hstart]; exact hs2,
        by rw [hgoa]; exact hs3, g, by rw [hgoa]; exact hg, hmem⟩
    · rw [if_neg hjc] at hci3
      exact hw.ciOk j hj ci3 hci3

/-- Bumping the clock preserves the weakened invariant. -/
theorem InvW_now_mono (s : Sched) (gid : Nat) (R exc : List Nat) (t : ℚ)
    (hw : InvW s gid R exc) (ht : s.now ≤ t) :
    InvW { s with now := t } gid R exc := by
  refine ⟨le_trans hw.nowNN ht, hw.oneM, hw.oneMin, hw.keysLt, hw.keysND,
    hw.pendLt, hw.pendND, hw.pendSched, hw.liveZero, hw.clND, hw.arND,
    hw.clArDisj, hw.clPair, hw.clOwn, hw.arMem, hw.arOwn, hw.arStale, hw.arG,
    ?_⟩
  intro j hj ci hci
  obtain ⟨h0, h1, h2, h3, g, hg, hmem⟩ := hw.ciOk j hj ci hci
  exact ⟨h0, h1, le_trans h2 ht, h3, g, hg, hmem⟩

/-- The server bookkeeping fields (`global_step`, `general_buffer_size`,
`group_pseudo_grad`, `sent`, `iter`) are invisible to the invariant. -/
theorem InvW_serverFields (s : Sched) (gid : Nat) (R exc : List Nat)
    (gs bs : Int) (pg : List (Nat × Int)) (snt : List (Nat × Int)) (it : Int)
    (hw : InvW s gid R exc) :
    InvW { s with global_step := gs, general_buffer_size := bs,
                  group_pseudo_grad := pg, sent := snt, iter := it } gid R exc := by
  refine ⟨hw.nowNN, hw.oneM, hw.oneMin, hw.keysLt, hw.keysND, hw.pendLt,
    hw.pendND, hw.pendSched, hw.liveZero, hw.clND, hw.arND, hw.clArDisj,
    hw.clPair, hw.clOwn, hw.arMem, hw.arOwn, hw.arStale, hw.arG, hw.ciOk⟩


theorem keysLt_of_keys_eq {s : Sched} {l2 : List (Nat × GOA)} {n : Nat}
    (h : ∀ p ∈ s.group_of_arrival, p.1 < n)
    (hk : l2.map Prod.fst = s.group_of_arrival.map Prod.fst) :
    ∀ p ∈ l2, p.1 < n := by
  intro p hp
  have : p.1 ∈ l2.map Prod.fst := List.mem_map_of_mem Prod.fst hp
  rw [hk] at this
  obtain ⟨q, hq, hq2⟩ := List.mem_map.mp this
  rw [← hq2]
  exact h q hq

theorem mem_clients_append {g : GOA} {c x : Nat} :
    x ∈ g.clients ++ [c] ↔ x ∈ g.clients ∨ x = c := by
  rw [List.mem_append, List.mem_singleton]

/-- The heart of `_join_group`'s success case: adding the ready client `c`
to the selected live group preserves the (weakened) invariant. -/
theorem join_master (s s2 : Sched) (gid : Nat) (R : List Nat) (c : Nat)
    (ci : ClientInfo)
    (hw : InvW s gid (c :: R) [c])
    (hj : joinGroup s c = (s2, true))
    (hcN : c < s.num_clients)
    (hci : s.client_info c = some ci)
    (hsp : 0 ≤ ci.speed)
    (hcl : ∀ i g, mlookup s.group_of_arrival i = some g → c ∉ g.clients)
    (har : ∀ i g, mlookup s.group_of_arrival i = some g →
      c ∈ g.arrived_clients → zeroG g)
    (hgz : ∀ g, mlookup s.group_of_arrival gid = some g → zeroG g)
    (hcar : ∀ i g, mlookup s.group_of_arrival i = some g → i ≠ gid →
      i ∈ pendIds s → c ∉ g.arrived_clients) :
    InvW s2 gid R [] ∧ AssignPost s s2 c := by
  have hciD : ciGetD s c = ci := by
    unfold ciGetD
    rw [hci]
    rfl
  rcases joinScan_spec s c with hacc | ⟨gi, g, hfst, hmem, hsnd, hlo, hhi⟩
  · exfalso
    unfold joinGroup at hj
    rw [hacc] at hj
    simp at hj
  · have hne : ¬ ((joinScan s c).1 = -1) := by
      rw [hfst]
      omega
    have hgiN : (joinScan s c).1.toNat = gi := by
      rw [hfst]
      exact Int.toNat_natCast gi
    unfold joinGroup at hj
    rw [if_neg hne] at hj
    injection hj with hj _
    have hlook : mlookup s.group_of_arrival gi = some g :=
      mlookup_of_mem hw.keysND hmem
    have hnz : ¬ zeroG g := by
      apply join_target_not_zero hw.nowNN (by rw [hciD]; exact hsp) hw.oneMin
      rw [← hsnd]
      exact hlo
    have hgigid : gi ≠ gid := by
      intro he
      exact hnz (hgz g (he ▸ hlook))
    have hcar_gi : c ∉ g.arrived_clients := fun h => hnz (har gi g hlook h)
    have hclgi : c ∉ g.clients := hcl gi g hlook
    subst hj
    rw [hgiN, hciD]
    set ci2 : ClientInfo :=
      { ci with goa := (joinScan s c).1, local_steps := (joinScan s c).2,
                start_time := s.now } with hci2def
    set g2 : GOA := { g with clients := g.clients ++ [c] } with hg2def
    have hgoa2 : ci2.goa = ((gi : Nat) : Int) := hfst
    have hsteps2 : s.min_local_steps ≤ ci2.local_steps := hlo
    have hinfo2 : ∀ j, (setCI s c ci2).client_info j =
        if j = c then some ci2 else s.client_info j := fun j => rfl
    have hmap2 : ∀ j, mlookup (mmodify (setCI s c ci2).group_of_arrival gi
        (fun g3 => { g3 with clients := g3.clients ++ [c] })) j =
        if j = gi then some g2 else mlookup s.group_of_arrival j := by
      intro j
      rw [mlookup_mmodify]
      by_cases hjgi : j = gi
      · rw [if_pos hjgi, if_pos hjgi]
        show (mlookup s.group_of_arrival gi).map _ = _
        rw [hlook]
        rfl
      · rw [if_neg hjgi, if_neg hjgi]
        rfl
    have hkeys2 : (mmodify (setCI s c ci2).group_of_arrival gi
        (fun g3 => { g3 with clients := g3.clients ++ [c] })).map Prod.fst =
        s.group_of_arrival.map Prod.fst := mmodify_keys _ _ _
    constructor
    · refine ⟨hw.nowNN, hw.oneM, hw.oneMin, ?_, ?_, hw.pendLt, hw.pendND,
        ?_, ?_, ?_, ?_, ?_, ?_, ?_, ?_, ?_, ?_, ?_, ?_⟩
      · exact keysLt_of_keys_eq hw.keysLt hkeys2
      · rw [hkeys2]
        exact hw.keysND
      · intro p hp hpgid g3 hg3
        rw [hmap2] at hg3
        by_cases hpgi : p.1 = gi
        · rw [if_pos hpgi] at hg3
          injection hg3 with hg3
          subst hg3
          exact hw.pendSched p hp hpgid g (hpgi ▸ hlook)
        · rw [if_neg hpgi] at hg3
          exact hw.pendSched p hp hpgid g3 hg3
      · intro i g3 hg3 hig hnp
        rw [hmap2] at hg3
        by_cases higi : i = gi
        · rw [if_pos higi] at hg3
          injection hg3 with hg3
          subst hg3
          exact hw.liveZero i g (higi ▸ hlook) hig hnp
        · rw [if_neg higi] at hg3
          exact hw.liveZero i g3 hg3 hig hnp
      · intro i g3 hg3
        rw [hmap2] at hg3
        by_cases higi : i = gi
        · rw [if_pos higi] at hg3
          injection hg3 with hg3
          subst hg3
          show (g.clients ++ [c]).Nodup
          rw [List.nodup_append]
          refine ⟨hw.clND gi g hlook, List.nodup_singleton c, ?_⟩
          intro x hx hxc
          rw [List.mem_singleton] at hxc
          subst hxc
          exact hclgi hx
        · rw [if_neg higi] at hg3
          exact hw.clND i g3 hg3
      · intro i g3 hg3
        rw [hmap2] at hg3
        by_cases higi : i = gi
        · rw [if_pos higi] at hg3
          injection hg3 with hg3
          subst hg3
          exact hw.arND gi g hlook
        · rw [if_neg higi] at hg3
          exact hw.arND i g3 hg3
      · intro i g3 hg3 x hx
        rw [hmap2] at hg3
        by_cases higi : i = gi
        · rw [if_pos higi] at hg3
          injection hg3 with hg3
          subst hg3
          rcases mem_clients_append.mp hx with h1 | h1
          · exact hw.clArDisj gi g hlook x h1
          · subst h1
            exact hcar_gi
        · rw [if_neg higi] at hg3
          exact hw.clArDisj i g3 hg3 x hx
      · intro i j gi3 gj3 hgi3 hgj3 hij x hxi
        rw [hmap2] at hgi3 hgj3
        by_cases higi : i = gi
        · rw [if_pos higi] at hgi3
          injection hgi3 with hgi3
          subst hgi3
          have hjgi : ¬ (j = gi) := fun h => hij (higi.trans h.symm)
          rw [if_neg hjgi] at hgj3
          rcases mem_clients_append.mp hxi with h1 | h1
          · exact hw.clPair i j g gj3 (higi ▸ hlook) hgj3 hij x h1
          · subst h1
            exact hcl j gj3 hgj3
        · rw [if_neg higi] at hgi3
          by_cases hjgi : j = gi
          · rw [if_pos hjgi] at hgj3
            injection hgj3 with hgj3
            subst hgj3
            intro hxj
            rcases mem_clients_append.mp hxj with h1 | h1
            · exact hw.clPair i j gi3 g hgi3 (hjgi ▸ hlook) hij x hxi h1
            · subst h1
              exact hcl i gi3 hgi3 hxi
          · rw [if_neg hjgi] at hgj3
            exact hw.clPair i j gi3 gj3 hgi3 hgj3 hij x hxi
      · intro i g3 hg3 x hx
        rw [hmap2] at hg3
        by_cases higi : i = gi
        · rw [if_pos higi] at hg3
          injection hg3 with hg3
          subst hg3
          subst higi
          rcases mem_clients_append.mp hx with h1 | h1
          · obtain ⟨hxN, ci3, hci3, hgoa3⟩ := hw.clOwn i g hlook x h1
            have hxc : x ≠ c := fun h => hclgi (h ▸ h1)
            refine ⟨hxN, ci3, ?_, hgoa3⟩
            rw [hinfo2, if_neg hxc]
            exact hci3
          · subst h1
            exact ⟨hcN, ci2, by rw [hinfo2, if_pos rfl], hgoa2⟩
        · rw [if_neg higi] at hg3
          obtain ⟨hxN, ci3, hci3, hgoa3⟩ := hw.clOwn i g3 hg3 x hx
          have hxc : x ≠ c := fun h => hcl i g3 hg3 (h ▸ hx)
          refine ⟨hxN, ci3, ?_, hgoa3⟩
          rw [hinfo2, if_neg hxc]
          exact hci3
      · intro i g3 hg3 x hx
        rw [hmap2] at hg3
        have hpack : ∃ g4, mlookup s.group_of_arrival i = some g4 ∧
            x ∈ g4.arrived_clients := by
          by_cases higi : i = gi
          · rw [if_pos higi] at hg3
            injection hg3 with hg3
            subst hg3
            exact ⟨g, higi ▸ hlook, hx⟩
          · rw [if_neg higi] at hg3
            exact ⟨g3, hg3, hx⟩
        obtain ⟨g4, hg4, hx4⟩ := hpack
        obtain ⟨hxN, hsome⟩ := hw.arMem i g4 hg4 x hx4
        refine ⟨hxN, ?_⟩
        rw [hinfo2]
        by_cases hxc : x = c
        · simp [hxc]
        · rw [if_neg hxc]
          exact hsome
      · intro i g3 hg3 hig hpre x hx ci3 hci3
        rw [hmap2] at hg3
        rw [hinfo2] at hci3
        by_cases higi : i = gi
        · rw [if_pos higi] at hg3
          injection hg3 with hg3
          subst hg3
          by_cases hxc : x = c
          · subst hxc
            exact absurd hx hcar_gi
          · rw [if_neg hxc] at hci3
            exact hw.arOwn i g (higi ▸ hlook) hig hpre x hx ci3 hci3
        · rw [if_neg higi] at hg3
          by_cases hxc : x = c
          · subst hxc
            rcases hpre with hnz3 | hpend
            · exact absurd (har i g3 hg3 hx) hnz3
            · exact absurd hx (hcar i g3 hg3 hig hpend)
          · rw [if_neg hxc] at hci3
            exact hw.arOwn i g3 hg3 hig hpre x hx ci3 hci3
      · intro i g3 hg3 hig hz hnp x hx ci3 hci3
        rw [hmap2] at hg3
        rw [hinfo2] at hci3
        by_cases higi : i = gi
        · rw [if_pos higi] at hg3
          injection hg3 with hg3
          subst hg3
          exact absurd hz hnz
        · rw [if_neg higi] at hg3
          by_cases hxc : x = c
          · subst hxc
            rw [if_pos rfl] at hci3
            injection hci3 with hci3
            subst hci3
            rw [hgoa2]
            intro h
            have h2 : gi = i := by exact_mod_cast h
            exact higi h2.symm
          · rw [if_neg hxc] at hci3
            exact hw.arStale i g3 hg3 hig hz hnp x hx ci3 hci3
      · intro g3 hg3 x hx ci3 hci3 hgoal
        rw [hmap2] at hg3
        rw [hinfo2] at hci3
        have hgidgi : ¬ (gid = gi) := fun h => hgigid h.symm
        rw [if_neg hgidgi] at hg3
        by_cases hxc : x = c
        · subst hxc
          rw [if_pos rfl] at hci3
          injection hci3 with hci3
          subst hci3
          rw [hgoa2] at hgoal
          have h2 : gi = gid := by exact_mod_cast hgoal
          exact absurd h2 hgigid
        · rw [if_neg hxc] at hci3
          have h3 := hw.arG g3 hg3 x hx ci3 hci3 hgoal
          rcases List.mem_cons.mp h3 with h1 | h1
          · exact absurd h1 hxc
          · exact h1
      · intro j hj ci3 hci3
        rw [hinfo2] at hci3
        by_cases hjc : j = c
        · subst hjc
          rw [if_pos rfl] at hci3
          injection hci3 with hci3
          subst hci3
          refine ⟨hsp, le_trans hw.oneMin hsteps2, le_refl _, ?_, ?_⟩
          · rw [hgoa2]
            exact Int.natCast_nonneg gi
          · refine ⟨g2, ?_, Or.inl (List.mem_append_right _ (List.mem_singleton_self _))⟩
            have : ci2.goa.toNat = gi := by
              rw [hgoa2]
              exact Int.toNat_natCast gi
            rw [this, hmap2, if_pos rfl]
        · rw [if_neg hjc] at hci3
          obtain ⟨h0, h1, h2, h3, g4, hg4, hmem4⟩ :=
            hw.ciOk j (by simp [hjc]) ci3 hci3
          refine ⟨h0, h1, h2, h3, ?_⟩
          by_cases hgi4 : ci3.goa.toNat = gi
          · refine ⟨g2, by rw [hmap2, if_pos hgi4], ?_⟩
            rw [hgi4, hlook] at hg4
            injection hg4 with hg4
            subst hg4
            rcases hmem4 with h | h
            · exact Or.inl (List.mem_append_left _ h)
            · exact Or.inr h
          · exact ⟨g4, by rw [hmap2, if_neg hgi4]; exact hg4, hmem4⟩
    · refine ⟨rfl, rfl, rfl, rfl, rfl, rfl, rfl, le_refl _, ?_, ?_, ?_, ?_, ?_, ?_⟩
      · intro j hjc
        rw [hinfo2, if_neg hjc]
      · refine ⟨ci2, by rw [hinfo2, if_pos rfl], ?_, rfl, le_trans hw.oneMin hsteps2⟩
        rw [hgoa2]
        exact Int.natCast_nonneg gi
      · intro i g3 hg3
        by_cases higi : i = gi
        · subst higi
          rw [hlook] at hg3
          injection hg3 with hg3
          subst hg3
          refine ⟨g2, by rw [hmap2, if_pos rfl], rfl, rfl, rfl, ?_⟩
          intro x hx
          rcases mem_clients_append.mp hx with h1 | h1
          · exact Or.inl h1
          · exact Or.inr ⟨h1, hnz⟩
        · exact ⟨g3, by rw [hmap2, if_neg higi]; exact hg3, rfl, rfl, rfl,
            fun x hx => Or.inl hx⟩
      · intro i g3 hg3 hnone
        rw [hmap2] at hg3
        by_cases higi : i = gi
        · rw [higi] at hnone
          rw [hlook] at hnone
          cases hnone
        · rw [if_neg higi] at hg3
          rw [hg3] at hnone
          cases hnone
      · intro p hp
        exact hp
      · intro p hp
        exact Or.inl hp

theorem createGroup_eq (s : Sched) (c : Nat) :
    createGroup s c = mkNewGroupState s c (createAssignedSteps s c)
      (s.now + ((createAssignedSteps s c : Int) : ℚ) * (ciGetD s c).speed)
      (s.now + ((createAssignedSteps s c : Int) : ℚ) * (ciGetD s c).speed *
        s.LATEST_TIME_FACTOR) := rfl

theorem assignGroup_empty_eq (s : Sched) (c : Nat)
    (h : s.group_of_arrival = []) :
    assignGroup s c = mkNewGroupState s c s.max_local_steps
      (s.now + ((s.max_local_steps : Int) : ℚ) * (ciGetD s c).speed)
      (s.now + (ciGetD s c).speed * s.LATEST_TIME_FACTOR) := by
  unfold assignGroup
  rw [if_pos h]
  rfl

theorem assignGroup_nonempty_eq (s : Sched) (c : Nat)
    (h : ¬ (s.group_of_arrival = [])) :
    assignGroup s c =
      (if (joinGroup s c).2 then (joinGroup s c).1 else createGroup s c) := by
  unfold assignGroup
  rw [if_neg h]

/-- Creating a fresh group for the ready client `c` preserves the (weakened)
invariant. -/
theorem newGroup_master (s : Sched) (gid : Nat) (R : List Nat) (c : Nat)
    (ci : ClientInfo) (a : Int) (expected latest : ℚ)
    (hw : InvW s gid (c :: R) [c])
    (hcN : c < s.num_clients)
    (hci : s.client_info c = some ci)
    (hsp : 0 ≤ ci.speed)
    (ha : 1 ≤ a)
    (hcl : ∀ i g, mlookup s.group_of_arrival i = some g → c ∉ g.clients)
    (har : ∀ i g, mlookup s.group_of_arrival i = some g →
      c ∈ g.arrived_clients → zeroG g)
    (hcar : ∀ i g, mlookup s.group_of_arrival i = some g → i ≠ gid →
      i ∈ pendIds s → c ∉ g.arrived_clients) :
    InvW (mkNewGroupState s c a expected latest) gid R [] ∧
    AssignPost s (mkNewGroupState s c a expected latest) c := by
  set S := mkNewGroupState s c a expected latest with hS
  set gNew : GOA := { clients := [c], arrived_clients := [], expected_arrival_time := expected, latest_arrival_time := latest } with hgNewdef
  set ci2 : ClientInfo := { ci with goa := ((s.group_counter : Nat) : Int), local_steps := a, start_time := s.now } with hci2def
  have hgoa2 : ci2.goa = ((s.group_counter : Nat) : Int) := rfl
  have hmap : ∀ j, mlookup S.group_of_arrival j =
      if j = s.group_counter then some gNew else mlookup s.group_of_arrival j := by
    intro j
    show mlookup (minsert s.group_of_arrival s.group_counter gNew) j = _
    rw [mlookup_minsert]
  have hpend : S.pend = s.pend ++ [(s.group_counter, latest)] := rfl
  have hcnt2 : S.group_counter = s.group_counter + 1 := rfl
  have hnow2 : S.now = s.now := rfl
  have hSci : ∀ j, S.client_info j =
      if j = c then some ci2 else s.client_info j := by
    intro j
    show (if j = c then
        some { ciGetD { s with
            group_of_arrival := minsert s.group_of_arrival s.group_counter gNew,
            pend := s.pend ++ [(s.group_counter, latest)] } c with
          goa := ((s.group_counter : Nat) : Int), local_steps := a,
          start_time := s.now }
      else s.client_info j) = _
    have hgd : ciGetD { s with
        group_of_arrival := minsert s.group_of_arrival s.group_counter gNew,
        pend := s.pend ++ [(s.group_counter, latest)] } c = ci := by
      show (s.client_info c).getD ciDefault = ci
      rw [hci]
      rfl
    rw [hgd]
  have hmapkeys : S.group_of_arrival =
      s.group_of_arrival ++ [(s.group_counter, gNew)] := by
    show minsert s.group_of_arrival s.group_counter gNew = _
    exact minsert_of_lt _ _ _ hw.keysLt
  have hpendIdsS : pendIds S = pendIds s ++ [s.group_counter] := by
    show (s.pend ++ [(s.group_counter, latest)]).map Prod.fst = _
    rw [List.map_append]
    rfl
  have hcntpend : s.group_counter ∈ pendIds S := by
    rw [hpendIdsS]
    exact List.mem_append_right _ (List.mem_singleton_self _)
  have hfresh : mlookup s.group_of_arrival s.group_counter = none := by
    cases hh : mlookup s.group_of_arrival s.group_counter with
    | none => rfl
    | some g =>
      have := hw.keysLt _ (mem_of_mlookup hh)
      omega
  constructor
  · refine ⟨?_, hw.oneM, hw.oneMin, ?_, ?_, ?_, ?_, ?_, ?_, ?_, ?_, ?_, ?_,
      ?_, ?_, ?_, ?_, ?_, ?_⟩
    · rw [hnow2]
      exact hw.nowNN
    · intro p hp
      rw [hmapkeys] at hp
      rw [hcnt2]
      rcases List.mem_append.mp hp with h1 | h1
      · have := hw.keysLt p h1
        omega
      · rw [List.mem_singleton] at h1
        subst h1
        omega
    · rw [hmapkeys, List.map_append, List.nodup_append]
      refine ⟨hw.keysND, List.nodup_singleton _, ?_⟩
      intro x hx hx2
      simp only [List.map_cons, List.map_nil, List.mem_singleton] at hx2
      subst hx2
      obtain ⟨q, hq, hq2⟩ := List.mem_map.mp hx
      have := hw.keysLt q hq
      omega
    · intro p hp
      rw [hpend] at hp
      rw [hcnt2]
      rcases List.mem_append.mp hp with h1 | h1
      · have := hw.pendLt p h1
        omega
      · rw [List.mem_singleton] at h1
        subst h1
        omega
    · rw [hpendIdsS, List.nodup_append]
      refine ⟨hw.pendND, List.nodup_singleton _, ?_⟩
      intro x hx hx2
      rw [List.mem_singleton] at hx2
      subst hx2
      obtain ⟨q, hq, hq2⟩ := List.mem_map.mp hx
      have := hw.pendLt q hq
      omega
    · intro p hp hpgid g hg
      rw [hmap] at hg
      rw [hpend] at hp
      rcases List.mem_append.mp hp with h1 | h1
      · have hplt := hw.pendLt p h1
        have hpne : ¬ (p.1 = s.group_counter) := by omega
        rw [if_neg hpne] at hg
        exact hw.pendSched p h1 hpgid g hg
      · rw [List.mem_singleton] at h1
        subst h1
        rw [if_pos rfl] at hg
        injection hg with hg
        subst hg
        rfl
    · intro i g hg hig hnp
      rw [hmap] at hg
      by_cases hic : i = s.group_counter
      · subst hic
        exact absurd hcntpend hnp
      · rw [if_neg hic] at hg
        refine hw.liveZero i g hg hig ?_
        intro hmem
        exact hnp (by rw [hpendIdsS]; exact List.mem_append_left _ hmem)
    · intro i g hg
      rw [hmap] at hg
      by_cases hic : i = s.group_counter
      · rw [if_pos hic] at hg
        injection hg with hg
        subst hg
        exact List.nodup_singleton _
      · rw [if_neg hic] at hg
        exact hw.clND i g hg
    · intro i g hg
      rw [hmap] at hg
      by_cases hic : i = s.group_counter
      · rw [if_pos hic] at hg
        injection hg with hg
        subst hg
        exact List.nodup_nil
      · rw [if_neg hic] at hg
        exact hw.arND i g hg
    · intro i g hg x hx
      rw [hmap] at hg
      by_cases hic : i = s.group_counter
      · rw [if_pos hic] at hg
        injection hg with hg
        subst hg
        intro hxar
        rw [hgNewdef] at hxar
        simp at hxar
      · rw [if_neg hic] at hg
        exact hw.clArDisj i g hg x hx
    · intro i j gi gj hgi hgj hij x hxi
      rw [hmap] at hgi hgj
      by_cases hic : i = s.group_counter
      · rw [if_pos hic] at hgi
        injection hgi with hgi
        subst hgi
        have hjc : ¬ (j = s.group_counter) := fun h => hij (hic.trans h.symm)
        rw [if_neg hjc] at hgj
        rw [hgNewdef] at hxi
        simp only [List.mem_singleton] at hxi
        subst hxi
        exact hcl j gj hgj
      · rw [if_neg hic] at hgi
        by_cases hjc : j = s.group_counter
        · rw [if_pos hjc] at hgj
          injection hgj with hgj
          subst hgj
          rw [hgNewdef]
          simp only [List.mem_singleton]
          intro hxc
          subst hxc
          exact hcl i gi hgi hxi
        · rw [if_neg hjc] at hgj
          exact hw.clPair i j gi gj hgi hgj hij x hxi
    · intro i g hg x hx
      rw [hmap] at hg
      by_cases hic : i = s.group_counter
      · rw [if_pos hic] at hg
        injection hg with hg
        subst hg
        rw [hgNewdef] at hx
        simp only [List.mem_singleton] at hx
        subst hx
        subst hic
        exact ⟨hcN, ci2, by rw [hSci, if_pos rfl], rfl⟩
      · rw [if_neg hic] at hg
        obtain ⟨hxN, ci3, hci3, hgoa3⟩ := hw.clOwn i g hg x hx
        have hxc : x ≠ c := fun h => hcl i g hg (h ▸ hx)
        refine ⟨hxN, ci3, ?_, hgoa3⟩
        rw [hSci, if_neg hxc]
        exact hci3
    · intro i g hg x hx
      rw [hmap] at hg
      by_cases hic : i = s.group_counter
      · rw [if_pos hic] at hg
        injection hg with hg
        subst hg
        rw [hgNewdef] at hx
        simp at hx
      · rw [if_neg hic] at hg
        obtain ⟨hxN, hsome⟩ := hw.arMem i g hg x hx
        refine ⟨hxN, ?_⟩
        rw [hSci]
        by_cases hxc : x = c
        · simp [hxc]
        · rw [if_neg hxc]
          exact hsome
    · intro i g hg hig hpre x hx ci3 hci3
      rw [hmap] at hg
      rw [hSci] at hci3
      by_cases hic : i = s.group_counter
      · rw [if_pos hic] at hg
        injection hg with hg
        subst hg
        rw [hgNewdef] at hx
        simp at hx
      · rw [if_neg hic] at hg
        by_cases hxc : x = c
        · subst hxc
          rcases hpre with hnz | hpd
          · exact absurd (har i g hg hx) hnz
          · exfalso
            rw [hpendIdsS] at hpd
            rcases List.mem_append.mp hpd with h1 | h1
            · exact hcar i g hg hig h1 hx
            · rw [List.mem_singleton] at h1
              exact hic h1
        · rw [if_neg hxc] at hci3
          refine hw.arOwn i g hg hig ?_ x hx ci3 hci3
          rcases hpre with hnz | hpd
          · exact Or.inl hnz
          · rw [hpendIdsS] at hpd
            rcases List.mem_append.mp hpd with h1 | h1
            · exact Or.inr h1
            · rw [List.mem_singleton] at h1
              exact absurd h1 hic
    · intro i g hg hig hz hnp x hx ci3 hci3
      rw [hmap] at hg
      rw [hSci] at hci3
      by_cases hic : i = s.group_counter
      · subst hic
        exact absurd hcntpend hnp
      · rw [if_neg hic] at hg
        by_cases hxc : x = c
        · subst hxc
          rw [if_pos rfl] at hci3
          injection hci3 with hci3
          subst hci3
          rw [hgoa2]
          intro h
          have h2 : s.group_counter = i := by exact_mod_cast h
          exact hic h2.symm
        · rw [if_neg hxc] at hci3
          refine hw.arStale i g hg hig hz ?_ x hx ci3 hci3
          intro hmem
          exact hnp (by rw [hpendIdsS]; exact List.mem_append_left _ hmem)
    · intro g hg x hx ci3 hci3 hgoal
      rw [hmap] at hg
      rw [hSci] at hci3
      by_cases hic : gid = s.group_counter
      · rw [if_pos hic] at hg
        injection hg with hg
        subst hg
        rw [hgNewdef] at hx
        simp at hx
      · rw [if_neg hic] at hg
        by_cases hxc : x = c
        · subst hxc
          rw [if_pos rfl] at hci3
          injection hci3 with hci3
          subst hci3
          rw [hgoa2] at hgoal
          have h2 : s.group_counter = gid := by exact_mod_cast hgoal
          exact absurd h2.symm hic
        · rw [if_neg hxc] at hci3
          have h3 := hw.arG g hg x hx ci3 hci3 hgoal
          rcases List.mem_cons.mp h3 with h1 | h1
          · exact absurd h1 hxc
          · exact h1
    · intro j hj ci3 hci3
      rw [hSci] at hci3
      by_cases hjc : j = c
      · subst hjc
        rw [if_pos rfl] at hci3
        injection hci3 with hci3
        subst hci3
        refine ⟨hsp, ha, ?_, ?_, ?_⟩
        · rw [hnow2]
        · rw [hgoa2]
          exact Int.natCast_nonneg _
        · refine ⟨gNew, ?_, Or.inl ?_⟩
          · have ht : ci2.goa.toNat = s.group_counter := by
              rw [hgoa2]
              exact Int.toNat_natCast _
            rw [ht, hmap, if_pos rfl]
          · rw [hgNewdef]
            exact List.mem_singleton_self _
      · rw [if_neg hjc] at hci3
        obtain ⟨h0, h1, h2, h3, g4, hg4, hmem4⟩ :=
          hw.ciOk j (by simp [hjc]) ci3 hci3
        have hne4 : ci3.goa.toNat ≠ s.group_counter := by
          intro he
          rw [he, hfresh] at hg4
          cases hg4
        refine ⟨h0, h1, by rw [hnow2]; exact h2, h3, g4, ?_, hmem4⟩
        rw [hmap, if_neg hne4]
        exact hg4
  · refine ⟨hnow2, rfl, rfl, rfl, rfl, rfl, rfl, by rw [hcnt2]; omega,
      ?_, ?_, ?_, ?_, ?_, ?_⟩
    · intro j hjc
      rw [hSci, if_neg hjc]
    · refine ⟨ci2, by rw [hSci, if_pos rfl], ?_, rfl, ha⟩
      rw [hgoa2]
      exact Int.natCast_nonneg _
    · intro i g hg
      have hic : i ≠ s.group_counter := by
        intro he
        rw [he, hfresh] at hg
        cases hg
      refine ⟨g, ?_, rfl, rfl, rfl, fun x hx => Or.inl hx⟩
      rw [hmap, if_neg hic]
      exact hg
    · intro i g2 hg2 hnone
      rw [hmap] at hg2
      by_cases hic : i = s.group_counter
      · rw [if_pos hic] at hg2
        injection hg2 with hg2
        subst hg2
        subst hic
        refine ⟨by rw [hgNewdef], hcntpend, ?_, le_refl _⟩
        intro p hp hp1
        rw [hpend] at hp
        rcases List.mem_append.mp hp with h1 | h1
        · have := hw.pendLt p h1
          omega
        · rw [List.mem_singleton] at h1
          subst h1
          rw [hgNewdef]
      · rw [if_neg hic] at hg2
        rw [hg2] at hnone
        cases hnone
    · intro p hp
      rw [hpend]
      exact List.mem_append_left _ hp
    · intro p hp
      rw [hpend] at hp
      rcases List.mem_append.mp hp with h1 | h1
      · exact Or.inl h1
      · rw [List.mem_singleton] at h1
        subst h1
        exact Or.inr (le_refl _)

/-- Growing the not-yet-reassigned list preserves the weakened invariant. -/
theorem InvW_R_mono (s : Sched) (gid : Nat) (R R2 exc : List Nat)
    (hw : InvW s gid R exc) (hR : ∀ x ∈ R, x ∈ R2) :
    InvW s gid R2 exc := by
  refine ⟨hw.nowNN, hw.oneM, hw.oneMin, hw.keysLt, hw.keysND, hw.pendLt,
    hw.pendND, hw.pendSched, hw.liveZero, hw.clND, hw.arND, hw.clArDisj,
    hw.clPair, hw.clOwn, hw.arMem, hw.arOwn, hw.arStale, ?_, hw.ciOk⟩
  intro g hg x hx ci hci hgoal
  exact hR x (hw.arG g hg x hx ci hci hgoal)

/-- Growing the exception list preserves the weakened invariant. -/
theorem InvW_exc_mono (s : Sched) (gid : Nat) (R exc exc2 : List Nat)
    (hw : InvW s gid R exc) (he : ∀ x ∈ exc, x ∈ exc2) :
    InvW s gid R exc2 := by
  refine ⟨hw.nowNN, hw.oneM, hw.oneMin, hw.keysLt, hw.keysND, hw.pendLt,
    hw.pendND, hw.pendSched, hw.liveZero, hw.clND, hw.arND, hw.clArDisj,
    hw.clPair, hw.clOwn, hw.arMem, hw.arOwn, hw.arStale, hw.arG, ?_⟩
  intro j hj ci hci
  exact hw.ciOk j (fun h => hj (he j h)) ci hci

/-- `_assign_group` on a ready client preserves the weakened invariant and
satisfies the assignment postcondition. -/
theorem assign_master (s : Sched) (gid : Nat) (R : List Nat) (c : Nat)
    (ci : ClientInfo)
    (hw : InvW s gid (c :: R) [c])
    (hcN : c < s.num_clients)
    (hci : s.client_info c = some ci)
    (hsp : 0 ≤ ci.speed)
    (hcl : ∀ i g, mlookup s.group_of_arrival i = some g → c ∉ g.clients)
    (har : ∀ i g, mlookup s.group_of_arrival i = some g →
      c ∈ g.arrived_clients → zeroG g)
    (hgz : ∀ g, mlookup s.group_of_arrival gid = some g → zeroG g)
    (hcar : ∀ i g, mlookup s.group_of_arrival i = some g → i ≠ gid →
      i ∈ pendIds s → c ∉ g.arrived_clients) :
    InvW (assignGroup s c) gid R [] ∧ AssignPost s (assignGroup s c) c := by
  by_cases hempty : s.group_of_arrival = []
  · rw [assignGroup_empty_eq s c hempty]
    exact newGroup_master s gid R c ci s.max_local_steps _ _ hw hcN hci hsp
      hw.oneM hcl har hcar
  · rw [assignGroup_nonempty_eq s c hempty]
    rcases hj : joinGroup s c with ⟨s2, b⟩
    cases b
    · have hred : (if ((s2, false) : Sched × Bool).2 = true
            then ((s2, false) : Sched × Bool).1 else createGroup s c) =
          createGroup s c := rfl
      rw [hred, createGroup_eq]
      exact newGroup_master s gid R c ci (createAssignedSteps s c) _ _ hw hcN
        hci hsp (createAssignedSteps_pos s c hw.oneMin hw.oneM) hcl har hcar
    · have hred : (if ((s2, true) : Sched × Bool).2 = true
            then ((s2, true) : Sched × Bool).1 else createGroup s c) = s2 := rfl
      rw [hred]
      exact join_master s s2 gid R c ci hw hj hcN hci hsp hcl har hgz hcar

/-- `merase` yields a sublist. -/
theorem merase_sublist {κ α : Type} [DecidableEq κ] (l : List (κ × α))
    (i : κ) : (merase l i).Sublist l := by
  induction l with
  | nil => exact List.Sublist.refl _
  | cons p rest ih =>
    obtain ⟨k, v⟩ := p
    rw [merase]
    by_cases hk : k = i
    · rw [if_pos hk]
      exact List.Sublist.trans ih (List.sublist_cons_self _ _)
    · rw [if_neg hk]
      exact List.Sublist.cons₂ _ ih

/-- `ServerFedCompass::buffer` is invisible to the invariant. -/
theorem InvW_serverBuffer (s : Sched) (gid gidW : Nat) (R exc : List Nat)
    (hw : InvW s gidW R exc) : InvW (serverBuffer s gid) gidW R exc := by
  unfold serverBuffer
  exact InvW_serverFields s gidW R exc s.global_step s.general_buffer_size _
    s.sent s.iter hw

/-- `ServerFedCompass::update_group` is invisible to the invariant. -/
theorem InvW_serverUpdateGroup (s : Sched) (gid gidW : Nat) (R exc : List Nat)
    (hw : InvW s gidW R exc) : InvW (serverUpdateGroup s gid) gidW R exc := by
  unfold serverUpdateGroup
  by_cases hb : (mlookup s.group_pseudo_grad gid).isSome = true
  · rw [if_pos hb]
    exact hw
  · rw [if_neg hb]
    exact InvW_serverFields s gidW R exc (s.global_step + 1) 0 _ s.sent s.iter hw

/-- `ServerFedCompass::update` is invisible to the invariant. -/
theorem InvW_serverUpdate (s : Sched) (gidW : Nat) (R exc : List Nat)
    (hw : InvW s gidW R exc) : InvW (serverUpdate s) gidW R exc := by
  unfold serverUpdate
  exact InvW_serverFields s gidW R exc (s.global_step + 1) s.general_buffer_size
    s.group_pseudo_grad s.sent s.iter hw

/-- `ServerFedCompass::single_buffer` is invisible to the invariant. -/
theorem InvW_serverSingleBuffer (s : Sched) (gidW : Nat) (R exc : List Nat)
    (hw : InvW s gidW R exc) : InvW (serverSingleBuffer s) gidW R exc := by
  unfold serverSingleBuffer
  exact InvW_serverFields s gidW R exc s.global_step
    (s.general_buffer_size + 1) s.group_pseudo_grad s.sent s.iter hw

/-- `ServerFedCompass::update_all` is invisible to the invariant. -/
theorem InvW_serverUpdateAll (s : Sched) (gidW : Nat) (R exc : List Nat)
    (hw : InvW s gidW R exc) : InvW (serverUpdateAll s) gidW R exc := by
  unfold serverUpdateAll
  exact InvW_serverFields s gidW R exc (s.global_step + 1)
    s.general_buffer_size s.group_pseudo_grad s.sent s.iter hw

/-- `_send_model` to a known client preserves the weakened invariant. -/
theorem InvW_sendModel (s : Sched) (gidW : Nat) (R : List Nat) (c : Nat)
    (ci : ClientInfo) (hw : InvW s gidW R [])
    (hci : s.client_info c = some ci) :
    InvW (sendModel s c) gidW R [] := by
  unfold sendModel sendGlobalModelToClient
  have hgd : ciGetD s c = ci := by
    unfold ciGetD
    rw [hci]
    rfl
  have hsp : 0 ≤ ci.speed := ((hw.ciOk c (by simp) ci hci)).1
  rw [hgd]
  have h1 : InvW (setCI s c { ci with total_steps := ci.total_steps + ci.local_steps })
      gidW R [] :=
    InvW_setCI_compat s gidW R [] c ci _ hw hci rfl rfl rfl (fun _ => hsp)
  exact InvW_serverFields _ gidW R [] _ _ _ _ _ h1

theorem insSorted_perm (p : Nat × ℚ) (l : List (Nat × ℚ)) :
    (insSorted p l).Perm (p :: l) := by
  induction l with
  | nil => exact List.Perm.refl _
  | cons q rest ih =>
    rw [insSorted]
    by_cases h : p.2 ≤ q.2
    · rw [if_pos h]
    · rw [if_neg h]
      exact (ih.cons q).trans (List.Perm.swap p q rest)

theorem sortBySpeed_perm (l : List (Nat × ℚ)) : (sortBySpeed l).Perm l := by
  induction l with
  | nil => exact List.Perm.refl _
  | cons p rest ih =>
    exact (insSorted_perm p (sortBySpeed rest)).trans (ih.cons p)

theorem groupAggregation_none (s : Sched) (gid : Nat)
    (hg : mlookup s.group_of_arrival gid = none) :
    groupAggregation s gid = s := by
  unfold groupAggregation
  rw [hg]

theorem groupAggregation_eq (s : Sched) (gid : Nat) (g : GOA)
    (hg : mlookup s.group_of_arrival gid = some g) :
    groupAggregation s gid =
      (let s2 := stampFold g.arrived_clients (serverUpdateGroup s gid)
       let sorted := sortBySpeed
         (g.arrived_clients.map (fun c => (c, (ciGetD s2 c).speed)))
       let m3 := mmodify s2.group_of_arrival gid (fun h => { h with expected_arrival_time := 0, latest_arrival_time := 0 })
       let s3 : Sched := { s2 with group_of_arrival := m3 }
       let s5 := eraseStep (assignFold sorted s3) gid
       if s5.iter < s5.num_global_epochs then sendFold sorted s5
       else serverUpdateAll s5) := by
  unfold groupAggregation
  rw [hg]
  rfl

/-- Re-targeting the weakened invariant at the never-live `group_counter`:
the full invariant follows once the four exempted clauses are supplied at
the weak spot. -/
theorem InvW_to_Inv (s : Sched) (gid : Nat)
    (hw : InvW s gid [] [])
    (hsch : ∀ p ∈ s.pend, p.1 = gid →
      ∀ g, mlookup s.group_of_arrival p.1 = some g →
      p.2 = g.latest_arrival_time)
    (hlz : ∀ g, mlookup s.group_of_arrival gid = some g →
      gid ∉ pendIds s → zeroG g)
    (haro : ∀ g, mlookup s.group_of_arrival gid = some g →
      (¬ zeroG g ∨ gid ∈ pendIds s) → ∀ c ∈ g.arrived_clients,
      ∀ ci, s.client_info c = some ci → ci.goa = (gid : Int))
    (hars : ∀ g, mlookup s.group_of_arrival gid = some g → zeroG g →
      gid ∉ pendIds s → ∀ c ∈ g.arrived_clients,
      ∀ ci, s.client_info c = some ci → ci.goa ≠ (gid : Int)) :
    Inv s := by
  have hcnt : mlookup s.group_of_arrival s.group_counter = none := by
    cases hh : mlookup s.group_of_arrival s.group_counter with
    | none => rfl
    | some g =>
      have := hw.keysLt _ (mem_of_mlookup hh)
      omega
  refine ⟨hw.nowNN, hw.oneM, hw.oneMin, hw.keysLt, hw.keysND, hw.pendLt,
    hw.pendND, ?_, ?_, hw.clND, hw.arND, hw.clArDisj, hw.clPair, hw.clOwn,
    hw.arMem, ?_, ?_, ?_, hw.ciOk⟩
  · intro p hp hpc g hg
    by_cases hpg : p.1 = gid
    · exact hsch p hp hpg g hg
    · exact hw.pendSched p hp hpg g hg
  · intro i g hg hic hnp
    by_cases hig : i = gid
    · subst hig
      exact hlz g hg hnp
    · exact hw.liveZero i g hg hig hnp
  · intro i g hg hic hpre x hx ci hci
    by_cases hig : i = gid
    · subst hig
      exact haro g hg hpre x hx ci hci
    · exact hw.arOwn i g hg hig hpre x hx ci hci
  · intro i g hg hic hz hnp x hx ci hci
    by_cases hig : i = gid
    · subst hig
      exact hars g hg hz hnp x hx ci hci
    · exact hw.arStale i g hg hig hz hnp x hx ci hci
  · intro g hg
    rw [hcnt] at hg
    cases hg

/-- Erasing the weak-spot group once its `clients` list is empty preserves
the weakened invariant (its arrived clients are already re-owned). -/
theorem InvW_erase_self (s : Sched) (gid : Nat) (g : GOA)
    (hw : InvW s gid [] []) (hg : mlookup s.group_of_arrival gid = some g)
    (hcle : g.clients = []) :
    InvW { s with group_of_arrival := merase s.group_of_arrival gid }
      gid [] [] := by
  have hmap : ∀ j, mlookup (merase s.group_of_arrival gid) j =
      if j = gid then none else mlookup s.group_of_arrival j :=
    fun j => mlookup_merase _ _ _
  have hng : ∀ x ci, s.client_info x = some ci → ci.goa.toNat = gid → False := by
    intro x ci hci htn
    obtain ⟨h0, h1, h2, h3, g4, hg4, hmem⟩ := hw.ciOk x (by simp) ci hci
    rw [htn, hg] at hg4
    injection hg4 with hg4
    subst hg4
    rcases hmem with h | h
    · rw [hcle] at h
      cases h
    · have hge : ci.goa = (gid : Int) := by
        rw [← Int.toNat_of_nonneg h3, htn]
      have := hw.arG g hg x h ci hci hge
      cases this
  refine ⟨hw.nowNN, hw.oneM, hw.oneMin, ?_, ?_, hw.pendLt, hw.pendND,
    ?_, ?_, ?_, ?_, ?_, ?_, ?_, ?_, ?_, ?_, ?_, ?_⟩
  · intro p hp
    exact hw.keysLt p ((merase_sublist _ _).subset hp)
  · exact hw.keysND.sublist ((merase_sublist _ _).map Prod.fst)
  · intro p hp hpg g2 hg2
    rw [hmap] at hg2
    by_cases hig : p.1 = gid
    · rw [if_pos hig] at hg2
      cases hg2
    · rw [if_neg hig] at hg2
      exact hw.pendSched p hp hpg g2 hg2
  · intro i g2 hg2 hig hnp
    rw [hmap] at hg2
    by_cases hi : i = gid
    · rw [if_pos hi] at hg2
      cases hg2
    · rw [if_neg hi] at hg2
      exact hw.liveZero i g2 hg2 hig hnp
  · intro i g2 hg2
    rw [hmap] at hg2
    by_cases hi : i = gid
    · rw [if_pos hi] at hg2
      cases hg2
    · rw [if_neg hi] at hg2
      exact hw.clND i g2 hg2
  · intro i g2 hg2
    rw [hmap] at hg2
    by_cases hi : i = gid
    · rw [if_pos hi] at hg2
      cases hg2
    · rw [if_neg hi] at hg2
      exact hw.arND i g2 hg2
  · intro i g2 hg2
    rw [hmap] at hg2
    by_cases hi : i = gid
    · rw [if_pos hi] at hg2
      cases hg2
    · rw [if_neg hi] at hg2
      exact hw.clArDisj i g2 hg2
  · intro i j gi gj hgi hgj hij
    rw [hmap] at hgi hgj
    by_cases hi : i = gid
    · rw [if_pos hi] at hgi
      cases hgi
    · rw [if_neg hi] at hgi
      by_cases hj : j = gid
      · rw [if_pos hj] at hgj
        cases hgj
      · rw [if_neg hj] at hgj
        exact hw.clPair i j gi gj hgi hgj hij
  · intro i g2 hg2
    rw [hmap] at hg2
    by_cases hi : i = gid
    · rw [if_pos hi] at hg2
      cases hg2
    · rw [if_neg hi] at hg2
      exact hw.clOwn i g2 hg2
  · intro i g2 hg2
    rw [hmap] at hg2
    by_cases hi : i = gid
    · rw [if_pos hi] at hg2
      cases hg2
    · rw [if_neg hi] at hg2
      exact hw.arMem i g2 hg2
  · intro i g2 hg2 hig hpre
    rw [hmap] at hg2
    by_cases hi : i = gid
    · rw [if_pos hi] at hg2
      cases hg2
    · rw [if_neg hi] at hg2
      exact hw.arOwn i g2 hg2 hig hpre
  · intro i g2 hg2 hig hz hnp
    rw [hmap] at hg2
    by_cases hi : i = gid
    · rw [if_pos hi] at hg2
      cases hg2
    · rw [if_neg hi] at hg2
      exact hw.arStale i g2 hg2 hig hz hnp
  · intro g2 hg2
    rw [hmap] at hg2
    rw [if_pos rfl] at hg2
    cases hg2
  · intro j hj ci hci
    obtain ⟨h0, h1, h2, h3, g4, hg4, hmem⟩ := hw.ciOk j hj ci hci
    have hne : ci.goa.toNat ≠ gid := fun h => hng j ci hci h
    refine ⟨h0, h1, h2, h3, g4, ?_, hmem⟩
    rw [hmap, if_neg hne]
    exact hg4

/-- Zeroing the deadline fields of the weak-spot group preserves the
weakened invariant. -/
theorem InvW_zero_gid (s : Sched) (gid : Nat) (R : List Nat)
    (hw : InvW s gid R []) :
    InvW { s with group_of_arrival := mmodify s.group_of_arrival gid (fun h => { h with expected_arrival_time := 0, latest_arrival_time := 0 }) } gid R [] := by
  have hmap : ∀ j, mlookup (mmodify s.group_of_arrival gid
      (fun h => { h with expected_arrival_time := (0 : ℚ), latest_arrival_time := (0 : ℚ) })) j =
      if j = gid then (mlookup s.group_of_arrival gid).map
        (fun h => { h with expected_arrival_time := (0 : ℚ), latest_arrival_time := (0 : ℚ) })
      else mlookup s.group_of_arrival j :=
    fun j => mlookup_mmodify _ _ _ _
  have hsplit : ∀ j g2, mlookup (mmodify s.group_of_arrival gid
      (fun h => { h with expected_arrival_time := (0 : ℚ), latest_arrival_time := (0 : ℚ) })) j = some g2 →
      ∃ g, mlookup s.group_of_arrival j = some g ∧
        g2.clients = g.clients ∧ g2.arrived_clients = g.arrived_clients := by
    intro j g2 hg2
    rw [hmap] at hg2
    by_cases hj : j = gid
    · rw [if_pos hj] at hg2
      cases hh : mlookup s.group_of_arrival gid with
      | none =>
        rw [hh] at hg2
        cases hg2
      | some g =>
        rw [hh] at hg2
        injection hg2 with hg2
        subst hg2
        exact ⟨g, hj ▸ hh, rfl, rfl⟩
    · rw [if_neg hj] at hg2
      exact ⟨g2, hg2, rfl, rfl⟩
  refine ⟨hw.nowNN, hw.oneM, hw.oneMin, ?_, ?_, hw.pendLt, hw.pendND,
    ?_, ?_, ?_, ?_, ?_, ?_, ?_, ?_, ?_, ?_, ?_, ?_⟩
  · exact keysLt_of_keys_eq hw.keysLt (mmodify_keys _ _ _)
  · rw [mmodify_keys]
    exact hw.keysND
  · intro p hp hpg g2 hg2
    rw [hmap] at hg2
    rw [if_neg hpg] at hg2
    exact hw.pendSched p hp hpg g2 hg2
  · intro i g2 hg2 hig hnp
    rw [hmap] at hg2
    rw [if_neg hig] at hg2
    exact hw.liveZero i g2 hg2 hig hnp
  · intro i g2 hg2
    obtain ⟨g, hg, hc, ha⟩ := hsplit i g2 hg2
    rw [hc]
    exact hw.clND i g hg
  · intro i g2 hg2
    obtain ⟨g, hg, hc, ha⟩ := hsplit i g2 hg2
    rw [ha]
    exact hw.arND i g hg
  · intro i g2 hg2 x hx
    obtain ⟨g, hg, hc, ha⟩ := hsplit i g2 hg2
    rw [hc] at hx
    rw [ha]
    exact hw.clArDisj i g hg x hx
  · intro i j gi2 gj2 hgi2 hgj2 hij x hxi
    obtain ⟨gi, hgi, hci', hai⟩ := hsplit i gi2 hgi2
    obtain ⟨gj, hgj, hcj, haj⟩ := hsplit j gj2 hgj2
    rw [hci'] at hxi
    rw [hcj]
    exact hw.clPair i j gi gj hgi hgj hij x hxi
  · intro i g2 hg2 x hx
    obtain ⟨g, hg, hc, ha⟩ := hsplit i g2 hg2
    rw [hc] at hx
    exact hw.clOwn i g hg x hx
  · intro i g2 hg2 x hx
    obtain ⟨g, hg, hc, ha⟩ := hsplit i g2 hg2
    rw [ha] at hx
    exact hw.arMem i g hg x hx
  · intro i g2 hg2 hig hpre x hx ci hci
    rw [hmap] at hg2
    rw [if_neg hig] at hg2
    exact hw.arOwn i g2 hg2 hig hpre x hx ci hci
  · intro i g2 hg2 hig hz hnp x hx ci hci
    rw [hmap] at hg2
    rw [if_neg hig] at hg2
    exact hw.arStale i g2 hg2 hig hz hnp x hx ci hci
  · intro g2 hg2 x hx ci hci hgl
    obtain ⟨g, hg, hc, ha⟩ := hsplit gid g2 hg2
    rw [ha] at hx
    exact hw.arG g hg x hx ci hci hgl
  · intro j hj ci hci
    obtain ⟨h0, h1, h2, h3, g4, hg4, hmem⟩ := hw.ciOk j hj ci hci
    by_cases hj4 : ci.goa.toNat = gid
    · refine ⟨h0, h1, h2, h3, { g4 with expected_arrival_time := (0 : ℚ), latest_arrival_time := (0 : ℚ) }, ?_, hmem⟩
      rw [hmap, if_pos hj4]
      rw [hj4] at hg4
      rw [hg4]
      rfl
    · refine ⟨h0, h1, h2, h3, g4, ?_, hmem⟩
      rw [hmap, if_neg hj4]
      exact hg4

theorem stampFold_cons (x : Nat) (A : List Nat) (s : Sched) :
    stampFold (x :: A) s =
      stampFold A (setCI s x { ciGetD s x with step := s.global_step }) := rfl

/-- The stamping fold preserves the weakened invariant and every tracked
client field except `step`. -/
theorem stamp_master (gid : Nat) : ∀ (A : List Nat) (s : Sched) (R : List Nat),
    InvW s gid R [] →
    (∀ x ∈ A, (s.client_info x).isSome) →
    InvW (stampFold A s) gid R [] ∧
    (∀ j ci2, (stampFold A s).client_info j = some ci2 →
      ∃ ci, s.client_info j = some ci ∧ ci2.goa = ci.goa ∧
        ci2.speed = ci.speed) ∧
    (∀ j, (s.client_info j).isSome → ((stampFold A s).client_info j).isSome) ∧
    (stampFold A s).group_of_arrival = s.group_of_arrival ∧
    (stampFold A s).pend = s.pend ∧
    (stampFold A s).now = s.now ∧
    (stampFold A s).group_counter = s.group_counter ∧
    (stampFold A s).iter = s.iter ∧
    (stampFold A s).num_global_epochs = s.num_global_epochs ∧
    (stampFold A s).num_clients = s.num_clients
  | [], s, R, hw, hA =>
    ⟨hw, fun j ci2 h => ⟨ci2, h, rfl, rfl⟩, fun j h => h, rfl, rfl, rfl, rfl,
      rfl, rfl, rfl⟩
  | x :: A, s, R, hw, hA => by
    rw [stampFold_cons]
    obtain ⟨cix, hcix⟩ : ∃ ci, s.client_info x = some ci := by
      have hs := hA x (List.mem_cons_self x A)
      cases h : s.client_info x with
      | none =>
        rw [h] at hs
        cases hs
      | some ci => exact ⟨ci, rfl⟩
    have hgd : ciGetD s x = cix := by
      unfold ciGetD
      rw [hcix]
      rfl
    rw [hgd]
    have hw2 : InvW (setCI s x { cix with step := s.global_step }) gid R [] :=
      InvW_setCI_compat s gid R [] x cix _ hw hcix rfl rfl rfl
        (fun _ => (hw.ciOk x (by simp) cix hcix).1)
    have hA2 : ∀ y ∈ A,
        ((setCI s x { cix with step := s.global_step }).client_info y).isSome := by
      intro y hy
      show (if y = x then some _ else s.client_info y).isSome
      by_cases hyx : y = x
      · rw [if_pos hyx]
        rfl
      · rw [if_neg hyx]
        exact hA y (List.mem_cons_of_mem _ hy)
    obtain ⟨ih1, ih2, ih3, ih4, ih5, ih6, ih7, ih8, ih9, ih10⟩ :=
      stamp_master gid A (setCI s x { cix with step := s.global_step }) R hw2 hA2
    refine ⟨ih1, ?_, ?_, ih4, ih5, ih6, ih7, ih8, ih9, ih10⟩
    · intro j ci2 h
      obtain ⟨ci1, hci1, hgoa, hspd⟩ := ih2 j ci2 h
      by_cases hjx : j = x
      · subst hjx
        have h2 : (setCI s j { cix with step := s.global_step }).client_info j =
            some { cix with step := s.global_step } := by
          show (if j = j then _ else _) = _
          rw [if_pos rfl]
        rw [h2] at hci1
        injection hci1 with e
        refine ⟨cix, hcix, ?_, ?_⟩
        · rw [hgoa, ← e]
        · rw [hspd, ← e]
      · have h2 : (setCI s x { cix with step := s.global_step }).client_info j =
            s.client_info j := by
          show (if j = x then _ else _) = _
          rw [if_neg hjx]
        rw [h2] at hci1
        exact ⟨ci1, hci1, hgoa, hspd⟩
    · intro j h
      apply ih3
      show (if j = x then some _ else s.client_info j).isSome
      by_cases hjx : j = x
      · rw [if_pos hjx]
        rfl
      · rw [if_neg hjx]
        exact h

theorem FoldPost_refl (s : Sched) : FoldPost s s :=
  ⟨rfl, rfl, rfl, rfl, le_refl _, fun _ h => h,
    fun _ g hg => ⟨g, hg, rfl, rfl, rfl, fun _ x hx => hx⟩,
    fun _ hp => Or.inl hp⟩

theorem assignFold_cons (q : Nat × ℚ) (L : List (Nat × ℚ)) (s : Sched) :
    assignFold (q :: L) s = assignFold L (assignGroup s q.1) := rfl

/-- The reassignment fold of `_group_aggregation`: reassigning the arrived
clients of the zeroed weak-spot group one by one restores the invariant
with an empty remainder list. -/
theorem assignFold_master (gid : Nat) : ∀ (L : List (Nat × ℚ)) (s : Sched),
    InvW s gid (L.map Prod.fst) [] →
    (L.map Prod.fst).Nodup →
    gid < s.group_counter →
    (∀ x ∈ L.map Prod.fst, x < s.num_clients) →
    (∀ x ∈ L.map Prod.fst, ∃ ci, s.client_info x = some ci ∧ 0 ≤ ci.speed ∧
      ci.goa = (gid : Int)) →
    (∀ g, mlookup s.group_of_arrival gid = some g → zeroG g ∧
      ∀ x ∈ L.map Prod.fst, x ∈ g.arrived_clients) →
    InvW (assignFold L s) gid [] [] ∧ FoldPost s (assignFold L s) ∧
    (∀ x ∈ L.map Prod.fst, ((assignFold L s).client_info x).isSome)
  | [], s, hw, hnd, hlt, hN, hinfo, hAg =>
    ⟨hw, FoldPost_refl s, by intro x hx; simp at hx⟩
  | q :: L, s, hw, hnd, hlt, hN, hinfo, hAg => by
    rw [assignFold_cons]
    have hcmem : q.1 ∈ (q :: L).map Prod.fst := by
      rw [List.map_cons]
      exact List.mem_cons_self _ _
    obtain ⟨ci, hci, hsp, hgoa⟩ := hinfo q.1 hcmem
    have hndt : (L.map Prod.fst).Nodup := by
      rw [List.map_cons] at hnd
      exact (List.nodup_cons.mp hnd).2
    have hcnot : q.1 ∉ L.map Prod.fst := by
      rw [List.map_cons] at hnd
      exact (List.nodup_cons.mp hnd).1
    have hcN : q.1 < s.num_clients := hN q.1 hcmem
    have hcar : ∀ i g, mlookup s.group_of_arrival i = some g → i ≠ gid →
        i ∈ pendIds s → q.1 ∉ g.arrived_clients := by
      intro i g hg hig hpd hmem
      have h1 := hw.arOwn i g hg hig (Or.inr hpd) q.1 hmem ci hci
      rw [hgoa] at h1
      have h2 : gid = i := by exact_mod_cast h1
      exact hig h2.symm
    have har : ∀ i g, mlookup s.group_of_arrival i = some g →
        q.1 ∈ g.arrived_clients → zeroG g := by
      intro i g hg hmem
      by_cases hig : i = gid
      · exact (hAg g (hig ▸ hg)).1
      · by_cases hz : zeroG g
        · exact hz
        · have h1 := hw.arOwn i g hg hig (Or.inl hz) q.1 hmem ci hci
          rw [hgoa] at h1
          have h2 : gid = i := by exact_mod_cast h1
          exact absurd h2.symm hig
    have hcl : ∀ i g, mlookup s.group_of_arrival i = some g →
        q.1 ∉ g.clients := by
      intro i g hg hmem
      obtain ⟨hq1, ci', hci', hgoa'⟩ := hw.clOwn i g hg q.1 hmem
      rw [hci] at hci'
      injection hci' with e
      subst e
      rw [hgoa] at hgoa'
      have h2 : gid = i := by exact_mod_cast hgoa'
      subst h2
      exact hw.clArDisj gid g hg q.1 hmem ((hAg g hg).2 q.1 hcmem)
    have hgz : ∀ g, mlookup s.group_of_arrival gid = some g → zeroG g :=
      fun g hg => (hAg g hg).1
    have hwX : InvW s gid (q.1 :: L.map Prod.fst) [q.1] := by
      apply InvW_exc_mono s gid _ [] [q.1] _ (by intro x hx; simp at hx)
      exact hw
    obtain ⟨hw2, hpost⟩ := assign_master s gid (L.map Prod.fst) q.1 ci hwX hcN
      hci hsp hcl har hgz hcar
    obtain ⟨hpnow, hpN, hpmin, hpmax, hpbound, hpep, hpiter, hpcnt, hpother,
      hpc, hpgrp, hpnew, hppmono, hppnew⟩ := hpost
    have hlt2 : gid < (assignGroup s q.1).group_counter := lt_of_lt_of_le hlt hpcnt
    have hN2 : ∀ x ∈ L.map Prod.fst, x < (assignGroup s q.1).num_clients := by
      intro x hx
      rw [hpN]
      exact hN x (by rw [List.map_cons]; exact List.mem_cons_of_mem _ hx)
    have hinfo2 : ∀ x ∈ L.map Prod.fst, ∃ ci',
        (assignGroup s q.1).client_info x = some ci' ∧ 0 ≤ ci'.speed ∧
        ci'.goa = (gid : Int) := by
      intro x hx
      obtain ⟨ci', hci', hsp', hgoa'⟩ := hinfo x
        (by rw [List.map_cons]; exact List.mem_cons_of_mem _ hx)
      have hxc : x ≠ q.1 := fun h => hcnot (h ▸ hx)
      exact ⟨ci', by rw [hpother x hxc]; exact hci', hsp', hgoa'⟩
    have hAg2 : ∀ g2, mlookup (assignGroup s q.1).group_of_arrival gid = some g2 →
        zeroG g2 ∧ ∀ x ∈ L.map Prod.fst, x ∈ g2.arrived_clients := by
      intro g2 hg2
      cases hg : mlookup s.group_of_arrival gid with
      | none =>
        obtain ⟨h1, h2, h3, hge⟩ := hpnew gid g2 hg2 hg
        omega
      | some g =>
        obtain ⟨g2', hg2', har', hexp', hlat', hcl'⟩ := hpgrp gid g hg
        rw [hg2'] at hg2
        injection hg2 with e
        subst e
        obtain ⟨hz, hsub⟩ := hAg g hg
        constructor
        · show g2'.expected_arrival_time = 0 ∧ g2'.latest_arrival_time = 0
          rw [hexp', hlat']
          exact hz
        · intro x hx
          rw [har']
          exact hsub x (by rw [List.map_cons]; exact List.mem_cons_of_mem _ hx)
    obtain ⟨ihInv, ihPost, ihSome⟩ :=
      assignFold_master gid L (assignGroup s q.1) hw2 hndt hlt2 hN2 hinfo2 hAg2
    obtain ⟨qnow, qiter, qep, qN, qcnt, qsome, qgrp, qpnew⟩ := ihPost
    refine ⟨ihInv, ⟨?_, ?_, ?_, ?_, ?_, ?_, ?_, ?_⟩, ?_⟩
    · rw [qnow, hpnow]
    · rw [qiter, hpiter]
    · rw [qep, hpep]
    · rw [qN, hpN]
    · exact le_trans hpcnt qcnt
    · intro j hj
      apply qsome
      by_cases hjc : j = q.1
      · subst hjc
        obtain ⟨ci2, hci2, h2⟩ := hpc
        rw [hci2]
        rfl
      · rw [hpother j hjc]
        exact hj
    · intro i g hg
      obtain ⟨g2, hg2, ha2, he2, hl2, hc2⟩ := hpgrp i g hg
      obtain ⟨g3, hg3, ha3, he3, hl3, hc3⟩ := qgrp i g2 hg2
      refine ⟨g3, hg3, by rw [ha3, ha2], by rw [he3, he2], by rw [hl3, hl2], ?_⟩
      intro hz x hx
      have hz2 : zeroG g2 := by
        show g2.expected_arrival_time = 0 ∧ g2.latest_arrival_time = 0
        rw [he2, hl2]
        exact hz
      have hx2 := hc3 hz2 x hx
      rcases hc2 x hx2 with h1 | h1
      · exact h1
      · exact absurd hz h1.2
    · intro p hp
      rcases qpnew p hp with h1 | h1
      · rcases hppnew p h1 with h2 | h2
        · exact Or.inl h2
        · exact Or.inr h2
      · exact Or.inr (le_trans hpcnt h1)
    · intro x hx
      rw [List.map_cons] at hx
      rcases List.mem_cons.mp hx with h1 | h1
      · subst h1
        apply qsome
        obtain ⟨ci2, hci2, h2⟩ := hpc
        rw [hci2]
        rfl
      · exact ihSome x h1

theorem sendFold_cons (q : Nat × ℚ) (L : List (Nat × ℚ)) (s : Sched) :
    sendFold (q :: L) s = sendFold L (sendModel s q.1) := rfl

/-- The final `_send_model` fold preserves the invariant (every recipient
has a client record). -/
theorem sendFold_master (gidW : Nat) : ∀ (L : List (Nat × ℚ)) (s : Sched),
    InvW s gidW [] [] →
    (∀ x ∈ L.map Prod.fst, (s.client_info x).isSome) →
    InvW (sendFold L s) gidW [] [] ∧
    (sendFold L s).group_counter = s.group_counter
  | [], s, hw, hA => ⟨hw, rfl⟩
  | q :: L, s, hw, hA => by
    rw [sendFold_cons]
    obtain ⟨ci, hci⟩ : ∃ ci, s.client_info q.1 = some ci := by
      have hs := hA q.1 (by rw [List.map_cons]; exact List.mem_cons_self _ _)
      cases h : s.client_info q.1 with
      | none =>
        rw [h] at hs
        cases hs
      | some ci => exact ⟨ci, rfl⟩
    have hA2 : ∀ x ∈ L.map Prod.fst,
        ((sendModel s q.1).client_info x).isSome := by
      intro x hx
      show (if x = q.1 then some _ else s.client_info x).isSome
      by_cases hxq : x = q.1
      · rw [if_pos hxq]
        rfl
      · rw [if_neg hxq]
        exact hA x (by rw [List.map_cons]; exact List.mem_cons_of_mem _ hx)
    obtain ⟨ih1, ih2⟩ := sendFold_master gidW L (sendModel s q.1)
      (InvW_sendModel s gidW [] q.1 ci hw hci) hA2
    exact ⟨ih1, ih2⟩

theorem serverUpdateGroup_fields (s : Sched) (gid : Nat) :
    (serverUpdateGroup s gid).client_info = s.client_info ∧
    (serverUpdateGroup s gid).group_of_arrival = s.group_of_arrival ∧
    (serverUpdateGroup s gid).pend = s.pend ∧
    (serverUpdateGroup s gid).now = s.now ∧
    (serverUpdateGroup s gid).group_counter = s.group_counter ∧
    (serverUpdateGroup s gid).iter = s.iter ∧
    (serverUpdateGroup s gid).num_global_epochs = s.num_global_epochs ∧
    (serverUpdateGroup s gid).num_clients = s.num_clients := by
  unfold serverUpdateGroup
  split_ifs <;> exact ⟨rfl, rfl, rfl, rfl, rfl, rfl, rfl, rfl⟩

/-- `_group_aggregation` on a live group restores the full invariant, given
that the group's arrived clients are still owned by it and that either its
deadline actor has already fired or its `clients` list is empty. -/
theorem groupAggregation_master (s : Sched) (gid : Nat) (g : GOA)
    (hg : mlookup s.group_of_arrival gid = some g)
    (hw : InvW s gid g.arrived_clients [])
    (hown : ∀ x ∈ g.arrived_clients, ∀ ci, s.client_info x = some ci →
      ci.goa = (gid : Int))
    (hok : gid ∉ pendIds s ∨ g.clients = []) :
    Inv (groupAggregation s gid) := by
  have hglt : gid < s.group_counter := hw.keysLt _ (mem_of_mlookup hg)
  rw [groupAggregation_eq s gid g hg]
  dsimp only
  set s1A := serverUpdateGroup s gid with hs1A
  set s2A := stampFold g.arrived_clients s1A with hs2A
  set pairsA := g.arrived_clients.map (fun c => (c, (ciGetD s2A c).speed))
    with hpairsA
  set sortedA := sortBySpeed pairsA with hsortedA
  obtain ⟨hf1i, hf1m, hf1p, hf1n, hf1c, hf1it, hf1e, hf1N⟩ :=
    serverUpdateGroup_fields s gid
  have hw1 : InvW s1A gid g.arrived_clients [] :=
    InvW_serverUpdateGroup s gid gid _ [] hw
  have hA1 : ∀ x ∈ g.arrived_clients, (s1A.client_info x).isSome := by
    intro x hx
    rw [hs1A, hf1i]
    exact (hw.arMem gid g hg x hx).2
  obtain ⟨hw2, hrel2, hsome2, hmap2, hpend2, hnow2, hcnt2, hiter2, hep2, hN2⟩ :=
    stamp_master gid g.arrived_clients s1A g.arrived_clients hw1 hA1
  have hmap2s : s2A.group_of_arrival = s.group_of_arrival := by
    rw [hs2A, hmap2, hs1A, hf1m]
  have hpend2s : s2A.pend = s.pend := by
    rw [hs2A, hpend2, hs1A, hf1p]
  have hcnt2s : s2A.group_counter = s.group_counter := by
    rw [hs2A, hcnt2, hs1A, hf1c]
  have hN2s : s2A.num_clients = s.num_clients := by
    rw [hs2A, hN2, hs1A, hf1N]
  have hg2 : mlookup s2A.group_of_arrival gid = some g := by
    rw [hmap2s]
    exact hg
  set gz : GOA := { g with expected_arrival_time := 0, latest_arrival_time := 0 } with hgz
  set s3A : Sched := { s2A with group_of_arrival := mmodify s2A.group_of_arrival gid (fun h => { h with expected_arrival_time := 0, latest_arrival_time := 0 }) } with hs3A
  have hw3 : InvW s3A gid g.arrived_clients [] := InvW_zero_gid s2A gid _ hw2
  have hg3 : mlookup s3A.group_of_arrival gid = some gz := by
    show mlookup (mmodify s2A.group_of_arrival gid _) gid = some gz
    rw [mlookup_mmodify, if_pos rfl, hg2]
    rfl
  have hpairsfst : pairsA.map Prod.fst = g.arrived_clients := by
    rw [hpairsA, List.map_map]
    have hid : (Prod.fst ∘ fun c : Nat => (c, (ciGetD s2A c).speed)) = id := rfl
    rw [hid, List.map_id]
  have hperm : (sortedA.map Prod.fst).Perm g.arrived_clients := by
    rw [← hpairsfst]
    exact (sortBySpeed_perm pairsA).map Prod.fst
  have hndar : g.arrived_clients.Nodup := hw.arND gid g hg
  have hwL : InvW s3A gid (sortedA.map Prod.fst) [] :=
    InvW_R_mono s3A gid g.arrived_clients _ [] hw3
      (fun x hx => hperm.mem_iff.mpr hx)
  have hndL : (sortedA.map Prod.fst).Nodup := hperm.nodup_iff.mpr hndar
  have hltL : gid < s3A.group_counter := by
    show gid < s2A.group_counter
    rw [hcnt2s]
    exact hglt
  have hNL : ∀ x ∈ sortedA.map Prod.fst, x < s3A.num_clients := by
    intro x hx
    show x < s2A.num_clients
    rw [hN2s]
    exact (hw.arMem gid g hg x (hperm.subset hx)).1
  have hinfoL : ∀ x ∈ sortedA.map Prod.fst, ∃ ci,
      s3A.client_info x = some ci ∧ 0 ≤ ci.speed ∧ ci.goa = (gid : Int) := by
    intro x hx
    have hxar : x ∈ g.arrived_clients := hperm.subset hx
    have hx1 : (s1A.client_info x).isSome := hA1 x hxar
    have hx2 : (s2A.client_info x).isSome := hsome2 x hx1
    obtain ⟨ci2, hci2⟩ : ∃ ci2, s2A.client_info x = some ci2 := by
      cases h : s2A.client_info x with
      | none =>
        rw [h] at hx2
        cases hx2
      | some ci2 => exact ⟨ci2, rfl⟩
    obtain ⟨ci1, hci1, hgoa12, hspd12⟩ := hrel2 x ci2 hci2
    have hci1s : s.client_info x = some ci1 := by
      rw [hs1A, hf1i] at hci1
      exact hci1
    refine ⟨ci2, hci2, ?_, ?_⟩
    · rw [hspd12]
      exact (hw.ciOk x (by simp) ci1 hci1s).1
    · rw [hgoa12]
      exact hown x hxar ci1 hci1s
  have hAgL : ∀ g2, mlookup s3A.group_of_arrival gid = some g2 → zeroG g2 ∧
      ∀ x ∈ sortedA.map Prod.fst, x ∈ g2.arrived_clients := by
    intro g2 hg2'
    rw [hg3] at hg2'
    injection hg2' with e
    subst e
    refine ⟨⟨rfl, rfl⟩, ?_⟩
    intro x hx
    show x ∈ g.arrived_clients
    exact hperm.subset hx
  obtain ⟨hw4, post4, some4⟩ :=
    assignFold_master gid sortedA s3A hwL hndL hltL hNL hinfoL hAgL
  obtain ⟨qnow, qiter, qep, qN, qcnt, qsome, qgrp, qpnew⟩ := post4
  set s4A := assignFold sortedA s3A with hs4A
  obtain ⟨g4, hg4, ha4, he4, hl4, hc4⟩ := qgrp gid gz hg3
  have hzgz : zeroG gz := ⟨rfl, rfl⟩
  have ha4' : g4.arrived_clients = g.arrived_clients := ha4
  have hz4 : zeroG g4 := ⟨by rw [he4], by rw [hl4]⟩
  have hpend3s : s3A.pend = s.pend := hpend2s
  have hpend4 : gid ∉ pendIds s → ∀ p ∈ s4A.pend, p.1 = gid → False := by
    intro hnp p hp hpg
    rcases qpnew p hp with h1 | h1
    · rw [hpend3s] at h1
      exact hnp (by rw [← hpg]; exact List.mem_map_of_mem Prod.fst h1)
    · have h2 : gid < s3A.group_counter := hltL
      omega
  set s5A := eraseStep s4A gid with hs5A
  have hs5eq : s5A = if g4.clients = [] then { s4A with group_of_arrival := merase s4A.group_of_arrival gid } else s4A := by
    rw [hs5A]
    unfold eraseStep
    rw [hg4]
  have hInv5 : Inv s5A ∧ s5A.client_info = s4A.client_info ∧
      s5A.group_counter = s4A.group_counter := by
    by_cases hc40 : g4.clients = []
    · rw [hs5eq, if_pos hc40]
      set s5e : Sched := { s4A with group_of_arrival := merase s4A.group_of_arrival gid } with hs5e
      have hm5 : ∀ j, mlookup s5e.group_of_arrival j =
          if j = gid then none else mlookup s4A.group_of_arrival j :=
        fun j => mlookup_merase s4A.group_of_arrival gid j
      refine ⟨?_, rfl, rfl⟩
      have hw5 : InvW s5e gid [] [] := InvW_erase_self s4A gid g4 hw4 hg4 hc40
      apply InvW_to_Inv _ gid hw5
      · intro p hp hpg g6 hg6
        rw [hm5, if_pos hpg] at hg6
        cases hg6
      · intro g6 hg6
        rw [hm5, if_pos rfl] at hg6
        cases hg6
      · intro g6 hg6
        rw [hm5, if_pos rfl] at hg6
        cases hg6
      · intro g6 hg6
        rw [hm5, if_pos rfl] at hg6
        cases hg6
    · rw [hs5eq, if_neg hc40]
      refine ⟨?_, rfl, rfl⟩
      have hnp : gid ∉ pendIds s := by
        rcases hok with h | h
        · exact h
        · exfalso
          apply hc40
          rw [List.eq_nil_iff_forall_not_mem]
          intro x hx
          have h2 : x ∈ gz.clients := hc4 hzgz x hx
          have h3 : gz.clients = g.clients := rfl
          rw [h3, h] at h2
          cases h2
      apply InvW_to_Inv _ gid hw4
      · intro p hp hpg g6 hg6
        exact absurd (hpend4 hnp p hp hpg) (by simp)
      · intro g6 hg6
        rw [hg4] at hg6
        injection hg6 with e
        subst e
        intro hnp2
        exact hz4
      · intro g6 hg6 hpre
        rw [hg4] at hg6
        injection hg6 with e
        subst e
        rcases hpre with hnz | hpd
        · exact absurd hz4 hnz
        · exfalso
          obtain ⟨p, hp, hpg⟩ := List.mem_map.mp hpd
          exact hpend4 hnp p hp hpg
      · intro g6 hg6 hz6 hnp2 x hx ci hci heq
        rw [hg4] at hg6
        injection hg6 with e
        subst e
        exact absurd (hw4.arG g4 hg4 x hx ci hci heq) (by simp)
  obtain ⟨hInv5', hci54, hcnt54⟩ := hInv5
  by_cases hit : s5A.iter < s5A.num_global_epochs
  · rw [if_pos hit]
    have hsomeL : ∀ x ∈ sortedA.map Prod.fst, (s5A.client_info x).isSome := by
      intro x hx
      rw [hci54]
      exact some4 x hx
    obtain ⟨hfin, hfcnt⟩ :=
      sendFold_master s5A.group_counter sortedA s5A hInv5' hsomeL
    show Inv (sendFold sortedA s5A)
    unfold Inv
    rw [hfcnt]
    exact hfin
  · rw [if_neg hit]
    exact InvW_serverUpdateAll s5A s5A.group_counter [] [] hInv5'

theorem keys_nodup_inj {α : Type} {l : List (Nat × α)}
    (h : (l.map Prod.fst).Nodup) {p q : Nat × α} (hp : p ∈ l) (hq : q ∈ l)
    (he : p.1 = q.1) : p = q := by
  induction l with
  | nil => cases hp
  | cons a rest ih =>
    rw [List.map_cons, List.nodup_cons] at h
    rcases List.mem_cons.mp hp with h1 | h1
    · rcases List.mem_cons.mp hq with h2 | h2
      · rw [h1, h2]
      · exfalso
        apply h.1
        rw [← h1, he]
        exact List.mem_map_of_mem Prod.fst h2
    · rcases List.mem_cons.mp hq with h2 | h2
      · exfalso
        apply h.1
        rw [← h2, ← he]
        exact List.mem_map_of_mem Prod.fst h1
      · exact ih h.2 h1 h2
  
/-- Installing a record for a client that had none preserves the weakened
invariant with that client excepted. -/
theorem InvW_setCI_fresh (s : Sched) (gidW : Nat) (R : List Nat) (c : Nat)
    (ci2 : ClientInfo) (hw : InvW s gidW R [])
    (hnone : s.client_info c = none) :
    InvW (setCI s c ci2) gidW R [c] := by
  have hinfo : ∀ j, (setCI s c ci2).client_info j =
      if j = c then some ci2 else s.client_info j := fun j => rfl
  have hcar : ∀ i g, mlookup s.group_of_arrival i = some g →
      c ∉ g.arrived_clients := by
    intro i g hg hmem
    have h2 := (hw.arMem i g hg c hmem).2
    rw [hnone] at h2
    cases h2
  refine ⟨hw.nowNN, hw.oneM, hw.oneMin, hw.keysLt, hw.keysND, hw.pendLt,
    hw.pendND, hw.pendSched, hw.liveZero, hw.clND, hw.arND, hw.clArDisj,
    hw.clPair, ?_, ?_, ?_, ?_, ?_, ?_⟩
  · intro i g hg x hx
    obtain ⟨hxN, ci3, hci3, hgoa3⟩ := hw.clOwn i g hg x hx
    have hxc : x ≠ c := by
      intro he
      rw [he, hnone] at hci3
      cases hci3
    refine ⟨hxN, ci3, ?_, hgoa3⟩
    rw [hinfo, if_neg hxc]
    exact hci3
  · intro i g hg x hx
    obtain ⟨hxN, hsome⟩ := hw.arMem i g hg x hx
    refine ⟨hxN, ?_⟩
    rw [hinfo]
    by_cases hxc : x = c
    · simp [hxc]
    · rw [if_neg hxc]
      exact hsome
  · intro i g hg hig hpre x hx ci3 hci3
    rw [hinfo] at hci3
    by_cases hxc : x = c
    · subst hxc
      exact absurd hx (hcar i g hg)
    · rw [if_neg hxc] at hci3
      exact hw.arOwn i g hg hig hpre x hx ci3 hci3
  · intro i g hg hig hz hnp x hx ci3 hci3
    rw [hinfo] at hci3
    by_cases hxc : x = c
    · subst hxc
      exact absurd hx (hcar i g hg)
    · rw [if_neg hxc] at hci3
      exact hw.arStale i g hg hig hz hnp x hx ci3 hci3
  · intro g hg x hx ci3 hci3 hgl
    rw [hinfo] at hci3
    by_cases hxc : x = c
    · subst hxc
      exact absurd hx (hcar gidW g hg)
    · rw [if_neg hxc] at hci3
      exact hw.arG g hg x hx ci3 hci3 hgl
  · intro j hj ci3 hci3
    rw [hinfo] at hci3
    rw [List.mem_singleton] at hj
    rw [if_neg hj] at hci3
    exact hw.ciOk j (by simp) ci3 hci3

/-- Moving the invariant's weak spot from the never-live `group_counter` to
a live group. -/
theorem Inv_weaken_at (s : Sched) (gid : Nat) (g : GOA)
    (hg : mlookup s.group_of_arrival gid = some g) (hInv : Inv s) :
    InvW s gid g.arrived_clients [] := by
  have hlive : ∀ i g2, mlookup s.group_of_arrival i = some g2 →
      i ≠ s.group_counter := by
    intro i g2 hg2 he
    have := hInv.keysLt _ (mem_of_mlookup hg2)
    omega
  refine ⟨hInv.nowNN, hInv.oneM, hInv.oneMin, hInv.keysLt, hInv.keysND,
    hInv.pendLt, hInv.pendND, ?_, ?_, hInv.clND, hInv.arND, hInv.clArDisj,
    hInv.clPair, hInv.clOwn, hInv.arMem, ?_, ?_, ?_, hInv.ciOk⟩
  · intro p hp hpg g2 hg2
    have hne : p.1 ≠ s.group_counter := by
      have := hInv.pendLt p hp
      omega
    exact hInv.pendSched p hp hne g2 hg2
  · intro i g2 hg2 hig hnp
    exact hInv.liveZero i g2 hg2 (hlive i g2 hg2) hnp
  · intro i g2 hg2 hig hpre x hx ci hci
    exact hInv.arOwn i g2 hg2 (hlive i g2 hg2) hpre x hx ci hci
  · intro i g2 hg2 hig hz hnp x hx ci hci
    exact hInv.arStale i g2 hg2 (hlive i g2 hg2) hz hnp x hx ci hci
  · intro g2 hg2 x hx ci hci hgl
    rw [hg] at hg2
    injection hg2 with e
    subst e
    exact hx

/-- `_single_update` on a detached client (not in any group's lists)
restores the full invariant. -/
theorem singleUpdate_master (s : Sched) (c : Nat) (b : Bool) (ci : ClientInfo)
    (hw : InvW s s.group_counter [c] [c])
    (hci : s.client_info c = some ci)
    (hsp : 0 ≤ ci.speed)
    (hcN : c < s.num_clients)
    (hcl : ∀ i g, mlookup s.group_of_arrival i = some g → c ∉ g.clients)
    (har : ∀ i g, mlookup s.group_of_arrival i = some g →
      c ∈ g.arrived_clients → zeroG g)
    (hcar : ∀ i g, mlookup s.group_of_arrival i = some g →
      i ≠ s.group_counter → i ∈ pendIds s → c ∉ g.arrived_clients) :
    Inv (singleUpdate s c b) := by
  unfold singleUpdate
  set s1 := if b then serverSingleBuffer s else serverUpdate s with hs1
  have hfld : s1.client_info = s.client_info ∧
      s1.group_of_arrival = s.group_of_arrival ∧ s1.pend = s.pend ∧
      s1.now = s.now ∧ s1.group_counter = s.group_counter ∧
      s1.num_clients = s.num_clients := by
    rw [hs1]
    cases b
    · exact ⟨rfl, rfl, rfl, rfl, rfl, rfl⟩
    · exact ⟨rfl, rfl, rfl, rfl, rfl, rfl⟩
  obtain ⟨hf1, hf2, hf3, hf4, hf5, hf6⟩ := hfld
  have hw1 : InvW s1 s.group_counter [c] [c] := by
    rw [hs1]
    cases b
    · exact InvW_serverUpdate s _ _ _ hw
    · exact InvW_serverSingleBuffer s _ _ _ hw
  have hgd1 : ciGetD s1 c = ci := by
    unfold ciGetD
    rw [hf1, hci]
    rfl
  dsimp only
  rw [hgd1]
  set ciS : ClientInfo := { ci with step := s1.global_step } with hciS
  set s2 := setCI s1 c ciS with hs2
  have hw2 : InvW s2 s.group_counter [c] [c] := by
    rw [hs2]
    apply InvW_setCI_compat s1 _ [c] [c] c ci ciS hw1 (by rw [hf1]; exact hci)
      rfl rfl rfl
    intro hc
    exact absurd (List.mem_singleton_self c) hc
  have hinfo2 : ∀ j, s2.client_info j =
      if j = c then some ciS else s.client_info j := by
    intro j
    show (if j = c then some ciS else s1.client_info j) = _
    rw [hf1]
  have hmap2 : s2.group_of_arrival = s.group_of_arrival := hf2
  have hpend2 : s2.pend = s.pend := hf3
  have hcnt2 : s2.group_counter = s.group_counter := hf5
  have hwX : InvW s2 s2.group_counter (c :: []) [c] := by
    rw [hcnt2]
    exact InvW_R_mono s2 _ [c] _ [c] hw2 (fun x hx => hx)
  have hcl2 : ∀ i g, mlookup s2.group_of_arrival i = some g →
      c ∉ g.clients := by
    rw [hmap2]
    exact hcl
  have har2 : ∀ i g, mlookup s2.group_of_arrival i = some g →
      c ∈ g.arrived_clients → zeroG g := by
    rw [hmap2]
    exact har
  have hgz2 : ∀ g, mlookup s2.group_of_arrival s2.group_counter = some g →
      zeroG g := by
    intro g hg
    rw [hmap2, hcnt2] at hg
    have := hw.keysLt _ (mem_of_mlookup hg)
    omega
  have hcar2 : ∀ i g, mlookup s2.group_of_arrival i = some g →
      i ≠ s2.group_counter → i ∈ pendIds s2 → c ∉ g.arrived_clients := by
    intro i g hg hig hpd
    rw [hmap2] at hg
    rw [hcnt2] at hig
    apply hcar i g hg hig
    show i ∈ s.pend.map Prod.fst
    rw [← hpend2]
    exact hpd
  have hN2' : c < s2.num_clients := by
    have he : s2.num_clients = s.num_clients := hf6
    rw [he]
    exact hcN
  have hnone : mlookup s2.group_of_arrival s2.group_counter = none := by
    cases hh : mlookup s2.group_of_arrival s2.group_counter with
    | none => rfl
    | some gg =>
      have h2 := hw2.keysLt _ (mem_of_mlookup hh)
      omega
  obtain ⟨hw3, hpost⟩ := assign_master s2 s2.group_counter [] c ciS
    hwX hN2' (by rw [hinfo2, if_pos rfl]) hsp hcl2 har2 hgz2 hcar2
  obtain ⟨hpnow, hpN, hpmin, hpmax, hpbound, hpep, hpiter, hpcnt, hpother,
    hpc, hpgrp, hpnew, hppmono, hppnew⟩ := hpost
  have hInv3 : Inv (assignGroup s2 c) := by
    apply InvW_to_Inv _ s2.group_counter hw3
    · intro p hp hpg g6 hg6
      rw [hpg] at hg6
      obtain ⟨hna, hnp, hnval, hnge⟩ := hpnew s2.group_counter g6 hg6 hnone
      exact hnval p hp hpg
    · intro g6 hg6 hnp
      obtain ⟨hna, hnpd, hnval, hnge⟩ := hpnew s2.group_counter g6 hg6 hnone
      exact absurd hnpd hnp
    · intro g6 hg6 hpre x hx ci3 hci3
      obtain ⟨hna, hnpd, hnval, hnge⟩ := hpnew s2.group_counter g6 hg6 hnone
      rw [hna] at hx
      cases hx
    · intro g6 hg6 hz6 hnp x hx ci3 hci3
      obtain ⟨hna, hnpd, hnval, hnge⟩ := hpnew s2.group_counter g6 hg6 hnone
      rw [hna] at hx
      cases hx
  obtain ⟨ci4, hci4, hgoa4, hst4, hls4⟩ := hpc
  by_cases hit : (assignGroup s2 c).iter < (assignGroup s2 c).num_global_epochs
  · rw [if_pos hit]
    exact (InvW_sendModel (assignGroup s2 c) (assignGroup s2 c).group_counter
      [] c ci4 hInv3 hci4 : _)
  · rw [if_neg hit]
    exact InvW_serverUpdateAll (assignGroup s2 c)
      (assignGroup s2 c).group_counter [] [] hInv3

/-- Removing a late client from its group's `clients` list preserves the
invariant with that client excepted. -/
theorem InvW_remove_client (s : Sched) (gid : Nat) (g : GOA) (c : Nat)
    (hInv : Inv s)
    (hg : mlookup s.group_of_arrival gid = some g)
    (hcg : c ∈ g.clients) :
    InvW { s with group_of_arrival := mmodify s.group_of_arrival gid (fun _ => { g with clients := g.clients.filter (fun x => x ≠ c) }) } s.group_counter [] [c] := by
  set g1 : GOA := { g with clients := g.clients.filter (fun x => x ≠ c) } with hg1
  have hmap : ∀ j, mlookup (mmodify s.group_of_arrival gid (fun _ => g1)) j =
      if j = gid then some g1 else mlookup s.group_of_arrival j := by
    intro j
    rw [mlookup_mmodify]
    by_cases hj : j = gid
    · rw [if_pos hj, if_pos hj, hg]
      rfl
    · rw [if_neg hj, if_neg hj]
  have hmemf : ∀ x, x ∈ g1.clients ↔ x ∈ g.clients ∧ x ≠ c := by
    intro x
    show x ∈ g.clients.filter (fun x => x ≠ c) ↔ _
    simp [List.mem_filter]
  refine ⟨hInv.nowNN, hInv.oneM, hInv.oneMin, ?_, ?_, hInv.pendLt,
    hInv.pendND, ?_, ?_, ?_, ?_, ?_, ?_, ?_, ?_, ?_, ?_, ?_, ?_⟩
  · exact keysLt_of_keys_eq hInv.keysLt (mmodify_keys _ _ _)
  · rw [mmodify_keys]
    exact hInv.keysND
  · intro p hp hpg g2 hg2
    rw [hmap] at hg2
    by_cases hj : p.1 = gid
    · rw [if_pos hj] at hg2
      injection hg2 with e
      subst e
      have h2 := hInv.pendSched p hp hpg g (by rw [hj]; exact hg)
      exact h2
    · rw [if_neg hj] at hg2
      exact hInv.pendSched p hp hpg g2 hg2
  · intro i g2 hg2 hig hnp
    rw [hmap] at hg2
    by_cases hj : i = gid
    · rw [if_pos hj] at hg2
      injection hg2 with e
      subst e
      exact hInv.liveZero i g (hj ▸ hg) hig hnp
    · rw [if_neg hj] at hg2
      exact hInv.liveZero i g2 hg2 hig hnp
  · intro i g2 hg2
    rw [hmap] at hg2
    by_cases hj : i = gid
    · rw [if_pos hj] at hg2
      injection hg2 with e
      subst e
      show (g.clients.filter (fun x => x ≠ c)).Nodup
      exact (hInv.clND gid g hg).filter _
    · rw [if_neg hj] at hg2
      exact hInv.clND i g2 hg2
  · intro i g2 hg2
    rw [hmap] at hg2
    by_cases hj : i = gid
    · rw [if_pos hj] at hg2
      injection hg2 with e
      subst e
      exact hInv.arND gid g hg
    · rw [if_neg hj] at hg2
      exact hInv.arND i g2 hg2
  · intro i g2 hg2 x hx
    rw [hmap] at hg2
    by_cases hj : i = gid
    · rw [if_pos hj] at hg2
      injection hg2 with e
      subst e
      exact hInv.clArDisj gid g hg x ((hmemf x).mp hx).1
    · rw [if_neg hj] at hg2
      exact hInv.clArDisj i g2 hg2 x hx
  · intro i j gi gj hgi hgj hij x hxi
    rw [hmap] at hgi hgj
    by_cases hi : i = gid
    · rw [if_pos hi] at hgi
      injection hgi with e
      subst e
      have hjne : ¬ (j = gid) := fun h => hij (hi.trans h.symm)
      rw [if_neg hjne] at hgj
      exact hInv.clPair i j g gj (hi ▸ hg) hgj hij x ((hmemf x).mp hxi).1
    · rw [if_neg hi] at hgi
      by_cases hj : j = gid
      · rw [if_pos hj] at hgj
        injection hgj with e
        subst e
        intro hxj
        exact hInv.clPair i j gi g hgi (hj ▸ hg) hij x hxi ((hmemf x).mp hxj).1
      · rw [if_neg hj] at hgj
        exact hInv.clPair i j gi gj hgi hgj hij x hxi
  · intro i g2 hg2 x hx
    rw [hmap] at hg2
    by_cases hj : i = gid
    · rw [if_pos hj] at hg2
      injection hg2 with e
      subst e
      exact hInv.clOwn i g (hj ▸ hg) x ((hmemf x).mp hx).1
    · rw [if_neg hj] at hg2
      exact hInv.clOwn i g2 hg2 x hx
  · intro i g2 hg2 x hx
    rw [hmap] at hg2
    by_cases hj : i = gid
    · rw [if_pos hj] at hg2
      injection hg2 with e
      subst e
      exact hInv.arMem i g (hj ▸ hg) x hx
    · rw [if_neg hj] at hg2
      exact hInv.arMem i g2 hg2 x hx
  · intro i g2 hg2 hig hpre x hx ci hci
    rw [hmap] at hg2
    by_cases hj : i = gid
    · rw [if_pos hj] at hg2
      injection hg2 with e
      subst e
      exact hInv.arOwn i g (hj ▸ hg) hig hpre x hx ci hci
    · rw [if_neg hj] at hg2
      exact hInv.arOwn i g2 hg2 hig hpre x hx ci hci
  · intro i g2 hg2 hig hz hnp x hx ci hci
    rw [hmap] at hg2
    by_cases hj : i = gid
    · rw [if_pos hj] at hg2
      injection hg2 with e
      subst e
      exact hInv.arStale i g (hj ▸ hg) hig hz hnp x hx ci hci
    · rw [if_neg hj] at hg2
      exact hInv.arStale i g2 hg2 hig hz hnp x hx ci hci
  · intro g2 hg2
    rw [hmap] at hg2
    have hne : ¬ (s.group_counter = gid) := by
      have := hInv.keysLt _ (mem_of_mlookup hg)
      omega
    rw [if_neg hne] at hg2
    intro x hx ci hci hgl
    exact hInv.arG g2 hg2 x hx ci hci hgl
  · intro j hj ci hci
    rw [List.mem_singleton] at hj
    obtain ⟨h0, h1, h2, h3, g4, hg4, hmem⟩ := hInv.ciOk j (by simp) ci hci
    refine ⟨h0, h1, h2, h3, ?_⟩
    by_cases hj4 : ci.goa.toNat = gid
    · refine ⟨g1, by rw [hmap, if_pos hj4], ?_⟩
      rw [hj4, hg] at hg4
      injection hg4 with e
      subst e
      rcases hmem with h | h
      · exact Or.inl ((hmemf j).mpr ⟨h, hj⟩)
      · exact Or.inr h
    · exact ⟨g4, by rw [hmap, if_neg hj4]; exact hg4, hmem⟩

/-- Erasing a zeroed, no-longer-pending group whose last client `c` has
just been removed preserves the invariant with `c` excepted (the group's
arrived clients are stale). -/
theorem InvW_erase_stale (s : Sched) (gid : Nat) (g : GOA) (c : Nat)
    (hInv : Inv s)
    (hg : mlookup s.group_of_arrival gid = some g)
    (hcl1 : ∀ x ∈ g.clients, x = c)
    (hstale : ∀ x ∈ g.arrived_clients, ∀ ci2, s.client_info x = some ci2 →
      ci2.goa ≠ (gid : Int)) :
    InvW { s with group_of_arrival := merase s.group_of_arrival gid }
      s.group_counter [] [c] := by
  have hmap : ∀ j, mlookup (merase s.group_of_arrival gid) j =
      if j = gid then none else mlookup s.group_of_arrival j :=
    fun j => mlookup_merase _ _ _
  refine ⟨hInv.nowNN, hInv.oneM, hInv.oneMin, ?_, ?_, hInv.pendLt,
    hInv.pendND, ?_, ?_, ?_, ?_, ?_, ?_, ?_, ?_, ?_, ?_, ?_, ?_⟩
  · intro p hp
    exact hInv.keysLt p ((merase_sublist _ _).subset hp)
  · exact hInv.keysND.sublist ((merase_sublist _ _).map Prod.fst)
  · intro p hp hpg g2 hg2
    rw [hmap] at hg2
    by_cases hj : p.1 = gid
    · rw [if_pos hj] at hg2
      cases hg2
    · rw [if_neg hj] at hg2
      exact hInv.pendSched p hp hpg g2 hg2
  · intro i g2 hg2 hig hnp
    rw [hmap] at hg2
    by_cases hj : i = gid
    · rw [if_pos hj] at hg2
      cases hg2
    · rw [if_neg hj] at hg2
      exact hInv.liveZero i g2 hg2 hig hnp
  · intro i g2 hg2
    rw [hmap] at hg2
    by_cases hj : i = gid
    · rw [if_pos hj] at hg2
      cases hg2
    · rw [if_neg hj] at hg2
      exact hInv.clND i g2 hg2
  · intro i g2 hg2
    rw [hmap] at hg2
    by_cases hj : i = gid
    · rw [if_pos hj] at hg2
      cases hg2
    · rw [if_neg hj] at hg2
      exact hInv.arND i g2 hg2
  · intro i g2 hg2
    rw [hmap] at hg2
    by_cases hj : i = gid
    · rw [if_pos hj] at hg2
      cases hg2
    · rw [if_neg hj] at hg2
      exact hInv.clArDisj i g2 hg2
  · intro i j gi gj hgi hgj hij
    rw [hmap] at hgi hgj
    by_cases hi : i = gid
    · rw [if_pos hi] at hgi
      cases hgi
    · rw [if_neg hi] at hgi
      by_cases hj : j = gid
      · rw [if_pos hj] at hgj
        cases hgj
      · rw [if_neg hj] at hgj
        exact hInv.clPair i j gi gj hgi hgj hij
  · intro i g2 hg2
    rw [hmap] at hg2
    by_cases hj : i = gid
    · rw [if_pos hj] at hg2
      cases hg2
    · rw [if_neg hj] at hg2
      exact hInv.clOwn i g2 hg2
  · intro i g2 hg2
    rw [hmap] at hg2
    by_cases hj : i = gid
    · rw [if_pos hj] at hg2
      cases hg2
    · rw [if_neg hj] at hg2
      exact hInv.arMem i g2 hg2
  · intro i g2 hg2 hig hpre
    rw [hmap] at hg2
    by_cases hj : i = gid
    · rw [if_pos hj] at hg2
      cases hg2
    · rw [if_neg hj] at hg2
      exact hInv.arOwn i g2 hg2 hig hpre
  · intro i g2 hg2 hig hz hnp
    rw [hmap] at hg2
    by_cases hj : i = gid
    · rw [if_pos hj] at hg2
      cases hg2
    · rw [if_neg hj] at hg2
      exact hInv.arStale i g2 hg2 hig hz hnp
  · intro g2 hg2
    rw [hmap] at hg2
    by_cases hj : s.group_counter = gid
    · rw [if_pos hj] at hg2
      cases hg2
    · rw [if_neg hj] at hg2
      intro x hx ci hci hgl
      exact hInv.arG g2 hg2 x hx ci hci hgl
  · intro j hj ci hci
    rw [List.mem_singleton] at hj
    obtain ⟨h0, h1, h2, h3, g4, hg4, hmem⟩ := hInv.ciOk j (by simp) ci hci
    refine ⟨h0, h1, h2, h3, ?_⟩
    by_cases hj4 : ci.goa.toNat = gid
    · exfalso
      rw [hj4, hg] at hg4
      injection hg4 with e
      subst e
      have hge : ci.goa = (gid : Int) := by
        rw [← Int.toNat_of_nonneg h3, hj4]
      rcases hmem with h | h
      · exact hj (hcl1 j h)
      · exact hstale j h ci hci hge
    · exact ⟨g4, by rw [hmap, if_neg hj4]; exact hg4, hmem⟩

/-- Moving a timely client from `clients` to `arrived_clients` of its live,
not-yet-zeroed (or still pending) group preserves the full invariant. -/
theorem Inv_move_arrived (s : Sched) (gid : Nat) (g : GOA) (c : Nat)
    (ci : ClientInfo)
    (hInv : Inv s)
    (hg : mlookup s.group_of_arrival gid = some g)
    (hcg : c ∈ g.clients)
    (hci : s.client_info c = some ci)
    (hgoa : ci.goa = (gid : Int))
    (hpre : ¬ zeroG g ∨ gid ∈ pendIds s) :
    Inv { s with group_of_arrival := mmodify s.group_of_arrival gid (fun h => { h with clients := h.clients.filter (fun x => x ≠ c), arrived_clients := h.arrived_clients ++ [c] }) } := by
  have hcN : c < s.num_clients := (hInv.clOwn gid g hg c hcg).1
  have hcar0 : c ∉ g.arrived_clients := hInv.clArDisj gid g hg c hcg
  have hgne : gid ≠ s.group_counter := by
    have := hInv.keysLt _ (mem_of_mlookup hg)
    omega
  set gm : GOA := { g with clients := g.clients.filter (fun x => x ≠ c), arrived_clients := g.arrived_clients ++ [c] } with hgm
  have hmap : ∀ j, mlookup (mmodify s.group_of_arrival gid (fun h => { h with clients := h.clients.filter (fun x => x ≠ c), arrived_clients := h.arrived_clients ++ [c] })) j =
      if j = gid then some gm else mlookup s.group_of_arrival j := by
    intro j
    rw [mlookup_mmodify]
    by_cases hj : j = gid
    · rw [if_pos hj, if_pos hj, hg]
      rfl
    · rw [if_neg hj, if_neg hj]
  have hmemf : ∀ x, x ∈ gm.clients ↔ x ∈ g.clients ∧ x ≠ c := by
    intro x
    show x ∈ g.clients.filter (fun x => x ≠ c) ↔ _
    simp [List.mem_filter]
  have hmema : ∀ x, x ∈ gm.arrived_clients ↔ x ∈ g.arrived_clients ∨ x = c := by
    intro x
    show x ∈ g.arrived_clients ++ [c] ↔ _
    rw [List.mem_append, List.mem_singleton]
  have hzm : zeroG gm ↔ zeroG g := Iff.rfl
  refine ⟨hInv.nowNN, hInv.oneM, hInv.oneMin, ?_, ?_, hInv.pendLt,
    hInv.pendND, ?_, ?_, ?_, ?_, ?_, ?_, ?_, ?_, ?_, ?_, ?_, ?_⟩
  · exact keysLt_of_keys_eq hInv.keysLt (mmodify_keys _ _ _)
  · rw [mmodify_keys]
    exact hInv.keysND
  · intro p hp hpg g2 hg2
    rw [hmap] at hg2
    by_cases hj : p.1 = gid
    · rw [if_pos hj] at hg2
      injection hg2 with e
      subst e
      exact hInv.pendSched p hp hpg g (by rw [hj]; exact hg)
    · rw [if_neg hj] at hg2
      exact hInv.pendSched p hp hpg g2 hg2
  · intro i g2 hg2 hig hnp
    rw [hmap] at hg2
    by_cases hj : i = gid
    · rw [if_pos hj] at hg2
      injection hg2 with e
      subst e
      subst hj
      exfalso
      rcases hpre with hnz | hpd
      · refine hnz (hInv.liveZero i g hg hig ?_)
        intro hmem
        exact hnp hmem
      · exact hnp hpd
    · rw [if_neg hj] at hg2
      exact hInv.liveZero i g2 hg2 hig hnp
  · intro i g2 hg2
    rw [hmap] at hg2
    by_cases hj : i = gid
    · rw [if_pos hj] at hg2
      injection hg2 with e
      subst e
      show (g.clients.filter (fun x => x ≠ c)).Nodup
      exact (hInv.clND gid g hg).filter _
    · rw [if_neg hj] at hg2
      exact hInv.clND i g2 hg2
  · intro i g2 hg2
    rw [hmap] at hg2
    by_cases hj : i = gid
    · rw [if_pos hj] at hg2
      injection hg2 with e
      subst e
      show (g.arrived_clients ++ [c]).Nodup
      rw [List.nodup_append]
      refine ⟨hInv.arND gid g hg, List.nodup_singleton _, ?_⟩
      intro x hx hx2
      rw [List.mem_singleton] at hx2
      subst hx2
      exact hcar0 hx
    · rw [if_neg hj] at hg2
      exact hInv.arND i g2 hg2
  · intro i g2 hg2 x hx
    rw [hmap] at hg2
    by_cases hj : i = gid
    · rw [if_pos hj] at hg2
      injection hg2 with e
      subst e
      obtain ⟨hx1, hx2⟩ := (hmemf x).mp hx
      intro hmem
      rcases (hmema x).mp hmem with h | h
      · exact hInv.clArDisj gid g hg x hx1 h
      · exact hx2 h
    · rw [if_neg hj] at hg2
      exact hInv.clArDisj i g2 hg2 x hx
  · intro i j gi gj hgi hgj hij x hxi
    rw [hmap] at hgi hgj
    by_cases hi : i = gid
    · rw [if_pos hi] at hgi
      injection hgi with e
      subst e
      have hjne : ¬ (j = gid) := fun h => hij (hi.trans h.symm)
      rw [if_neg hjne] at hgj
      exact hInv.clPair i j g gj (hi ▸ hg) hgj hij x ((hmemf x).mp hxi).1
    · rw [if_neg hi] at hgi
      by_cases hj : j = gid
      · rw [if_pos hj] at hgj
        injection hgj with e
        subst e
        intro hxj
        exact hInv.clPair i j gi g hgi (hj ▸ hg) hij x hxi ((hmemf x).mp hxj).1
      · rw [if_neg hj] at hgj
        exact hInv.clPair i j gi gj hgi hgj hij x hxi
  · intro i g2 hg2 x hx
    rw [hmap] at hg2
    by_cases hj : i = gid
    · rw [if_pos hj] at hg2
      injection hg2 with e
      subst e
      exact hInv.clOwn i g (hj ▸ hg) x ((hmemf x).mp hx).1
    · rw [if_neg hj] at hg2
      exact hInv.clOwn i g2 hg2 x hx
  · intro i g2 hg2 x hx
    rw [hmap] at hg2
    by_cases hj : i = gid
    · rw [if_pos hj] at hg2
      injection hg2 with e
      subst e
      rcases (hmema x).mp hx with h | h
      · exact hInv.arMem i g (hj ▸ hg) x h
      · subst h
        refine ⟨hcN, ?_⟩
        rw [hci]
        rfl
    · rw [if_neg hj] at hg2
      exact hInv.arMem i g2 hg2 x hx
  · intro i g2 hg2 hig hpre2 x hx ci2 hci2
    rw [hmap] at hg2
    by_cases hj : i = gid
    · rw [if_pos hj] at hg2
      injection hg2 with e
      subst e
      rcases (hmema x).mp hx with h | h
      · refine hInv.arOwn i g (hj ▸ hg) hig ?_ x h ci2 hci2
        subst hj
        exact hpre
      · subst h
        rw [hci] at hci2
        injection hci2 with e2
        subst e2
        rw [hj]
        exact hgoa
    · rw [if_neg hj] at hg2
      exact hInv.arOwn i g2 hg2 hig hpre2 x hx ci2 hci2
  · intro i g2 hg2 hig hz hnp x hx ci2 hci2
    rw [hmap] at hg2
    by_cases hj : i = gid
    · rw [if_pos hj] at hg2
      injection hg2 with e
      subst e
      exfalso
      subst hj
      rcases hpre with hnz | hpd
      · exact hnz hz
      · exact hnp hpd
    · rw [if_neg hj] at hg2
      exact hInv.arStale i g2 hg2 hig hz hnp x hx ci2 hci2
  · intro g2 hg2
    rw [hmap] at hg2
    have hne : ¬ (s.group_counter = gid) := fun h => hgne h.symm
    rw [if_neg hne] at hg2
    intro x hx ci2 hci2 hgl
    exact hInv.arG g2 hg2 x hx ci2 hci2 hgl
  · intro j hj ci2 hci2
    obtain ⟨h0, h1, h2, h3, g4, hg4, hmem⟩ := hInv.ciOk j (by simp) ci2 hci2
    refine ⟨h0, h1, h2, h3, ?_⟩
    by_cases hj4 : ci2.goa.toNat = gid
    · refine ⟨gm, by rw [hmap, if_pos hj4], ?_⟩
      rw [hj4, hg] at hg4
      injection hg4 with e
      subst e
      by_cases hjc : j = c
      · subst hjc
        exact Or.inr ((hmema j).mpr (Or.inr rfl))
      · rcases hmem with h | h
        · exact Or.inl ((hmemf j).mpr ⟨h, hjc⟩)
        · exact Or.inr ((hmema j).mpr (Or.inl h))
    · exact ⟨g4, by rw [hmap, if_neg hj4]; exact hg4, hmem⟩

theorem groupUpdate_late_eq (s : Sched) (c : Nat) (gid : Nat) (g : GOA)
    (hg : mlookup s.group_of_arrival gid = some g)
    (hlate : g.latest_arrival_time ≤ s.now) :
    groupUpdate s c gid =
      singleUpdate (if g.clients.filter (fun x => x ≠ c) = [] then { s with group_of_arrival := merase s.group_of_arrival gid } else { s with group_of_arrival := mmodify s.group_of_arrival gid (fun _ => { g with clients := g.clients.filter (fun x => x ≠ c) }) }) c true := by
  unfold groupUpdate
  rw [hg]
  dsimp only
  rw [if_pos hlate]

theorem groupUpdate_timely_eq (s : Sched) (c : Nat) (gid : Nat) (g : GOA)
    (hg : mlookup s.group_of_arrival gid = some g)
    (hlate : ¬ (g.latest_arrival_time ≤ s.now)) :
    groupUpdate s c gid =
      (let s1 : Sched := { s with group_of_arrival := mmodify s.group_of_arrival gid (fun h => { h with clients := h.clients.filter (fun x => x ≠ c), arrived_clients := h.arrived_clients ++ [c] }) }
       let s2 := serverBuffer s1 gid
       match mlookup s2.group_of_arrival gid with
       | some h => if h.clients = [] then groupAggregation s2 gid else s2
       | none => s2) := by
  unfold groupUpdate
  rw [hg]
  dsimp only
  rw [if_neg hlate]

/-- `_group_update` on a returning client of a live group restores the full
invariant (the deadline-first gate supplies `now < p.2` for every pending
live deadline). -/
theorem groupUpdate_master (s : Sched) (c : Nat) (gid : Nat) (ci : ClientInfo)
    (g : GOA)
    (hInv : Inv s)
    (hci : s.client_info c = some ci)
    (hgoa : ci.goa = (gid : Int))
    (hg : mlookup s.group_of_arrival gid = some g)
    (hcg : c ∈ g.clients)
    (hgate : ∀ p ∈ s.pend, ∀ g2, mlookup s.group_of_arrival p.1 = some g2 →
      s.now < p.2) :
    Inv (groupUpdate s c gid) := by
  have hglt : gid < s.group_counter := hInv.keysLt _ (mem_of_mlookup hg)
  have hgne : gid ≠ s.group_counter := by omega
  have hcN : c < s.num_clients := (hInv.clOwn gid g hg c hcg).1
  have hsp : 0 ≤ ci.speed := (hInv.ciOk c (by simp) ci hci).1
  have hcar0 : c ∉ g.arrived_clients := hInv.clArDisj gid g hg c hcg
  have harothers : ∀ i g2, mlookup s.group_of_arrival i = some g2 → i ≠ gid →
      c ∈ g2.arrived_clients → zeroG g2 := by
    intro i g2 hg2 hig hmem
    by_cases hz : zeroG g2
    · exact hz
    · have hig2 : i ≠ s.group_counter := by
        have := hInv.keysLt _ (mem_of_mlookup hg2)
        omega
      have h1 := hInv.arOwn i g2 hg2 hig2 (Or.inl hz) c hmem ci hci
      rw [hgoa] at h1
      have h2 : gid = i := by exact_mod_cast h1
      exact absurd h2.symm hig
  have hcarothers : ∀ i g2, mlookup s.group_of_arrival i = some g2 →
      i ≠ gid → i ∈ pendIds s → c ∉ g2.arrived_clients := by
    intro i g2 hg2 hig hpd hmem
    have hig2 : i ≠ s.group_counter := by
      have := hInv.keysLt _ (mem_of_mlookup hg2)
      omega
    have h1 := hInv.arOwn i g2 hg2 hig2 (Or.inr hpd) c hmem ci hci
    rw [hgoa] at h1
    have h2 : gid = i := by exact_mod_cast h1
    exact absurd h2.symm hig
  by_cases hlate : g.latest_arrival_time ≤ s.now
  · rw [groupUpdate_late_eq s c gid g hg hlate]
    have hnp : gid ∉ pendIds s := by
      intro hpd
      obtain ⟨p, hp, hpfst⟩ := List.mem_map.mp hpd
      have hne : p.1 ≠ s.group_counter := by
        have := hInv.pendLt p hp
        omega
      have hlat := hInv.pendSched p hp hne g (by rw [hpfst]; exact hg)
      have hlt := hgate p hp g (by rw [hpfst]; exact hg)
      rw [hlat] at hlt
      linarith
    have hz : zeroG g := hInv.liveZero gid g hg hgne hnp
    have hstale : ∀ x ∈ g.arrived_clients, ∀ ci2, s.client_info x = some ci2 →
        ci2.goa ≠ (gid : Int) :=
      fun x hx ci2 hci2 => hInv.arStale gid g hg hgne hz hnp x hx ci2 hci2
    by_cases hfe : g.clients.filter (fun x => x ≠ c) = []
    · rw [if_pos hfe]
      have hcl1 : ∀ x ∈ g.clients, x = c := by
        intro x hx
        by_contra hxc
        have h1 : x ∈ g.clients.filter (fun x => x ≠ c) :=
          List.mem_filter.mpr ⟨hx, by simp [hxc]⟩
        rw [hfe] at h1
        cases h1
      have hw1 := InvW_erase_stale s gid g c hInv hg hcl1 hstale
      have hmapE : ∀ j, mlookup (merase s.group_of_arrival gid) j =
          if j = gid then none else mlookup s.group_of_arrival j :=
        fun j => mlookup_merase _ _ _
      apply singleUpdate_master _ c true ci
      · exact InvW_R_mono _ _ [] [c] [c] hw1 (by intro x hx; cases hx)
      · exact hci
      · exact hsp
      · exact hcN
      · intro i g2 hg2
        rw [hmapE] at hg2
        by_cases hj : i = gid
        · rw [if_pos hj] at hg2
          cases hg2
        · rw [if_neg hj] at hg2
          exact hInv.clPair gid i g g2 hg hg2 (fun h => hj h.symm) c hcg
      · intro i g2 hg2
        rw [hmapE] at hg2
        by_cases hj : i = gid
        · rw [if_pos hj] at hg2
          cases hg2
        · rw [if_neg hj] at hg2
          exact harothers i g2 hg2 hj
      · intro i g2 hg2 hic hpd
        rw [hmapE] at hg2
        by_cases hj : i = gid
        · rw [if_pos hj] at hg2
          cases hg2
        · rw [if_neg hj] at hg2
          exact hcarothers i g2 hg2 hj hpd
    · rw [if_neg hfe]
      have hw1 := InvW_remove_client s gid g c hInv hg hcg
      have hmapM : ∀ j, mlookup (mmodify s.group_of_arrival gid (fun _ => { g with clients := g.clients.filter (fun x => x ≠ c) })) j =
          if j = gid then some { g with clients := g.clients.filter (fun x => x ≠ c) } else mlookup s.group_of_arrival j := by
        intro j
        rw [mlookup_mmodify]
        by_cases hj : j = gid
        · rw [if_pos hj, if_pos hj, hg]
          rfl
        · rw [if_neg hj, if_neg hj]
      apply singleUpdate_master _ c true ci
      · exact InvW_R_mono _ _ [] [c] [c] hw1 (by intro x hx; cases hx)
      · exact hci
      · exact hsp
      · exact hcN
      · intro i g2 hg2
        rw [hmapM] at hg2
        by_cases hj : i = gid
        · rw [if_pos hj] at hg2
          injection hg2 with e
          subst e
          intro hmem
          have h1 := List.mem_filter.mp hmem
          simp at h1
        · rw [if_neg hj] at hg2
          exact hInv.clPair gid i g g2 hg hg2 (fun h => hj h.symm) c hcg
      · intro i g2 hg2
        rw [hmapM] at hg2
        by_cases hj : i = gid
        · rw [if_pos hj] at hg2
          injection hg2 with e
          subst e
          intro hmem
          exact absurd hmem hcar0
        · rw [if_neg hj] at hg2
          exact harothers i g2 hg2 hj
      · intro i g2 hg2 hic hpd
        rw [hmapM] at hg2
        by_cases hj : i = gid
        · rw [if_pos hj] at hg2
          injection hg2 with e
          subst e
          exact hcar0
        · rw [if_neg hj] at hg2
          exact hcarothers i g2 hg2 hj hpd
  · rw [groupUpdate_timely_eq s c gid g hg hlate]
    dsimp only
    have hnz : ¬ zeroG g :=
      zeroG_not_of_pos (lt_of_le_of_lt hInv.nowNN (not_le.mp hlate))
    have hInv1 : Inv { s with group_of_arrival := mmodify s.group_of_arrival gid (fun h => { h with clients := h.clients.filter (fun x => x ≠ c), arrived_clients := h.arrived_clients ++ [c] }) } :=
      Inv_move_arrived s gid g c ci hInv hg hcg hci hgoa (Or.inl hnz)
    set s1m : Sched := { s with group_of_arrival := mmodify s.group_of_arrival gid (fun h => { h with clients := h.clients.filter (fun x => x ≠ c), arrived_clients := h.arrived_clients ++ [c] }) } with hs1m
    set gm : GOA := { g with clients := g.clients.filter (fun x => x ≠ c), arrived_clients := g.arrived_clients ++ [c] } with hgm
    have hInv2 : Inv (serverBuffer s1m gid) :=
      InvW_serverBuffer s1m gid s1m.group_counter [] [] hInv1
    have hlook2 : mlookup (serverBuffer s1m gid).group_of_arrival gid = some gm := by
      show mlookup (mmodify s.group_of_arrival gid _) gid = some gm
      rw [mlookup_mmodify, if_pos rfl, hg]
      rfl
    rw [hlook2]
    dsimp only
    by_cases hfe : gm.clients = []
    · rw [if_pos hfe]
      have hnzm : ¬ zeroG gm := hnz
      have hgnem : gid ≠ (serverBuffer s1m gid).group_counter := hgne
      apply groupAggregation_master (serverBuffer s1m gid) gid gm hlook2
        (Inv_weaken_at _ gid gm hlook2 hInv2)
      · intro x hx ci2 hci2
        exact hInv2.arOwn gid gm hlook2 hgnem (Or.inl hnzm) x hx ci2 hci2
      · exact Or.inr hfe
    · rw [if_neg hfe]
      exact hInv2

theorem smoothSpeed_nonneg {old sample : ℚ} (h1 : 0 ≤ old) (h2 : 0 ≤ sample) :
    0 ≤ smoothSpeed old sample := by
  unfold smoothSpeed SPEED_MOMENTUM
  nlinarith

/-- A deadline firing restores the full invariant: the pending entry is
consumed and `_group_aggregation` runs on its group. -/
theorem Inv_fire (s : Sched) (gid : Nat) (t : ℚ)
    (hInv : Inv s) (hmem : (gid, t) ∈ s.pend) (hle : s.now ≤ t) :
    Inv (groupAggregation { s with now := t, pend := s.pend.filter (fun p => p ≠ (gid, t)) } gid) := by
  set s1 : Sched := { s with now := t, pend := s.pend.filter (fun p => p ≠ (gid, t)) } with hs1
  have hpend1 : s1.pend = s.pend.filter (fun p => p ≠ (gid, t)) := rfl
  have hsub : ∀ p ∈ s1.pend, p ∈ s.pend := by
    intro p hp
    rw [hpend1] at hp
    exact (List.mem_filter.mp hp).1
  have hgout : gid ∉ pendIds s1 := by
    intro hpd
    obtain ⟨p, hp, hpfst⟩ := List.mem_map.mp hpd
    rw [hpend1] at hp
    obtain ⟨hp1, hp2⟩ := List.mem_filter.mp hp
    have hpe : p = (gid, t) := keys_nodup_inj hInv.pendND hp1 hmem hpfst
    rw [hpe] at hp2
    simp at hp2
  have hiff : ∀ i, i ≠ gid → (i ∈ pendIds s1 ↔ i ∈ pendIds s) := by
    intro i hig
    constructor
    · intro hpd
      obtain ⟨p, hp, hpfst⟩ := List.mem_map.mp hpd
      exact List.mem_map.mpr ⟨p, hsub p hp, hpfst⟩
    · intro hpd
      obtain ⟨p, hp, hpfst⟩ := List.mem_map.mp hpd
      refine List.mem_map.mpr ⟨p, ?_, hpfst⟩
      rw [hpend1]
      refine List.mem_filter.mpr ⟨hp, ?_⟩
      have hne : p ≠ (gid, t) := by
        intro hpe
        apply hig
        rw [← hpfst, hpe]
      simp [hne]
  have hnowNN : 0 ≤ s1.now := le_trans hInv.nowNN hle
  have hpendND1 : (pendIds s1).Nodup :=
    hInv.pendND.sublist ((List.filter_sublist _).map Prod.fst)
  have hpendLt1 : ∀ p ∈ s1.pend, p.1 < s1.group_counter :=
    fun p hp => hInv.pendLt p (hsub p hp)
  cases hlook : mlookup s.group_of_arrival gid with
  | none =>
    rw [groupAggregation_none s1 gid hlook]
    refine ⟨hnowNN, hInv.oneM, hInv.oneMin, hInv.keysLt, hInv.keysND,
      hpendLt1, hpendND1, ?_, ?_, hInv.clND, hInv.arND, hInv.clArDisj,
      hInv.clPair, hInv.clOwn, hInv.arMem, ?_, ?_, hInv.arG, ?_⟩
    · intro p hp hpg g2 hg2
      exact hInv.pendSched p (hsub p hp) hpg g2 hg2
    · intro i g2 hg2 hig hnp
      have hig2 : i ≠ gid := by
        intro he
        rw [he, hlook] at hg2
        cases hg2
      refine hInv.liveZero i g2 hg2 hig ?_
      intro hpd
      exact hnp ((hiff i hig2).mpr hpd)
    · intro i g2 hg2 hig hpre x hx ci hci
      refine hInv.arOwn i g2 hg2 hig ?_ x hx ci hci
      rcases hpre with hnz | hpd
      · exact Or.inl hnz
      · exact Or.inr (List.mem_map.mp hpd |>.elim
          (fun p hp => List.mem_map.mpr ⟨p, hsub p hp.1, hp.2⟩))
    · intro i g2 hg2 hig hz hnp x hx ci hci
      have hig2 : i ≠ gid := by
        intro he
        rw [he, hlook] at hg2
        cases hg2
      refine hInv.arStale i g2 hg2 hig hz ?_ x hx ci hci
      intro hpd
      exact hnp ((hiff i hig2).mpr hpd)
    · intro j hj ci hci
      obtain ⟨h0, h1, h2, h3, g4, hg4, hmem4⟩ := hInv.ciOk j hj ci hci
      exact ⟨h0, h1, le_trans h2 hle, h3, g4, hg4, hmem4⟩
  | some g =>
    have hgne : gid ≠ s.group_counter := by
      have := hInv.keysLt _ (mem_of_mlookup hlook)
      omega
    have hw : InvW s1 gid g.arrived_clients [] := by
      refine ⟨hnowNN, hInv.oneM, hInv.oneMin, hInv.keysLt, hInv.keysND,
        hpendLt1, hpendND1, ?_, ?_, hInv.clND, hInv.arND, hInv.clArDisj,
        hInv.clPair, hInv.clOwn, hInv.arMem, ?_, ?_, ?_, ?_⟩
      · intro p hp hpg g2 hg2
        have hpc : p.1 ≠ s.group_counter := by
          have := hInv.pendLt p (hsub p hp)
          omega
        exact hInv.pendSched p (hsub p hp) hpc g2 hg2
      · intro i g2 hg2 hig hnp
        have hic : i ≠ s.group_counter := by
          have := hInv.keysLt _ (mem_of_mlookup hg2)
          omega
        refine hInv.liveZero i g2 hg2 hic ?_
        intro hpd
        exact hnp ((hiff i hig).mpr hpd)
      · intro i g2 hg2 hig hpre x hx ci hci
        have hic : i ≠ s.group_counter := by
          have := hInv.keysLt _ (mem_of_mlookup hg2)
          omega
        refine hInv.arOwn i g2 hg2 hic ?_ x hx ci hci
        rcases hpre with hnz | hpd
        · exact Or.inl hnz
        · exact Or.inr (List.mem_map.mp hpd |>.elim
            (fun p hp => List.mem_map.mpr ⟨p, hsub p hp.1, hp.2⟩))
      · intro i g2 hg2 hig hz hnp x hx ci hci
        have hic : i ≠ s.group_counter := by
          have := hInv.keysLt _ (mem_of_mlookup hg2)
          omega
        refine hInv.arStale i g2 hg2 hic hz ?_ x hx ci hci
        intro hpd
        exact hnp ((hiff i hig).mpr hpd)
      · intro g2 hg2 x hx ci hci hgl
        rw [hlook] at hg2
        injection hg2 with e
        subst e
        exact hx
      · intro j hj ci hci
        obtain ⟨h0, h1, h2, h3, g4, hg4, hmem4⟩ := hInv.ciOk j hj ci hci
        exact ⟨h0, h1, le_trans h2 hle, h3, g4, hg4, hmem4⟩
    have hown : ∀ x ∈ g.arrived_clients, ∀ ci, s1.client_info x = some ci →
        ci.goa = (gid : Int) := by
      intro x hx ci hci
      exact hInv.arOwn gid g hlook hgne
        (Or.inr (List.mem_map.mpr ⟨(gid, t), hmem, rfl⟩)) x hx ci hci
    exact groupAggregation_master s1 gid g hlook hw hown (Or.inl hgout)

/-- A client arrival (model return) restores the full invariant:
`_record_info` then `SchedulerCompass::_update`. -/
theorem Inv_arrive (s : Sched) (c : Nat) (t : ℚ) (hInv : Inv s)
    (hcN : c < s.num_clients) (ht : s.now ≤ t)
    (hgate : ∀ p ∈ s.pend, ∀ g2, mlookup s.group_of_arrival p.1 = some g2 →
      t < p.2)
    (hready : clientReadyB s c = true) :
    Inv (schedUpdateClient (recordInfo { s with now := t } c) c) := by
  set sA : Sched := { s with now := t } with hsA
  have hInvA : Inv sA := InvW_now_mono s s.group_counter [] [] t hInv ht
  cases hcase : s.client_info c with
  | none =>
    have hcaseA : sA.client_info c = none := hcase
    have hrec : recordInfo sA c = setCI sA c { ciDefault with speed := (sA.now - 0) / ((sA.max_local_steps : ℚ)), step := 0, total_steps := sA.min_local_steps } := by
      unfold recordInfo
      rw [hcaseA]
    rw [hrec]
    set ciB : ClientInfo := { ciDefault with speed := (sA.now - 0) / ((sA.max_local_steps : ℚ)), step := 0, total_steps := sA.min_local_steps } with hciB
    have hspB : 0 ≤ ciB.speed := by
      show 0 ≤ (sA.now - 0) / ((sA.max_local_steps : ℚ))
      apply div_nonneg
      · have h1 : (0 : ℚ) ≤ t := le_trans hInv.nowNN ht
        show (0 : ℚ) ≤ t - 0
        linarith
      · have h1 : (1 : Int) ≤ s.max_local_steps := hInv.oneM
        show (0 : ℚ) ≤ ((s.max_local_steps : Int) : ℚ)
        exact_mod_cast (by omega : (0 : Int) ≤ s.max_local_steps)
    have hwB : InvW (setCI sA c ciB) s.group_counter [] [c] :=
      InvW_setCI_fresh sA s.group_counter [] c ciB hInvA hcaseA
    set sB := setCI sA c ciB with hsB
    have hciBs : sB.client_info c = some ciB := by
      show (if c = c then some ciB else sA.client_info c) = some ciB
      rw [if_pos rfl]
    unfold schedUpdateClient
    dsimp only
    have hgd1 : ciGetD { sB with iter := sB.iter + 1 } c = ciB := by
      unfold ciGetD
      show (sB.client_info c).getD ciDefault = ciB
      rw [hciBs]
      rfl
    rw [hgd1]
    have hgoaB : ciB.goa = -1 := rfl
    rw [if_pos hgoaB]
    set s1 : Sched := { sB with iter := sB.iter + 1 } with hs1
    have hw1 : InvW s1 s.group_counter [] [c] := by
      rw [hs1]
      exact InvW_serverFields sB s.group_counter [] [c] sB.global_step
        sB.general_buffer_size sB.group_pseudo_grad sB.sent (sB.iter + 1) hwB
    have hnoc : ∀ i g2, mlookup s1.group_of_arrival i = some g2 →
        c ∉ g2.clients ∧ c ∉ g2.arrived_clients := by
      intro i g2 hg2
      have hg2s : mlookup s.group_of_arrival i = some g2 := hg2
      constructor
      · intro hmem
        obtain ⟨h1, ci', hci', h2⟩ := hInv.clOwn i g2 hg2s c hmem
        rw [hcase] at hci'
        cases hci'
      · intro hmem
        have h2 := (hInv.arMem i g2 hg2s c hmem).2
        rw [hcase] at h2
        cases h2
    apply singleUpdate_master s1 c false ciB
    · exact InvW_R_mono s1 _ [] [c] [c] (by
        show InvW s1 s1.group_counter [] [c]
        exact hw1) (by intro x hx; cases hx)
    · exact hciBs
    · exact hspB
    · exact hcN
    · intro i g2 hg2
      exact (hnoc i g2 hg2).1
    · intro i g2 hg2 hmem
      exact absurd hmem (hnoc i g2 hg2).2
    · intro i g2 hg2 hic hpd
      exact (hnoc i g2 hg2).2
  | some ci =>
    have hciOk := hInv.ciOk c (by simp) ci hcase
    obtain ⟨hsp0, hls0, hst0, hgoa0, gW, hgW, hmemW⟩ := hciOk
    unfold clientReadyB at hready
    rw [hcase] at hready
    rw [Bool.and_eq_true] at hready
    obtain ⟨hr1, hr2⟩ := hready
    cases hlook : mlookup s.group_of_arrival ci.goa.toNat with
    | none =>
      rw [hlook] at hr2
      cases hr2
    | some g =>
      rw [hlook] at hr2
      have hcg : c ∈ g.clients := of_decide_eq_true hr2
      have hcaseA : sA.client_info c = some ci := hcase
      have hrec : recordInfo sA c = setCI sA c { ci with speed := smoothSpeed ci.speed ((sA.now - ci.start_time) / ((ci.local_steps : ℚ))) } := by
        unfold recordInfo
        rw [hcaseA]
      rw [hrec]
      set ciS : ClientInfo := { ci with speed := smoothSpeed ci.speed ((sA.now - ci.start_time) / ((ci.local_steps : ℚ))) } with hciS
      have hspS : 0 ≤ ciS.speed := by
        show 0 ≤ smoothSpeed ci.speed ((sA.now - ci.start_time) / ((ci.local_steps : ℚ)))
        apply smoothSpeed_nonneg hsp0
        apply div_nonneg
        · show (0 : ℚ) ≤ t - ci.start_time
          have h2 : ci.start_time ≤ s.now := hst0
          linarith
        · exact_mod_cast (by omega : (0 : Int) ≤ ci.local_steps)
      have hInvB : Inv (setCI sA c ciS) :=
        InvW_setCI_compat sA s.group_counter [] [] c ci ciS hInvA hcaseA
          rfl rfl rfl (fun _ => hspS)
      set sB := setCI sA c ciS with hsB
      have hciBs : sB.client_info c = some ciS := by
        show (if c = c then some ciS else sA.client_info c) = some ciS
        rw [if_pos rfl]
      unfold schedUpdateClient
      dsimp only
      have hgd1 : ciGetD { sB with iter := sB.iter + 1 } c = ciS := by
        unfold ciGetD
        show (sB.client_info c).getD ciDefault = ciS
        rw [hciBs]
        rfl
      rw [hgd1]
      have hgoaS : ¬ (ciS.goa = -1) := by
        show ¬ (ci.goa = -1)
        omega
      rw [if_neg hgoaS]
      set s1 : Sched := { sB with iter := sB.iter + 1 } with hs1
      have hInv1 : Inv s1 := by
        rw [hs1]
        exact InvW_serverFields sB s.group_counter [] [] sB.global_step
          sB.general_buffer_size sB.group_pseudo_grad sB.sent (sB.iter + 1)
          hInvB
      have hci1 : s1.client_info c = some ciS := hciBs
      have hgoa1 : ciS.goa = ((ciS.goa.toNat : Nat) : Int) := by
        show ci.goa = ((ci.goa.toNat : Nat) : Int)
        rw [Int.toNat_of_nonneg hgoa0]
      have hg1 : mlookup s1.group_of_arrival ciS.goa.toNat = some g := hlook
      have hgate1 : ∀ p ∈ s1.pend, ∀ g2,
          mlookup s1.group_of_arrival p.1 = some g2 → s1.now < p.2 := by
        intro p hp g2 hg2
        show t < p.2
        exact hgate p hp g2 hg2
      exact groupUpdate_master s1 c ciS.goa.toNat ciS g hInv1 hci1 hgoa1 hg1
        hcg hgate1

/-- One admissible scheduler event preserves the invariant. -/
theorem Inv_runEvent (s s2 : Sched) (e : Ev) (hInv : Inv s)
    (h : runEvent s e = some s2) : Inv s2 := by
  cases e with
  | arrive c t =>
    unfold runEvent at h
    dsimp only at h
    by_cases hc : (decide (c < s.num_clients) && decide (s.now ≤ t) &&
        deadlineGateB s t && clientReadyB s c) = true
    · rw [if_pos hc] at h
      injection h with h
      subst h
      rw [Bool.and_eq_true, Bool.and_eq_true, Bool.and_eq_true] at hc
      obtain ⟨⟨⟨h1, h2⟩, h3⟩, h4⟩ := hc
      refine Inv_arrive s c t hInv (of_decide_eq_true h1)
        (of_decide_eq_true h2) ?_ h4
      intro p hp g2 hg2
      unfold deadlineGateB at h3
      rw [List.all_eq_true] at h3
      have h5 := h3 p hp
      rw [Bool.or_eq_true] at h5
      rcases h5 with hh | hh
      · rw [hg2] at hh
        simp at hh
      · exact of_decide_eq_true hh
    · rw [if_neg hc] at h
      cases h
  | fire gid t =>
    unfold runEvent at h
    dsimp only at h
    by_cases hc : (decide ((gid, t) ∈ s.pend) && decide (s.now ≤ t)) = true
    · rw [if_pos hc] at h
      injection h with h
      subst h
      rw [Bool.and_eq_true] at hc
      obtain ⟨h1, h2⟩ := hc
      exact Inv_fire s gid t hInv (of_decide_eq_true h1) (of_decide_eq_true h2)
    · rw [if_neg hc] at h
      cases h

/-- Every admissible trace preserves the invariant. -/
theorem Inv_runTrace : ∀ (evs : List Ev) (s s2 : Sched), Inv s →
    runTrace s evs = some s2 → Inv s2
  | [], s, s2, hInv, h => by
    unfold runTrace at h
    injection h with h
    subst h
    exact hInv
  | e :: evs, s, s2, hInv, h => by
    unfold runTrace at h
    cases he : runEvent s e with
    | none =>
      rw [he] at h
      cases h
    | some s3 =>
      rw [he] at h
      exact Inv_runTrace evs s3 s2 (Inv_runEvent s s3 e hInv he) h

/-- The constructor state satisfies the invariant (for `1 ≤ M`). -/
theorem Inv_initSched (M : Int) (N : Nat) (E : Int) (qv lam : ℚ)
    (hM : 1 ≤ M) : Inv (initSched M N E qv lam) := by
  refine ⟨le_refl 0, hM, le_max_right _ _, ?_, ?_, ?_, ?_, ?_, ?_, ?_, ?_,
    ?_, ?_, ?_, ?_, ?_, ?_, ?_, ?_⟩
  · intro p hp
    cases hp
  · exact List.nodup_nil
  · intro p hp
    cases hp
  · exact List.nodup_nil
  · intro p hp
    cases hp
  · intro i g hg
    exact Option.noConfusion hg
  · intro i g hg
    exact Option.noConfusion hg
  · intro i g hg
    exact Option.noConfusion hg
  · intro i g hg
    exact Option.noConfusion hg
  · intro i j gi gj hgi
    exact Option.noConfusion hgi
  · intro i g hg
    exact Option.noConfusion hg
  · intro i g hg
    exact Option.noConfusion hg
  · intro i g hg
    exact Option.noConfusion hg
  · intro i g hg
    exact Option.noConfusion hg
  · intro g hg
    exact Option.noConfusion hg
  · intro j hj ci hci
    exact Option.noConfusion hci

/-- C1 (amended).  Along every admissible trace from the constructor state
(`1 ≤ max_local_steps`), the scheduler keeps every client in the `clients`
list of at most one group, and no client is simultaneously in the
`clients` and `arrived_clients` lists of the same group.  (The
unamended claim — that a client also never lingers in the
`arrived_clients` list of a group it has been reassigned away from — is
refuted by `C1_counterexample`.) -/
theorem C1_invariant (M : Int) (N : Nat) (E : Int) (qv lam : ℚ)
    (evs : List Ev) (s2 : Sched) (hM : 1 ≤ M)
    (h : runTrace (initSched M N E qv lam) evs = some s2) :
    (∀ i j, i ≠ j → ∀ x ∈ grpClients s2 i, x ∉ grpClients s2 j) ∧
    (∀ i, ∀ x ∈ grpClients s2 i, x ∉ grpArrived s2 i) := by
  have hInv := Inv_runTrace evs _ s2 (Inv_initSched M N E qv lam hM) h
  constructor
  · intro i j hij x hxi
    unfold grpClients at hxi ⊢
    cases hgi : mlookup s2.group_of_arrival i with
    | none =>
      rw [hgi] at hxi
      simp [goaDefault] at hxi
    | some gi =>
      rw [hgi] at hxi
      cases hgj : mlookup s2.group_of_arrival j with
      | none =>
        simp [goaDefault]
      | some gj =>
        exact hInv.clPair i j gi gj hgi hgj hij x hxi
  · intro i x hxi
    unfold grpClients at hxi
    unfold grpArrived
    cases hgi : mlookup s2.group_of_arrival i with
    | none =>
      rw [hgi] at hxi
      simp [goaDefault] at hxi
    | some gi =>
      rw [hgi] at hxi
      exact hInv.clArDisj i gi hgi x hxi

theorem C1_invariant_witness :
    (1 : Int) ≤ 10 ∧
    runTrace (initSched 10 2 100 (1/5) (3/2)) [] =
      some (initSched 10 2 100 (1/5) (3/2)) ∧
    ((∀ i j, i ≠ j → ∀ x ∈ grpClients (initSched 10 2 100 (1/5) (3/2)) i,
        x ∉ grpClients (initSched 10 2 100 (1/5) (3/2)) j) ∧
     (∀ i, ∀ x ∈ grpClients (initSched 10 2 100 (1/5) (3/2)) i,
        x ∉ grpArrived (initSched 10 2 100 (1/5) (3/2)) i)) :=
  ⟨by norm_num, rfl,
    C1_invariant 10 2 100 (1/5) (3/2) [] _ (by norm_num) rfl⟩

/-! ## Counterexamples for claims C1 and C3 (concrete scheduler runs) -/

theorem cexOne_facts :
    (runTrace cexSched cexTraceOne).map
      (fun s => (grpLive s 0, grpExpected s 0, grpLatest s 0)) =
      some (true, 2, 23/20) := by
  norm_num [cexSched, cexTraceOne, runTrace, runEvent, initSched, deadlineGateB,
    clientReadyB, recordInfo, setCI, ciGetD, ciDefault, schedUpdateClient,
    singleUpdate, serverUpdate, serverSingleBuffer, assignGroup, joinGroup,
    joinScan, createGroup, createScan, createAssignedSteps, fastestSpeed,
    sendModel, sendGlobalModelToClient, serverUpdateAll, minsert, mlookup,
    mmodify, merase, grpLive, grpExpected, grpLatest, goaDefault, truncInt,
    pendIds, smoothSpeed, SPEED_MOMENTUM]

/-- C3 counterexample.  After the single bootstrap arrival of client 0 at
`t = 1` (speed sample `1/10`, `M = 10`, `λ = 3/2`), the first group — created
by `_assign_group`'s empty-map branch — is live with
`expected_arrival_time = 1 + 10·(1/10) = 2` but
`latest_arrival_time = 1 + (1/10)·(3/2) = 23/20`, so
`expected_arrival_time ≤ latest_arrival_time` fails for a live group. -/
theorem C3_counterexample :
    grpLive cexStateOne 0 = true ∧ grpExpected cexStateOne 0 = 2 ∧
    grpLatest cexStateOne 0 = 23/20 ∧
    ¬ (grpExpected cexStateOne 0 ≤ grpLatest cexStateOne 0) := by
  have h := cexOne_facts
  cases hrun : runTrace cexSched cexTraceOne with
  | none => rw [hrun] at h; cases h
  | some st =>
    rw [hrun] at h
    have hst : cexStateOne = st := by
      unfold cexStateOne
      rw [hrun]
      rfl
    injection h with h
    rw [Prod.mk.injEq, Prod.mk.injEq] at h
    obtain ⟨h1, h2, h3⟩ := h
    rw [hst, h1, h2, h3]
    norm_num

set_option maxHeartbeats 4000000 in
theorem cexFull_facts :
    (runTrace cexSched cexTraceFull).map
      (fun s => (grpLive s 0, grpLive s 1, grpArrived s 0, grpClients s 1,
        grpClients s 0)) =
      some (true, true, [0], [0], [1]) := by
  norm_num [cexSched, cexTraceFull, runTrace, runEvent, initSched,
    deadlineGateB, clientReadyB, recordInfo, setCI, ciGetD, ciDefault,
    schedUpdateClient, singleUpdate, serverUpdate, serverSingleBuffer,
    assignGroup, joinGroup, joinScan, createGroup, createScan,
    createAssignedSteps, fastestSpeed, sendModel, sendGlobalModelToClient,
    serverUpdateAll, serverBuffer, serverUpdateGroup, groupUpdate,
    groupAggregation, insSorted, sortBySpeed, minsert, mlookup, mmodify,
    merase, grpLive, grpArrived, grpClients, goaDefault, truncInt, pendIds,
    smoothSpeed, SPEED_MOMENTUM]

/-- C1 counterexample.  In the four-event run `cexTraceFull`
(client 0 founds group 0; client 1 joins it; client 0 arrives before the
deadline; the deadline fires while client 1 is still training), the
aggregation pass reassigns the arrived client 0 into the fresh group 1 —
but client 0 also remains in group 0's `arrived_clients`, with both groups
live.  This refutes the claim's parenthetical: a client reassigned during
`_group_aggregation` does remain in the old group's `arrived_clients` while
standing in the new group's `clients`. -/
theorem C1_counterexample :
    grpLive cexStateFull 0 = true ∧ grpLive cexStateFull 1 = true ∧
    grpArrived cexStateFull 0 = [0] ∧ grpClients cexStateFull 1 = [0] ∧
    grpClients cexStateFull 0 = [1] := by
  have h := cexFull_facts
  cases hrun : runTrace cexSched cexTraceFull with
  | none => rw [hrun] at h; cases h
  | some st =>
    rw [hrun] at h
    have hst : cexStateFull = st := by
      unfold cexStateFull
      rw [hrun]
      rfl
    injection h with h
    rw [Prod.mk.injEq, Prod.mk.injEq, Prod.mk.injEq, Prod.mk.injEq] at h
    obtain ⟨h1, h2, h3, h4, h5⟩ := h
    rw [hst, h1, h2, h3, h4, h5]
    exact ⟨rfl, rfl, rfl, rfl, rfl⟩

/-- C3 as amended: at creation, every group made by `_create_group`
satisfies `now ≤ expected_arrival_time ≤ latest_arrival_time` (given a
nonnegative speed estimate and `λ ≥ 1`); the first group made by
`_assign_group`'s empty-map branch has
`expected = now + M·speed` and `latest = now + speed·λ`, both at least the
creation time `now` — but `expected ≤ latest` can fail there (the
counterexample), since `latest` uses a single-step horizon. -/
theorem C3_deadline_bounds (s : Sched) (c : Nat)
    (hmin : 1 ≤ s.min_local_steps) (hM : 1 ≤ s.max_local_steps)
    (hsp : 0 ≤ (ciGetD s c).speed) (hlam : 1 ≤ s.LATEST_TIME_FACTOR) :
    (s.now ≤ grpExpected (createGroup s c) s.group_counter ∧
     grpExpected (createGroup s c) s.group_counter ≤
       grpLatest (createGroup s c) s.group_counter) ∧
    (s.group_of_arrival = [] →
      grpExpected (assignGroup s c) s.group_counter =
        s.now + ((s.max_local_steps : ℚ)) * (ciGetD s c).speed ∧
      grpLatest (assignGroup s c) s.group_counter =
        s.now + (ciGetD s c).speed * s.LATEST_TIME_FACTOR ∧
      s.now ≤ grpExpected (assignGroup s c) s.group_counter ∧
      s.now ≤ grpLatest (assignGroup s c) s.group_counter) := by
  have ha := createAssignedSteps_pos s c hmin hM
  have haQ : (0 : ℚ) ≤ ((createAssignedSteps s c : Int) : ℚ) := by
    exact_mod_cast (by omega : (0 : Int) ≤ createAssignedSteps s c)
  have hprod : (0 : ℚ) ≤ ((createAssignedSteps s c : Int) : ℚ) * (ciGetD s c).speed :=
    mul_nonneg haQ hsp
  constructor
  · have hexp : grpExpected (createGroup s c) s.group_counter =
        s.now + ((createAssignedSteps s c : Int) : ℚ) * (ciGetD s c).speed := by
      unfold grpExpected createGroup
      simp [setCI, mlookup_minsert]
    have hlat : grpLatest (createGroup s c) s.group_counter =
        s.now + ((createAssignedSteps s c : Int) : ℚ) * (ciGetD s c).speed *
          s.LATEST_TIME_FACTOR := by
      unfold grpLatest createGroup
      simp [setCI, mlookup_minsert]
    rw [hexp, hlat]
    constructor
    · linarith
    · have := le_mul_of_one_le_right hprod hlam
      linarith
  · intro hempty
    have hMQ : (0 : ℚ) ≤ ((s.max_local_steps : Int) : ℚ) := by
      exact_mod_cast (by omega : (0 : Int) ≤ s.max_local_steps)
    have hexp : grpExpected (assignGroup s c) s.group_counter =
        s.now + ((s.max_local_steps : ℚ)) * (ciGetD s c).speed := by
      unfold grpExpected assignGroup
      rw [if_pos hempty]
      simp [setCI, mlookup_minsert]
    have hlat : grpLatest (assignGroup s c) s.group_counter =
        s.now + (ciGetD s c).speed * s.LATEST_TIME_FACTOR := by
      unfold grpLatest assignGroup
      rw [if_pos hempty]
      simp [setCI, mlookup_minsert]
    refine ⟨hexp, hlat, ?_, ?_⟩
    · rw [hexp]
      have := mul_nonneg hMQ hsp
      linarith
    · rw [hlat]
      have hlam0 : (0 : ℚ) ≤ s.LATEST_TIME_FACTOR := by linarith
      have := mul_nonneg hsp hlam0
      linarith

/-- Witness for C3 at a concrete state (`M = 10`, `q = 1/5`, `λ = 3/2`, one
client with speed estimate `1/10`). -/
theorem C3_witness :
    (setCI (initSched 10 2 100 (1/5) (3/2)) 0
        { ciDefault with speed := 1/10 }).now ≤
      grpExpected (createGroup (setCI (initSched 10 2 100 (1/5) (3/2)) 0
        { ciDefault with speed := 1/10 }) 0)
        (setCI (initSched 10 2 100 (1/5) (3/2)) 0
          { ciDefault with speed := 1/10 }).group_counter ∧
    grpExpected (createGroup (setCI (initSched 10 2 100 (1/5) (3/2)) 0
        { ciDefault with speed := 1/10 }) 0)
        (setCI (initSched 10 2 100 (1/5) (3/2)) 0
          { ciDefault with speed := 1/10 }).group_counter ≤
      grpLatest (createGroup (setCI (initSched 10 2 100 (1/5) (3/2)) 0
        { ciDefault with speed := 1/10 }) 0)
        (setCI (initSched 10 2 100 (1/5) (3/2)) 0
          { ciDefault with speed := 1/10 }).group_counter :=
  (C3_deadline_bounds (setCI (initSched 10 2 100 (1/5) (3/2)) 0
      { ciDefault with speed := 1/10 }) 0
    (by norm_num [setCI, initSched, truncInt])
    (by norm_num [setCI, initSched])
    (by norm_num [setCI, initSched, ciGetD, ciDefault])
    (by norm_num [setCI, initSched])).1

end FedDES
